import Mathlib

/-!
# easyssl: the reactor of `easyssl.c`, embedded in Lean

A shallow embedding of the connection table, `easyssl_drop`, `my_findterm`
and the three phases of one pass of the `while (1)` loop of `easyssl`
(timeout, accept, client input), followed by theorems about them.

Conventions of the embedding

* `int` fields are `Int`; no value in the development leaves the `int` range.
* A byte is a `Nat`; the terminators are `0` (NUL), `10` (LF), `13` (CR), `4` (^D).
* `inbuf` is the content of the `BSIZ` bytes the pointer refers to; the empty
  list stands for the `NULL` pointer.  `bptr` is the offset of the read pointer
  from `inbuf`.
* `ssl` is `none` for `NULL` and `some h` for a handle.
* The table `IPCL` is a list of `MAXCL` slots, `RDSET` the list of descriptors
  in the read set.
* What the operating system and libssl answer (select, accept, malloc,
  SSL_accept, SSL_read) is an input of the phase that asks for it.
* The client handler is a parameter.  A call of the handler is recorded in
  `events` together with a copy of the structure it is given; its answer says
  whether it calls `easyssl_drop` on that structure before it returns.
* Calls that release or read a connection are recorded in `sys`.
* `exit(1)` is the result `none`.
-/

namespace EasySSL

/-- Size of the client buffers (`#define BSIZ 1024`). -/
abbrev BSIZ : Nat := 1024

/-- Number of client slots (`#define MAXCL 32`). -/
abbrev MAXCL : Nat := 32

/-- Event code `TIMER_EXPIRED`. -/
abbrev TIMER_EXPIRED : Int := 0
/-- Event code `CLIENT_CONNECT`. -/
abbrev CLIENT_CONNECT : Int := 1
/-- Event code `CLIENT_DATA`. -/
abbrev CLIENT_DATA : Int := 2
/-- Event code `CLIENT_ERROR`. -/
abbrev CLIENT_ERROR : Int := 4
/-- Event code `CLIENT_OVERFL`. -/
abbrev CLIENT_OVERFL : Int := 5
/-- Event code `CLIENT_TIMEOUT`. -/
abbrev CLIENT_TIMEOUT : Int := 6

/-- Client control data, `struct ipclient`, with the fields `easyssl.c` uses
(`tictoc`, `bptr`, `rdcnt` and `overflow` are used by the code although the
header under `src/` does not declare them). -/
structure ipclient where
  cid : Int := 0
  sock : Int := 0
  inbuf : List Nat := []
  ip : Nat := 0
  port : Int := 0
  bcnt : Int := 0
  tictoc : Int := 0
  ssl : Option Nat := none
  bptr : Int := 0
  rdcnt : Int := 0
  overflow : Int := 0
deriving DecidableEq, Repr, Inhabited

/-- One call of the client handler: the event code and, unless the pointer is
`NULL`, the index of the slot and a copy of the structure at the time of the
call. -/
structure Event where
  code : Int
  arg : Option (Nat × ipclient)
deriving DecidableEq, Repr

/-- Calls into libssl and the socket layer that the development keeps track of. -/
inductive Sys where
  | SSL_free (h : Nat)
  | shutdown (fd : Int)
  | closesocket (fd : Int)
  | SSL_read (h : Option Nat) (num : Int)
deriving DecidableEq, Repr

/-- The client handler: given the event code and the structure, does it call
`easyssl_drop` on the structure. -/
abbrev Handler := Int → ipclient → Bool

/-- Process state of the server: the table `IPCL`, the read set `RDSET`, the
previous minute `ptime`, and the two records of calls. -/
structure Srv where
  IPCL : List ipclient
  RDSET : List Int
  ptime : Int
  events : List Event
  sys : List Sys
deriving DecidableEq, Repr

/-- The slot `IPCL[clnt]`. -/
def slot (s : Srv) (clnt : Nat) : ipclient :=
  s.IPCL.getD clnt default

/-- Assignment to fields of `IPCL[clnt]`. -/
def upd (s : Srv) (clnt : Nat) (f : ipclient → ipclient) : Srv :=
  { s with IPCL := s.IPCL.set clnt (f (slot s clnt)) }

/-- Record calls into libssl and the socket layer. -/
def syscall (s : Srv) (xs : List Sys) : Srv :=
  { s with sys := s.sys ++ xs }

/-- Record a call of the handler. -/
def emit (s : Srv) (e : Event) : Srv :=
  { s with events := s.events ++ [e] }

/-- The call `FD_CLR(fd, &RDSET)`. -/
def FD_CLR (s : Srv) (fd : Int) : Srv :=
  { s with RDSET := s.RDSET.filter (fun x => x ≠ fd) }

/-- The call `FD_SET(fd, &RDSET)`. -/
def FD_SET (s : Srv) (fd : Int) : Srv :=
  { s with RDSET := fd :: s.RDSET }

/-- Assignment to `ptime`. -/
def set_ptime (s : Srv) (t : Int) : Srv :=
  { s with ptime := t }

/-- State after `memset(&IPCL, 0, sizeof(IPCL)); FD_ZERO(&RDSET);` and the
listen socket `lsock` has been added to the read set; `ptime` is the start of
the current minute (`ctime - (ctime % 60)`). -/
def init (lsock ctime : Int) : Srv :=
  { IPCL := List.replicate MAXCL default
    RDSET := [lsock]
    ptime := ctime - ctime.tmod 60
    events := []
    sys := [] }

/-- The function `easyssl_drop` applied to `&IPCL[clnt]`. -/
def easyssl_drop (s : Srv) (clnt : Nat) : Srv :=
  let csock := (slot s clnt).sock
  let ssl := (slot s clnt).ssl
  if csock ≠ 0 then
    let s1 : Srv :=
      match ssl with
      | some h => upd (syscall s [Sys.SSL_free h]) clnt (fun c => { c with ssl := none })
      | none => s
    let s2 : Srv := syscall (FD_CLR s1 csock) [Sys.shutdown csock, Sys.closesocket csock]
    upd s2 clnt (fun c => { c with sock := 0 })
  else s

/-- The call `(*dispatch)(code, &IPCL[clnt])`: the call is recorded, then the
handler may drop the client it was given. -/
def dispatch (h : Handler) (s : Srv) (code : Int) (clnt : Nat) : Srv :=
  let s1 : Srv := emit s ⟨code, some (clnt, slot s clnt)⟩
  if h code (slot s clnt) then easyssl_drop s1 clnt else s1

/-- The call `(*dispatch)(code, NULL)`. -/
def dispatch_null (s : Srv) (code : Int) : Srv :=
  emit s ⟨code, none⟩

/-- The loop of `my_findterm`: `len` bytes remain to be looked at, `buf` is the
offset of the scan pointer.  The result is the offset returned (`none` for the
null pointer) and the structure as the function leaves it. -/
def my_findterm_loop (cl : ipclient) : Nat → Nat → Option Nat × ipclient
  | 0, _ => (none, cl)
  | len + 1, buf =>
    let c := cl.inbuf.getD buf 0
    if c = 0 then (some buf, cl)
    else if c = 10 ∨ c = 13 ∨ c = 4 then
      if cl.bcnt < BSIZ then
        (some (buf + 1),
          { cl with bcnt := cl.bcnt + 1, inbuf := cl.inbuf.set (buf + 1) 0 })
      else
        (some buf, { cl with inbuf := cl.inbuf.set buf 0 })
    else my_findterm_loop cl len (buf + 1)

/-- The function `my_findterm`: scan the `rdcnt` bytes from `bptr` on. -/
def my_findterm (cl : ipclient) : Option Nat × ipclient :=
  my_findterm_loop cl cl.rdcnt.toNat cl.bptr.toNat

/-- What the transport holds for a client when `SSL_read` is called:
plaintext bytes, an orderly end of data, or a fault. -/
inductive Rd where
  | data (bytes : List Nat)
  | eof
  | err (k : Nat)
deriving DecidableEq, Repr

/-- The call `SSL_read(ssl, bptr, num)`: the value returned and the bytes
stored from `bptr` on.  At most `num` bytes are returned; end of data
returns `0`, a fault a negative value. -/
def SSL_read (rd : Rd) (num : Int) : Int × List Nat :=
  match rd with
  | .data bytes => (((bytes.take num.toNat).length : Nat), bytes.take num.toNat)
  | .eof => (0, [])
  | .err k => (-((k : Int) + 1), [])

/-- Bytes the transport still holds after `SSL_read(ssl, bptr, num)`. -/
def SSL_rest (rd : Rd) (num : Int) : List Nat :=
  match rd with
  | .data bytes => bytes.drop num.toNat
  | _ => []

/-- Store `bytes` into the buffer from offset `off` on. -/
def poke (buf : List Nat) (off : Nat) (bytes : List Nat) : List Nat :=
  buf.take off ++ bytes ++ buf.drop (off + bytes.length)

/-- The string the handler sees at a `char *`: the bytes before the first NUL. -/
def cstr (buf : List Nat) : List Nat :=
  buf.takeWhile (fun b => b ≠ 0)

/-- Body of the loop "Search clients for input activity" for the slot `clnt`:
`fds` is the set `select` returned, `rd` what the transport of the slot holds. -/
def client_input (h : Handler) (fds : List Int) (rd : Rd) (s : Srv) (clnt : Nat) :
    Option Srv :=
  if (slot s clnt).sock = 0 then some s
  else if (slot s clnt).sock ∉ fds then some s
  else if (slot s clnt).inbuf = [] then none
  else
    let s1 := upd s clnt (fun c => { c with bptr := c.bcnt })
    let bfree : Int := (BSIZ : Int) - (slot s1 clnt).bcnt
    if bfree < 4 then
      let s2 := dispatch h s1 CLIENT_OVERFL clnt
      some (upd s2 clnt (fun c => { c with bcnt := 0, overflow := 1 }))
    else
      let r := SSL_read rd bfree
      let s2 : Srv :=
        upd (syscall s1 [Sys.SSL_read (slot s1 clnt).ssl bfree]) clnt (fun c =>
          { c with inbuf := poke c.inbuf c.bptr.toNat r.2, rdcnt := r.1 })
      if (slot s2 clnt).rdcnt > 0 then
        let s3 := upd s2 clnt (fun c => { c with bcnt := c.bcnt + c.rdcnt, tictoc := 0 })
        let ft := my_findterm (slot s3 clnt)
        let s4 := upd s3 clnt (fun _ => ft.2)
        match ft.1 with
        | some _ =>
          let s5 := if (slot s4 clnt).overflow = 0 then dispatch h s4 CLIENT_DATA clnt else s4
          some (upd s5 clnt (fun c => { c with overflow := 0, bcnt := 0 }))
        | none => some s4
      else
        let s3 := dispatch h s2 CLIENT_ERROR clnt
        some (easyssl_drop s3 clnt)

/-- The loop "Search clients for input activity" over the slots `clnt = 0 ..
MAXCL - 1`; `rd clnt` is what the transport of slot `clnt` holds. -/
def input_phase (h : Handler) (fds : List Int) (rd : Nat → Rd) (s : Srv) : Option Srv :=
  (List.range MAXCL).foldlM (fun st clnt => client_input h fds (rd clnt) st clnt) s

/-- The loop "Find slot for the socket": `n` slots remain to be looked at from
`clnt` on; the result is the value of `clnt` when the loop is left. -/
def find_slot_loop (IPCL : List ipclient) : Nat → Nat → Nat
  | 0, clnt => clnt
  | n + 1, clnt =>
    if (IPCL.getD clnt default).sock = 0 then clnt else find_slot_loop IPCL n (clnt + 1)

/-- Index of the first slot with `sock == 0`, or `MAXCL` when there is none. -/
def find_slot (IPCL : List ipclient) : Nat :=
  find_slot_loop IPCL MAXCL 0

/-- Answers of the environment to one connection request: the descriptor
returned by `accept`, the peer address, the memory returned by `malloc(BSIZ)`
should it be called (the empty list for `NULL`), the handle returned by
`SSL_new`, and the value returned by `SSL_accept`. -/
structure AcceptIn where
  csock : Int
  ip : Nat
  mem : List Nat
  ssl : Nat
  hs : Int
deriving DecidableEq, Repr

/-- The block "Connection request", entered when the listen socket is in the
set returned by `select`. -/
def accept_phase (h : Handler) (a : AcceptIn) (s : Srv) : Option Srv :=
  let clnt := find_slot s.IPCL
  if clnt ≥ MAXCL then
    some (syscall s [Sys.shutdown a.csock, Sys.closesocket a.csock])
  else if (slot s clnt).inbuf = [] ∧ a.mem = [] then none
  else
    let s1 := if (slot s clnt).inbuf = [] then upd s clnt (fun c => { c with inbuf := a.mem })
              else s
    if a.hs ≤ 0 then
      some (syscall s1 [Sys.SSL_free a.ssl, Sys.shutdown a.csock, Sys.closesocket a.csock])
    else
      let s2 := upd s1 clnt (fun c =>
        { c with cid := (clnt : Int) + 1, sock := a.csock, ip := a.ip, bcnt := 0,
                 tictoc := 0, overflow := 0, ssl := some a.ssl })
      some (dispatch h (FD_SET s2 a.csock) CLIENT_CONNECT clnt)

/-- Body of the loop "Drop timed out clients" for the slot `clnt`. -/
def tick_client (h : Handler) (s : Srv) (clnt : Nat) : Srv :=
  if (slot s clnt).sock ≠ 0 then
    let s1 := upd s clnt (fun c => { c with tictoc := c.tictoc + 1 })
    if (slot s1 clnt).tictoc > 9 then
      easyssl_drop (dispatch h s1 CLIENT_TIMEOUT clnt) clnt
    else s1
  else s

/-- One heartbeat tick: the loop "Drop timed out clients" over all slots, then
the handler is called with `TIMER_EXPIRED` and `NULL`. -/
def tick (h : Handler) (s : Srv) : Srv :=
  dispatch_null ((List.range MAXCL).foldl (tick_client h) s) TIMER_EXPIRED

/-- The block "Check for timeout" at the clock reading `ctime`. -/
def timeout_phase (h : Handler) (ctime : Int) (s : Srv) : Srv :=
  if ctime - s.ptime ≥ 60 then
    tick h (set_ptime s (ctime - ctime.tmod 60))
  else s

/-- Answers of the environment during one pass of the main loop. -/
structure IterIn where
  selcnt : Int
  ctime : Int
  lready : Bool
  fds : List Int
  acc : AcceptIn
  rd : Nat → Rd

/-- One pass of the `while (1)` loop of `easyssl`. -/
def easyssl_pass (h : Handler) (i : IterIn) (s : Srv) : Option Srv :=
  if i.selcnt < 0 then none
  else
    let s1 := timeout_phase h i.ctime s
    if i.selcnt < 1 then some s1
    else
      match (if i.lready then accept_phase h i.acc s1 else some s1) with
      | none => none
      | some s2 => input_phase h i.fds i.rd s2

/-- Successive connection requests, each handled by the block "Connection
request". -/
def accept_all (h : Handler) : List AcceptIn → Srv → Option Srv
  | [], s => some s
  | a :: as, s =>
    match accept_phase h a s with
    | none => none
    | some s1 => accept_all h as s1

/-- A byte stream arriving at the slot `clnt` while no other descriptor is
ready: `pending` are the records the transport holds, in order.  Each unit of
`fuel` is one pass in which the descriptor of the slot is ready; a pass that
reads takes at most the free space from the first record and leaves the rest
of it with the transport.  The result is the state reached and the records
not yet read, when the fuel is used up or nothing is pending. -/
def feed (h : Handler) (clnt : Nat) : Nat → Srv → List (List Nat) → Option (Srv × List (List Nat))
  | 0, s, pending => some (s, pending)
  | _ + 1, s, [] => some (s, [])
  | fuel + 1, s, c :: cs =>
    let bfree : Int := (BSIZ : Int) - (slot s clnt).bcnt
    match client_input h [(slot s clnt).sock] (Rd.data c) s clnt with
    | none => none
    | some s1 =>
      if (slot s clnt).sock = 0 then some (s1, c :: cs)
      else if bfree < 4 then feed h clnt fuel s1 (c :: cs)
      else if SSL_rest (Rd.data c) bfree = [] then feed h clnt fuel s1 cs
      else feed h clnt fuel s1 (SSL_rest (Rd.data c) bfree :: cs)

/-- The structure of a slot when `my_findterm` is called: `SSL_read` has
returned `r.1 > 0` and stored the bytes `r.2` at the read pointer, the buffer
count has been raised and the timeout counter cleared. -/
def after_read (cl : ipclient) (r : Int × List Nat) : ipclient :=
  { cl with
    bptr := cl.bcnt
    inbuf := poke cl.inbuf cl.bcnt.toNat r.2
    rdcnt := r.1
    bcnt := cl.bcnt + r.1
    tictoc := 0 }

/-- Number of calls of the handler with the code `code` for the slot `clnt`. -/
def count_ev (code : Int) (clnt : Nat) (evs : List Event) : Nat :=
  (evs.filter (fun e => e.code = code ∧ (e.arg.map Prod.fst) = some clnt)).length

/-- A handler that never drops a client. -/
def quiet : Handler := fun _ _ => false

/-- A table in which slot 0 holds a connected client (descriptor 5, session 1,
a buffer of `BSIZ` bytes with nothing buffered) and the other slots are unused. -/
def exSrv : Srv :=
  { IPCL := { cid := 1, sock := 5, inbuf := List.replicate BSIZ 0, ssl := some 1 } ::
      List.replicate (MAXCL - 1) default
    RDSET := [5, 3]
    ptime := 0
    events := []
    sys := [] }

/-- The table `exSrv` after three bytes without a terminator have been
buffered for the client in slot 0. -/
def exBuffered : Srv :=
  upd exSrv 0 (fun c => { c with bcnt := 3, inbuf := poke c.inbuf 0 [104, 105, 33] })

/-- The table `exSrv` with the buffer of slot 0 filled up to `BSIZ - 3` bytes. -/
def exFull : Srv :=
  upd exSrv 0 (fun c => { c with bcnt := 1021, inbuf := List.replicate BSIZ 97 })

/-- Connection requests number 1 to `MAXCL + 1`, each with a descriptor of its
own, memory for a buffer, and a handshake that succeeds. -/
def exAccepts : List AcceptIn :=
  (List.range (MAXCL + 1)).map (fun (n : Nat) =>
    { csock := (n : Int) + 4, ip := 2130706433, mem := List.replicate BSIZ 0,
      ssl := n + 1, hs := 1 })

/-- A table in which every slot holds a connected client. -/
def exAllActive : Srv :=
  { IPCL := (List.range MAXCL).map (fun (n : Nat) =>
      { cid := (n : Int) + 1, sock := (n : Int) + 4, inbuf := List.replicate BSIZ 0,
        ssl := some (n + 1) })
    RDSET := (List.range (MAXCL + 1)).map (fun (n : Nat) => (n : Int) + 3)
    ptime := 0
    events := []
    sys := [] }

/-- What one pass of the loop "Drop timed out clients" does to the structure of
the slot it looks at. -/
def tick_cl (c : ipclient) : ipclient :=
  if c.sock ≠ 0 then
    if c.tictoc + 1 > 9 then { c with tictoc := c.tictoc + 1, ssl := none, sock := 0 }
    else { c with tictoc := c.tictoc + 1 }
  else c

/-- Heartbeat ticks number 1 to `k`; before tick `n + 1` the rest of the loop
passes since the previous tick have taken the state `t` to `gs n t`. -/
def idle_run (h : Handler) (gs : Nat → Srv → Srv) (s : Srv) : Nat → Srv
  | 0 => s
  | k + 1 => tick h (gs k (idle_run h gs s k))

/-- The byte is one of the message terminators NUL, CR, LF, ^D. -/
def is_term (b : Nat) : Prop :=
  b = 0 ∨ b = 10 ∨ b = 13 ∨ b = 4

instance (b : Nat) : Decidable (is_term b) := by
  unfold is_term; infer_instance


/-- Index of the slot a call of the handler was made for (`none` for a call
with the `NULL` pointer). -/
def ev_slot (e : Event) : Option Nat :=
  e.arg.map Prod.fst

/-- The slot indices of the calls in a record, in the order of the calls. -/
def slots_of (evs : List Event) : List Nat :=
  evs.filterMap ev_slot

/-- The step from `s` to `t` is local to the slot `i`: the table keeps its
size, `ptime` is kept, and every other slot is as before. -/
def local_to (i : Nat) (s t : Srv) : Prop :=
  t.IPCL.length = s.IPCL.length ∧ t.ptime = s.ptime ∧ ∀ j, j ≠ i → slot t j = slot s j

/-- The states of the server: the state after initialisation, and every state
reached from one of them by the timeout block, by the accept block (where
`malloc(BSIZ)` gives `NULL` or `BSIZ` bytes), by the input step for a slot, or
by a call of `easyssl_drop`. -/
inductive Reach (h : Handler) : Srv → Prop
  | start (lsock ctime : Int) : Reach h (init lsock ctime)
  | timeout (c : Int) (s : Srv) : Reach h s → Reach h (timeout_phase h c s)
  | accept (a : AcceptIn) (s t : Srv) : Reach h s → (a.mem = [] ∨ a.mem.length = BSIZ) →
      accept_phase h a s = some t → Reach h t
  | input (fds : List Int) (rd : Rd) (clnt : Nat) (s t : Srv) : Reach h s →
      client_input h fds rd s clnt = some t → Reach h t
  | drop (clnt : Nat) (s : Srv) : Reach h s → Reach h (easyssl_drop s clnt)

/-- The buffer bookkeeping of a slot is in order: the buffer is absent or has
`BSIZ` bytes, nothing is counted for an absent buffer, an active slot has a
buffer, `0 <= bcnt <= BSIZ`, and none of the first `bcnt` bytes is a
terminator. -/
def slot_ok (cl : ipclient) : Prop :=
  (cl.inbuf = [] ∨ cl.inbuf.length = BSIZ)
  ∧ (cl.inbuf = [] → cl.bcnt = 0)
  ∧ (cl.sock ≠ 0 → cl.inbuf ≠ [])
  ∧ 0 ≤ cl.bcnt ∧ cl.bcnt ≤ BSIZ
  ∧ ∀ k : Nat, (k : Int) < cl.bcnt → ¬ is_term (cl.inbuf.getD k 0)

/-- The structure handed over with `CLIENT_DATA` is in order: `0 <= bcnt <=
BSIZ`, the buffer has `BSIZ` bytes, and a NUL byte stands at an index below
both `bcnt` and `BSIZ`. -/
def data_ok (c : ipclient) : Prop :=
  0 ≤ c.bcnt ∧ c.bcnt ≤ BSIZ ∧ c.inbuf.length = BSIZ
  ∧ ∃ p : Nat, p < BSIZ ∧ (p : Int) < c.bcnt ∧ c.inbuf.getD p 0 = 0

/-- Every call with `CLIENT_DATA` in the record was made for a slot, with a
structure that is in order. -/
def events_ok (evs : List Event) : Prop :=
  ∀ e ∈ evs, e.code = CLIENT_DATA → ∃ i c, e.arg = some (i, c) ∧ data_ok c

/-- Answers of the environment in a pass in which `select` times out with no
descriptor ready, at the clock reading 125. -/
def exIdle : IterIn :=
  { selcnt := 0
    ctime := 125
    lready := false
    fds := []
    acc := { csock := 0, ip := 0, mem := [], ssl := 0, hs := 0 }
    rd := fun _ => Rd.eof }

/-- A connection request with the descriptor 4, memory for a buffer, and a
handshake that succeeds. -/
def exAcc : AcceptIn :=
  { csock := 4, ip := 2130706433, mem := List.replicate BSIZ 0, ssl := 1, hs := 1 }

/-- Answers of the environment in a pass at the clock reading 125 in which the
listen socket and the descriptor 4 are ready: the connection request `exAcc`
arrives, and every client that is read sends `"a\n"`. -/
def exBusy : IterIn :=
  { selcnt := 2
    ctime := 125
    lready := true
    fds := [3, 4]
    acc := exAcc
    rd := fun _ => Rd.data [97, 10] }

/-- The test `strncmp(a, b, n) == 0`: the strings at `a` and `b` agree in their
first `n` characters, or are equal and shorter than that. -/
def strncmp_eq (a b : List Nat) (n : Nat) : Bool :=
  (cstr a).take n == (cstr b).take n

/-- The handler `client_handler` of `simple.c`, as far as it acts on the
structure it is given: it calls `easyssl_drop` when a message that starts with
`"goodby"` (and so with neither `"hello"` nor `"path"`) comes with
`CLIENT_DATA`, and at no other event. -/
def client_handler : Handler := fun event cl =>
  if event = CLIENT_DATA then
    if strncmp_eq cl.inbuf [104, 101, 108, 108, 111] 5 then false
    else if strncmp_eq cl.inbuf [112, 97, 116, 104] 4 then false
    else if strncmp_eq cl.inbuf [103, 111, 111, 100, 98, 121] 6 then true
    else false
  else false

/-- Answers of the environment in a pass at the clock reading 125 in which
only the listen socket is ready and the connection request `exAcc` arrives. -/
def exConn : IterIn :=
  { selcnt := 1
    ctime := 125
    lready := true
    fds := [3]
    acc := exAcc
    rd := fun _ => Rd.eof }

/-- Answers of the environment in a pass at the clock reading 130 in which
only the descriptor 4 is ready and its client has sent `"goodby\n"`. -/
def exBye : IterIn :=
  { selcnt := 1
    ctime := 130
    lready := false
    fds := [4]
    acc := exAcc
    rd := fun _ => Rd.data [103, 111, 111, 100, 98, 121, 10] }

/-! ## The table: reading and writing a slot -/

@[simp] theorem upd_events (s : Srv) (i : Nat) (f : ipclient → ipclient) :
    (upd s i f).events = s.events := rfl

@[simp] theorem upd_sys (s : Srv) (i : Nat) (f : ipclient → ipclient) :
    (upd s i f).sys = s.sys := rfl

@[simp] theorem upd_RDSET (s : Srv) (i : Nat) (f : ipclient → ipclient) :
    (upd s i f).RDSET = s.RDSET := rfl

@[simp] theorem upd_ptime (s : Srv) (i : Nat) (f : ipclient → ipclient) :
    (upd s i f).ptime = s.ptime := rfl

@[simp] theorem upd_length (s : Srv) (i : Nat) (f : ipclient → ipclient) :
    (upd s i f).IPCL.length = s.IPCL.length := by
  simp [upd]

@[simp] theorem syscall_events (s : Srv) (xs : List Sys) : (syscall s xs).events = s.events := rfl
@[simp] theorem syscall_sys (s : Srv) (xs : List Sys) : (syscall s xs).sys = s.sys ++ xs := rfl
@[simp] theorem syscall_RDSET (s : Srv) (xs : List Sys) : (syscall s xs).RDSET = s.RDSET := rfl
@[simp] theorem syscall_ptime (s : Srv) (xs : List Sys) : (syscall s xs).ptime = s.ptime := rfl
@[simp] theorem syscall_IPCL (s : Srv) (xs : List Sys) : (syscall s xs).IPCL = s.IPCL := rfl
@[simp] theorem slot_syscall (s : Srv) (xs : List Sys) (i : Nat) :
    slot (syscall s xs) i = slot s i := rfl

@[simp] theorem emit_events (s : Srv) (e : Event) : (emit s e).events = s.events ++ [e] := rfl
@[simp] theorem emit_sys (s : Srv) (e : Event) : (emit s e).sys = s.sys := rfl
@[simp] theorem emit_RDSET (s : Srv) (e : Event) : (emit s e).RDSET = s.RDSET := rfl
@[simp] theorem emit_ptime (s : Srv) (e : Event) : (emit s e).ptime = s.ptime := rfl
@[simp] theorem emit_IPCL (s : Srv) (e : Event) : (emit s e).IPCL = s.IPCL := rfl
@[simp] theorem slot_emit (s : Srv) (e : Event) (i : Nat) : slot (emit s e) i = slot s i := rfl

@[simp] theorem FD_CLR_events (s : Srv) (fd : Int) : (FD_CLR s fd).events = s.events := rfl
@[simp] theorem FD_CLR_sys (s : Srv) (fd : Int) : (FD_CLR s fd).sys = s.sys := rfl
@[simp] theorem FD_CLR_RDSET (s : Srv) (fd : Int) :
    (FD_CLR s fd).RDSET = s.RDSET.filter (fun x => x ≠ fd) := rfl
@[simp] theorem FD_CLR_ptime (s : Srv) (fd : Int) : (FD_CLR s fd).ptime = s.ptime := rfl
@[simp] theorem FD_CLR_IPCL (s : Srv) (fd : Int) : (FD_CLR s fd).IPCL = s.IPCL := rfl
@[simp] theorem slot_FD_CLR (s : Srv) (fd : Int) (i : Nat) : slot (FD_CLR s fd) i = slot s i := rfl

@[simp] theorem FD_SET_events (s : Srv) (fd : Int) : (FD_SET s fd).events = s.events := rfl
@[simp] theorem FD_SET_sys (s : Srv) (fd : Int) : (FD_SET s fd).sys = s.sys := rfl
@[simp] theorem FD_SET_RDSET (s : Srv) (fd : Int) : (FD_SET s fd).RDSET = fd :: s.RDSET := rfl
@[simp] theorem FD_SET_ptime (s : Srv) (fd : Int) : (FD_SET s fd).ptime = s.ptime := rfl
@[simp] theorem FD_SET_IPCL (s : Srv) (fd : Int) : (FD_SET s fd).IPCL = s.IPCL := rfl
@[simp] theorem slot_FD_SET (s : Srv) (fd : Int) (i : Nat) : slot (FD_SET s fd) i = slot s i := rfl

@[simp] theorem set_ptime_events (s : Srv) (t : Int) : (set_ptime s t).events = s.events := rfl
@[simp] theorem set_ptime_sys (s : Srv) (t : Int) : (set_ptime s t).sys = s.sys := rfl
@[simp] theorem set_ptime_RDSET (s : Srv) (t : Int) : (set_ptime s t).RDSET = s.RDSET := rfl
@[simp] theorem set_ptime_ptime (s : Srv) (t : Int) : (set_ptime s t).ptime = t := rfl
@[simp] theorem set_ptime_IPCL (s : Srv) (t : Int) : (set_ptime s t).IPCL = s.IPCL := rfl
@[simp] theorem slot_set_ptime (s : Srv) (t : Int) (i : Nat) :
    slot (set_ptime s t) i = slot s i := rfl

theorem slot_upd_self (s : Srv) (i : Nat) (f : ipclient → ipclient)
    (hi : i < s.IPCL.length) : slot (upd s i f) i = f (slot s i) := by
  simp [slot, upd, List.getD_eq_getElem?_getD, List.getElem?_set, hi]

theorem slot_upd_ne (s : Srv) (i j : Nat) (f : ipclient → ipclient)
    (hij : i ≠ j) : slot (upd s i f) j = slot s j := by
  simp [slot, upd, List.getD_eq_getElem?_getD, List.getElem?_set, hij]

theorem slot_default (s : Srv) (i : Nat) (hi : s.IPCL.length ≤ i) : slot s i = default := by
  simp [slot, List.getD_eq_getElem?_getD, List.getElem?_eq_none hi]

theorem lt_of_active (s : Srv) (i : Nat) (ha : (slot s i).sock ≠ 0) : i < s.IPCL.length := by
  by_contra hn
  apply ha
  rw [slot_default s i (by omega)]
  rfl

theorem upd_congr (s : Srv) (i : Nat) (f g : ipclient → ipclient)
    (hfg : f (slot s i) = g (slot s i)) : upd s i f = upd s i g := by
  simp [upd, hfg]

theorem upd_upd (s : Srv) (i : Nat) (f g : ipclient → ipclient) :
    upd (upd s i f) i g = upd s i (fun c => g (f c)) := by
  by_cases hi : i < s.IPCL.length
  · have h1 := slot_upd_self s i f hi
    simp only [upd] at h1 ⊢
    simp [h1]
  · have hd : ∀ (l : List ipclient) (x : ipclient), l.length = s.IPCL.length → l.set i x = l := by
      intro l x hl
      apply List.set_eq_of_length_le
      omega
    simp [upd, hd]

theorem upd_syscall (s : Srv) (xs : List Sys) (i : Nat) (f : ipclient → ipclient) :
    upd (syscall s xs) i f = syscall (upd s i f) xs := rfl

theorem upd_FD_CLR (s : Srv) (fd : Int) (i : Nat) (f : ipclient → ipclient) :
    upd (FD_CLR s fd) i f = FD_CLR (upd s i f) fd := rfl

theorem FD_CLR_syscall (s : Srv) (xs : List Sys) (fd : Int) :
    FD_CLR (syscall s xs) fd = syscall (FD_CLR s fd) xs := rfl

theorem syscall_syscall (s : Srv) (xs ys : List Sys) :
    syscall (syscall s xs) ys = syscall s (xs ++ ys) := by
  simp [syscall]

theorem upd_emit (s : Srv) (e : Event) (i : Nat) (f : ipclient → ipclient) :
    upd (emit s e) i f = emit (upd s i f) e := rfl

/-! ## `easyssl_drop` -/

theorem drop_inactive (s : Srv) (i : Nat) (h0 : (slot s i).sock = 0) :
    easyssl_drop s i = s := by
  simp [easyssl_drop, h0]

theorem drop_active (s : Srv) (i : Nat) (ha : (slot s i).sock ≠ 0) :
    easyssl_drop s i =
      upd (syscall (FD_CLR s (slot s i).sock)
            ((slot s i).ssl.toList.map Sys.SSL_free ++
              [Sys.shutdown (slot s i).sock, Sys.closesocket (slot s i).sock])) i
        (fun c => { c with ssl := none, sock := 0 }) := by
  cases hs : (slot s i).ssl with
  | none =>
    simp only [easyssl_drop, ha, hs, ne_eq, not_false_eq_true, if_true, Option.toList,
      List.map_nil, List.nil_append]
    apply upd_congr
    simp [hs]
  | some v =>
    simp only [easyssl_drop, ha, hs, ne_eq, not_false_eq_true, if_true, Option.toList,
      List.map_cons, List.map_nil, List.singleton_append]
    simp only [upd_syscall, upd_FD_CLR, upd_upd, FD_CLR_syscall, syscall_syscall]
    rfl

@[simp] theorem drop_events (s : Srv) (i : Nat) : (easyssl_drop s i).events = s.events := by
  by_cases ha : (slot s i).sock = 0
  · rw [drop_inactive s i ha]
  · rw [drop_active s i ha]; rfl

@[simp] theorem drop_ptime (s : Srv) (i : Nat) : (easyssl_drop s i).ptime = s.ptime := by
  by_cases ha : (slot s i).sock = 0
  · rw [drop_inactive s i ha]
  · rw [drop_active s i ha]; rfl

@[simp] theorem drop_length (s : Srv) (i : Nat) :
    (easyssl_drop s i).IPCL.length = s.IPCL.length := by
  by_cases ha : (slot s i).sock = 0
  · rw [drop_inactive s i ha]
  · rw [drop_active s i ha]; simp

theorem slot_drop_self (s : Srv) (i : Nat) (hi : i < s.IPCL.length)
    (ha : (slot s i).sock ≠ 0) :
    slot (easyssl_drop s i) i = { slot s i with ssl := none, sock := 0 } := by
  rw [drop_active s i ha, slot_upd_self _ _ _ (by simpa using hi)]
  rfl

theorem slot_drop_ne (s : Srv) (i j : Nat) (hij : i ≠ j) :
    slot (easyssl_drop s i) j = slot s j := by
  by_cases ha : (slot s i).sock = 0
  · rw [drop_inactive s i ha]
  · rw [drop_active s i ha, slot_upd_ne _ _ _ _ hij]
    rfl

theorem drop_sock_zero (s : Srv) (i : Nat) : (slot (easyssl_drop s i) i).sock = 0 := by
  by_cases ha : (slot s i).sock = 0
  · rw [drop_inactive s i ha]; exact ha
  · rw [slot_drop_self s i (lt_of_active s i ha) ha]

/-! ## Calls of the handler -/

@[simp] theorem dispatch_events (h : Handler) (s : Srv) (code : Int) (i : Nat) :
    (dispatch h s code i).events = s.events ++ [⟨code, some (i, slot s i)⟩] := by
  unfold dispatch
  split <;> simp

@[simp] theorem dispatch_length (h : Handler) (s : Srv) (code : Int) (i : Nat) :
    (dispatch h s code i).IPCL.length = s.IPCL.length := by
  unfold dispatch
  split <;> simp

@[simp] theorem dispatch_ptime (h : Handler) (s : Srv) (code : Int) (i : Nat) :
    (dispatch h s code i).ptime = s.ptime := by
  unfold dispatch
  split <;> simp

theorem slot_dispatch_ne (h : Handler) (s : Srv) (code : Int) (i j : Nat) (hij : i ≠ j) :
    slot (dispatch h s code i) j = slot s j := by
  unfold dispatch
  split
  · rw [slot_drop_ne _ _ _ hij]; rfl
  · rfl

theorem dispatch_quiet (h : Handler) (s : Srv) (code : Int) (i : Nat)
    (hq : h code (slot s i) = false) :
    dispatch h s code i = emit s ⟨code, some (i, slot s i)⟩ := by
  simp [dispatch, hq]

/-! ## The client input step, branch by branch -/

theorem client_input_overfl (h : Handler) (fds : List Int) (rd : Rd) (s : Srv) (i : Nat)
    (ha : (slot s i).sock ≠ 0) (hr : (slot s i).sock ∈ fds) (hb : (slot s i).inbuf ≠ [])
    (hf : (BSIZ : Int) - (slot s i).bcnt < 4) :
    client_input h fds rd s i =
      some (upd (dispatch h (upd s i (fun c => { c with bptr := c.bcnt })) CLIENT_OVERFL i) i
        (fun c => { c with bcnt := 0, overflow := 1 })) := by
  have hi := lt_of_active s i ha
  simp only [client_input, if_neg ha, hr, not_true_eq_false, if_false, if_neg hb]
  rw [slot_upd_self _ _ _ hi]
  simp only [hf, if_true]

theorem client_input_fail (h : Handler) (fds : List Int) (rd : Rd) (s : Srv) (i : Nat)
    (ha : (slot s i).sock ≠ 0) (hr : (slot s i).sock ∈ fds) (hb : (slot s i).inbuf ≠ [])
    (hf : ¬ (BSIZ : Int) - (slot s i).bcnt < 4)
    (hrd : (SSL_read rd ((BSIZ : Int) - (slot s i).bcnt)).1 ≤ 0) :
    client_input h fds rd s i =
      some (easyssl_drop (dispatch h
        (upd (syscall s [Sys.SSL_read (slot s i).ssl ((BSIZ : Int) - (slot s i).bcnt)]) i
          (fun c => { c with
            bptr := c.bcnt
            inbuf := poke c.inbuf c.bcnt.toNat (SSL_read rd ((BSIZ : Int) - (slot s i).bcnt)).2
            rdcnt := (SSL_read rd ((BSIZ : Int) - (slot s i).bcnt)).1 }))
        CLIENT_ERROR i) i) := by
  have hi := lt_of_active s i ha
  simp only [client_input, if_neg ha, hr, not_true_eq_false, if_false, if_neg hb]
  rw [slot_upd_self _ _ _ hi]
  simp only [hf, if_false]
  rw [upd_syscall, upd_upd, ← upd_syscall, slot_upd_self _ _ _ (by simpa using hi)]
  simp only [gt_iff_lt, not_lt.mpr hrd, if_false]

theorem client_input_read (h : Handler) (fds : List Int) (rd : Rd) (s : Srv) (i : Nat)
    (ha : (slot s i).sock ≠ 0) (hr : (slot s i).sock ∈ fds) (hb : (slot s i).inbuf ≠ [])
    (hf : ¬ (BSIZ : Int) - (slot s i).bcnt < 4)
    (r : Int × List Nat) (hR : r = SSL_read rd ((BSIZ : Int) - (slot s i).bcnt))
    (hrd : 0 < r.1)
    (ft : Option Nat × ipclient) (hft : ft = my_findterm (after_read (slot s i) r))
    (s4 : Srv)
    (hs4 : s4 = upd (syscall s [Sys.SSL_read (slot s i).ssl ((BSIZ : Int) - (slot s i).bcnt)]) i
      (fun _ => ft.2)) :
    client_input h fds rd s i =
      (match ft.1 with
      | some _ =>
        some (upd (if ft.2.overflow = 0 then dispatch h s4 CLIENT_DATA i else s4) i
          (fun c => { c with overflow := 0, bcnt := 0 }))
      | none => some s4) := by
  have hi := lt_of_active s i ha
  subst hR
  simp only [client_input, if_neg ha, hr, not_true_eq_false, if_false, if_neg hb]
  rw [slot_upd_self _ _ _ hi]
  simp only [hf, if_false]
  rw [upd_syscall, upd_upd, ← upd_syscall, slot_upd_self _ _ _ (by simpa using hi)]
  simp only [gt_iff_lt, hrd, if_true]
  rw [upd_upd, upd_upd, slot_upd_self _ _ _ (by simpa using hi)]
  simp only [slot_syscall]
  subst hs4 hft
  rw [slot_upd_self _ _ _ (by simpa using hi)]
  rfl

/-! ## `my_findterm` -/

theorem findterm_loop_none (cl : ipclient) (len buf : Nat)
    (hno : ∀ k, k < len → ¬ is_term (cl.inbuf.getD (buf + k) 0)) :
    my_findterm_loop cl len buf = (none, cl) := by
  induction len generalizing buf with
  | zero => rfl
  | succ n ih =>
    have h0 := hno 0 (by omega)
    simp only [is_term, Nat.add_zero, not_or] at h0
    rw [my_findterm_loop]
    simp only [h0.1, h0.2.1, h0.2.2.1, h0.2.2.2, or_self, if_false]
    apply ih
    intro k hk
    have := hno (k + 1) (by omega)
    rwa [show buf + 1 + k = buf + (k + 1) by omega]

theorem findterm_loop_skip (cl : ipclient) (j len buf : Nat)
    (hno : ∀ k, k < j → ¬ is_term (cl.inbuf.getD (buf + k) 0)) :
    my_findterm_loop cl (j + len) buf = my_findterm_loop cl len (buf + j) := by
  induction j generalizing buf with
  | zero => simp
  | succ n ih =>
    have h0 := hno 0 (by omega)
    simp only [is_term, Nat.add_zero, not_or] at h0
    rw [show n + 1 + len = (n + len) + 1 by omega, my_findterm_loop]
    simp only [h0.1, h0.2.1, h0.2.2.1, h0.2.2.2, or_self, if_false]
    rw [ih, show buf + 1 + n = buf + (n + 1) by omega]
    intro k hk
    have := hno (k + 1) (by omega)
    rwa [show buf + 1 + k = buf + (k + 1) by omega]

theorem findterm_loop_overflow (cl : ipclient) (len buf : Nat) :
    (my_findterm_loop cl len buf).2.overflow = cl.overflow
    ∧ (my_findterm_loop cl len buf).2.sock = cl.sock
    ∧ (my_findterm_loop cl len buf).2.inbuf.length = cl.inbuf.length := by
  induction len generalizing buf with
  | zero => simp [my_findterm_loop]
  | succ n ih =>
    simp only [my_findterm_loop]
    split
    · simp
    · split
      · split <;> simp
      · exact ih (buf + 1)

theorem findterm_loop_some (cl : ipclient) (len buf : Nat)
    (hex : ∃ k, k < len ∧ is_term (cl.inbuf.getD (buf + k) 0)) :
    ∃ p, (my_findterm_loop cl len buf).1 = some p := by
  induction len generalizing buf with
  | zero => obtain ⟨k, hk, _⟩ := hex; omega
  | succ n ih =>
    simp only [my_findterm_loop]
    split
    · exact ⟨_, rfl⟩
    · split
      · split <;> exact ⟨_, rfl⟩
      · rename_i h0 h1
        apply ih
        obtain ⟨k, hk, ht⟩ := hex
        cases k with
        | zero =>
          exfalso
          simp only [is_term, Nat.add_zero] at ht
          rcases ht with ht | ht
          · exact h0 ht
          · exact h1 ht
        | succ k =>
          refine ⟨k, by omega, ?_⟩
          rwa [show buf + 1 + k = buf + (k + 1) by omega]

theorem findterm_loop_hit (cl : ipclient) (len buf : Nat)
    (hc : cl.inbuf.getD buf 0 = 10 ∨ cl.inbuf.getD buf 0 = 13 ∨ cl.inbuf.getD buf 0 = 4) :
    my_findterm_loop cl (len + 1) buf =
      if cl.bcnt < BSIZ then
        (some (buf + 1), { cl with bcnt := cl.bcnt + 1, inbuf := cl.inbuf.set (buf + 1) 0 })
      else (some buf, { cl with inbuf := cl.inbuf.set buf 0 }) := by
  rw [my_findterm_loop]
  have h0 : cl.inbuf.getD buf 0 ≠ 0 := by omega
  simp only [h0, if_false, hc, if_true]

/-! ## Buffers -/

theorem poke_length (buf : List Nat) (off : Nat) (bytes : List Nat)
    (hfit : off + bytes.length ≤ buf.length) : (poke buf off bytes).length = buf.length := by
  simp [poke]
  omega

theorem poke_getD (buf : List Nat) (off : Nat) (bytes : List Nat) (k : Nat)
    (hoff : off ≤ buf.length) (hk : k < bytes.length) :
    (poke buf off bytes).getD (off + k) 0 = bytes.getD k 0 := by
  have h1 : (buf.take off).length = off := by simp [hoff]
  simp only [poke, List.getD_eq_getElem?_getD, List.append_assoc]
  rw [List.getElem?_append_right (by omega), h1, Nat.add_sub_cancel_left,
    List.getElem?_append_left hk]

theorem cstr_stop (a rest : List Nat) (hno : ∀ b ∈ a, b ≠ 0) : cstr (a ++ 0 :: rest) = a := by
  induction a with
  | nil => simp [cstr]
  | cons x xs ih =>
    have hx : x ≠ 0 := hno x (by simp)
    have := ih (fun b hb => hno b (by simp [hb]))
    simp only [cstr] at this ⊢
    simpa [List.takeWhile, hx] using this

/-! ## One read that holds a whole message -/

theorem term_free_nonzero (M : List Nat) (hM : ∀ b ∈ M, ¬ is_term b) : ∀ b ∈ M, b ≠ 0 := by
  intro b hb h0
  exact hM b hb (Or.inl h0)

theorem findterm_line (cl : ipclient) (M : List Nat) (hM : ∀ b ∈ M, ¬ is_term b)
    (hb0 : cl.bcnt = 0) :
    my_findterm (after_read cl (((M.length + 1 : Nat) : Int), M ++ [10])) =
      if M.length + 1 < BSIZ then
        (some (M.length + 1),
          { after_read cl (((M.length + 1 : Nat) : Int), M ++ [10]) with
            bcnt := ((M.length + 1 : Nat) : Int) + 1
            inbuf := M ++ [10] ++ (cl.inbuf.drop (M.length + 1)).set 0 0 })
      else
        (some M.length,
          { after_read cl (((M.length + 1 : Nat) : Int), M ++ [10]) with
            inbuf := M ++ 0 :: cl.inbuf.drop (M.length + 1) }) := by
  have hbuf : (after_read cl (((M.length + 1 : Nat) : Int), M ++ [10])).inbuf
      = M ++ [10] ++ cl.inbuf.drop (M.length + 1) := by
    simp [after_read, poke, hb0]
  have hget : ∀ k, k < M.length + 1 →
      (after_read cl (((M.length + 1 : Nat) : Int), M ++ [10])).inbuf.getD (0 + k) 0
        = (M ++ [10]).getD k 0 := by
    intro k hk
    rw [hbuf, Nat.zero_add, List.getD_append _ _ _ _ (by simpa using hk)]
  have e1 : my_findterm (after_read cl (((M.length + 1 : Nat) : Int), M ++ [10]))
      = my_findterm_loop (after_read cl (((M.length + 1 : Nat) : Int), M ++ [10]))
          (M.length + 1) 0 := by
    simp [my_findterm, after_read, hb0]
  rw [e1, findterm_loop_skip _ M.length 1 0, Nat.zero_add, findterm_loop_hit]
  · have hb : (after_read cl (((M.length + 1 : Nat) : Int), M ++ [10])).bcnt
        = ((M.length + 1 : Nat) : Int) := by simp [after_read, hb0]
    by_cases hlt : M.length + 1 < BSIZ
    · have hlt2 : (after_read cl (((M.length + 1 : Nat) : Int), M ++ [10])).bcnt < (BSIZ : Int) := by
        rw [hb]; exact_mod_cast hlt
      rw [if_pos hlt2, if_pos hlt]
      congr 1
      simp only [hbuf, hb]
      congr 1
      rw [List.set_append_right _ _ (by simp)]
      simp
    · have hlt2 : ¬ (after_read cl (((M.length + 1 : Nat) : Int), M ++ [10])).bcnt < (BSIZ : Int) := by
        rw [hb]; exact_mod_cast hlt
      rw [if_neg hlt2, if_neg hlt]
      congr 1
      simp only [hbuf]
      congr 1
      rw [List.append_assoc, List.set_append_right _ _ (by simp)]
      simp
  · left
    have := hget M.length (by omega)
    rw [Nat.zero_add] at this
    rw [this, List.getD_append_right _ _ _ _ (by simp)]
    simp
  · intro k hk
    rw [hget k (by omega), List.getD_append _ _ _ _ hk, List.getD_eq_getElem _ _ hk]
    exact hM _ (List.getElem_mem _)

theorem single_read (h : Handler) (fds : List Int) (s : Srv) (i : Nat) (M : List Nat)
    (ha : (slot s i).sock ≠ 0) (hr : (slot s i).sock ∈ fds)
    (hlen : (slot s i).inbuf.length = BSIZ) (hb0 : (slot s i).bcnt = 0)
    (hov : (slot s i).overflow = 0)
    (hM : ∀ b ∈ M, ¬ is_term b) (hML : M.length ≤ BSIZ - 1) :
    ∃ s1 c, client_input h fds (Rd.data (M ++ [10])) s i = some s1
      ∧ s1.events = s.events ++ [⟨CLIENT_DATA, some (i, c)⟩]
      ∧ cstr c.inbuf = (if M.length + 1 < BSIZ then M ++ [10] else M)
      ∧ c.sock = (slot s i).sock := by
  have hML1 : M.length ≤ 1023 := hML
  have hb : (slot s i).inbuf ≠ [] := by
    intro h0; rw [h0] at hlen; simp at hlen
  have hf : ¬ (BSIZ : Int) - (slot s i).bcnt < 4 := by rw [hb0]; decide
  have hR : (((M.length + 1 : Nat) : Int), M ++ [10])
      = SSL_read (Rd.data (M ++ [10])) ((BSIZ : Int) - (slot s i).bcnt) := by
    have ht : (M ++ [10]).take 1024 = M ++ [10] := by
      apply List.take_of_length_le
      simp; omega
    simp [SSL_read, hb0, ht]
  have hft := findterm_line (slot s i) M hM hb0
  have hnz := term_free_nonzero M hM
  have key := client_input_read h fds (Rd.data (M ++ [10])) s i ha hr hb hf _ hR
    (by simp) _ rfl _ rfl
  obtain ⟨p, hp1, hp2, hp3, hp4⟩ : ∃ p,
      (my_findterm (after_read (slot s i) (((M.length + 1 : Nat) : Int), M ++ [10]))).1 = some p
      ∧ (my_findterm (after_read (slot s i) (((M.length + 1 : Nat) : Int), M ++ [10]))).2.overflow = 0
      ∧ cstr (my_findterm (after_read (slot s i)
          (((M.length + 1 : Nat) : Int), M ++ [10]))).2.inbuf
          = (if M.length + 1 < BSIZ then M ++ [10] else M)
      ∧ (my_findterm (after_read (slot s i) (((M.length + 1 : Nat) : Int), M ++ [10]))).2.sock
          = (slot s i).sock := by
    by_cases hlt : M.length + 1 < BSIZ
    · rw [if_pos hlt] at hft
      rw [hft, if_pos hlt]
      refine ⟨_, rfl, hov, ?_, rfl⟩
      obtain ⟨d, ds, hd⟩ : ∃ d ds, (slot s i).inbuf.drop (M.length + 1) = d :: ds := by
        cases hd : (slot s i).inbuf.drop (M.length + 1) with
        | nil =>
          have := congrArg List.length hd
          simp only [List.length_drop, hlen, List.length_nil] at this
          omega
        | cons d ds => exact ⟨d, ds, rfl⟩
      simp only [hd, List.set_cons_zero]
      apply cstr_stop
      intro b hb
      rcases List.mem_append.mp hb with hb | hb
      · exact hnz b hb
      · simp at hb; omega
    · rw [if_neg hlt] at hft
      rw [hft, if_neg hlt]
      exact ⟨_, rfl, hov, cstr_stop M _ hnz, rfl⟩
  rw [key]
  simp only [hp1, hp2, if_true]
  refine ⟨_, _, rfl, ?_, hp3, hp4⟩
  simp only [upd_events, dispatch_events, syscall_events]
  rw [slot_upd_self _ _ _ (by simpa using lt_of_active s i ha)]

/-! ## Dropping twice, and dropping after the handler was called -/

theorem drop_drop (s : Srv) (i : Nat) :
    easyssl_drop (easyssl_drop s i) i = easyssl_drop s i :=
  drop_inactive _ _ (drop_sock_zero s i)

theorem drop_RDSET (s : Srv) (i : Nat) (ha : (slot s i).sock ≠ 0) :
    (easyssl_drop s i).RDSET = s.RDSET.filter (fun x => x ≠ (slot s i).sock) := by
  rw [drop_active s i ha]; rfl

theorem drop_sys (s : Srv) (i : Nat) (ha : (slot s i).sock ≠ 0) :
    (easyssl_drop s i).sys = s.sys ++ ((slot s i).ssl.toList.map Sys.SSL_free ++
      [Sys.shutdown (slot s i).sock, Sys.closesocket (slot s i).sock]) := by
  rw [drop_active s i ha]; rfl

theorem not_mem_drop_RDSET (s : Srv) (i : Nat) (ha : (slot s i).sock ≠ 0) :
    (slot s i).sock ∉ (easyssl_drop s i).RDSET := by
  rw [drop_RDSET s i ha]
  simp

theorem drop_dispatch (h : Handler) (s : Srv) (code : Int) (i : Nat) :
    easyssl_drop (dispatch h s code i) i
      = easyssl_drop (emit s ⟨code, some (i, slot s i)⟩) i := by
  unfold dispatch
  split
  · exact drop_drop _ _
  · rfl

/-! ## Finding a slot, accepting a connection -/

theorem find_slot_loop_spec (IPCL : List ipclient) (n clnt : Nat) :
    clnt ≤ find_slot_loop IPCL n clnt
    ∧ find_slot_loop IPCL n clnt ≤ clnt + n
    ∧ (∀ j, clnt ≤ j → j < find_slot_loop IPCL n clnt → (IPCL.getD j default).sock ≠ 0)
    ∧ (find_slot_loop IPCL n clnt < clnt + n →
        (IPCL.getD (find_slot_loop IPCL n clnt) default).sock = 0) := by
  induction n generalizing clnt with
  | zero =>
    simp only [find_slot_loop]
    exact ⟨le_refl _, le_refl _, fun j h1 h2 => by omega, fun h => by omega⟩
  | succ n ih =>
    simp only [find_slot_loop]
    split
    · rename_i h0
      exact ⟨le_refl _, by omega, fun j h1 h2 => by omega, fun _ => h0⟩
    · rename_i h0
      obtain ⟨h1, h2, h3, h4⟩ := ih (clnt + 1)
      refine ⟨by omega, by omega, ?_, ?_⟩
      · intro j hj1 hj2
        by_cases hj : j = clnt
        · subst hj; exact h0
        · exact h3 j (by omega) hj2
      · intro hlt
        exact h4 (by omega)

theorem find_slot_eq (s : Srv) (k : Nat) (hk : k < MAXCL)
    (hact : ∀ j, j < k → (slot s j).sock ≠ 0) (hfree : (slot s k).sock = 0) :
    find_slot s.IPCL = k := by
  obtain ⟨_, h2, h3, h4⟩ := find_slot_loop_spec s.IPCL MAXCL 0
  have hle : find_slot s.IPCL ≤ k := by
    by_contra hn
    exact h3 k (by omega) (by unfold find_slot at hn; omega) hfree
  have hge : k ≤ find_slot s.IPCL := by
    by_contra hn
    have hlt : find_slot s.IPCL < k := by omega
    exact hact _ hlt (h4 (by unfold find_slot at hlt; omega))
  omega

theorem find_slot_full (s : Srv) (hact : ∀ j, j < MAXCL → (slot s j).sock ≠ 0) :
    find_slot s.IPCL = MAXCL := by
  obtain ⟨_, h2, _, h4⟩ := find_slot_loop_spec s.IPCL MAXCL 0
  by_contra hn
  have hlt : find_slot s.IPCL < MAXCL := by unfold find_slot at hn ⊢; omega
  exact hact _ hlt (h4 (by unfold find_slot at hlt; omega))

theorem accept_reject (h : Handler) (a : AcceptIn) (s : Srv)
    (hact : ∀ j, j < MAXCL → (slot s j).sock ≠ 0) :
    accept_phase h a s = some (syscall s [Sys.shutdown a.csock, Sys.closesocket a.csock]) := by
  simp [accept_phase, find_slot_full s hact]

theorem accept_ok (h : Handler) (a : AcceptIn) (s : Srv) (k : Nat) (hk : k < MAXCL)
    (hlen : s.IPCL.length = MAXCL)
    (hact : ∀ j, j < k → (slot s j).sock ≠ 0) (hfree : (slot s k).sock = 0)
    (hmem : a.mem ≠ []) (hhs : 0 < a.hs) :
    accept_phase h a s = some (dispatch h
      (FD_SET (upd s k (fun c =>
        { c with
          inbuf := if c.inbuf = [] then a.mem else c.inbuf
          cid := (k : Int) + 1, sock := a.csock, ip := a.ip, bcnt := 0
          tictoc := 0, overflow := 0, ssl := some a.ssl })) a.csock)
      CLIENT_CONNECT k) := by
  have hk2 : k < s.IPCL.length := by omega
  have hf := find_slot_eq s k hk hact hfree
  have hnk : ¬ MAXCL ≤ k := by omega
  have hhs2 : ¬ a.hs ≤ 0 := not_le.mpr hhs
  by_cases hb : (slot s k).inbuf = []
  · simp only [accept_phase, hf, ge_iff_le, hnk, if_false, hmem, and_false, hhs2, hb, if_true]
    rw [upd_upd]
    congr 3
    apply upd_congr
    simp [hb]
  · simp only [accept_phase, hf, ge_iff_le, hnk, if_false, hmem, and_false, hhs2, hb]
    congr 3
    apply upd_congr
    simp [hb]

theorem find_slot_of_free (s : Srv) (hex : ∃ j, j < MAXCL ∧ (slot s j).sock = 0) :
    find_slot s.IPCL < MAXCL ∧ (slot s (find_slot s.IPCL)).sock = 0
    ∧ ∀ j, j < find_slot s.IPCL → (slot s j).sock ≠ 0 := by
  obtain ⟨_, h2, h3, h4⟩ := find_slot_loop_spec s.IPCL MAXCL 0
  have hlt : find_slot s.IPCL < MAXCL := by
    by_contra hn
    obtain ⟨j, hj, hj0⟩ := hex
    exact h3 j (by omega) (by unfold find_slot at hn; omega) hj0
  exact ⟨hlt, h4 (by unfold find_slot at hlt; omega), fun j hj => h3 j (by omega) hj⟩

theorem accept_all_append (h : Handler) (xs ys : List AcceptIn) (s : Srv) :
    accept_all h (xs ++ ys) s = (accept_all h xs s).bind (accept_all h ys) := by
  induction xs generalizing s with
  | nil => rfl
  | cons a as ih =>
    simp only [List.cons_append, accept_all]
    cases accept_phase h a s with
    | none => rfl
    | some s1 => exact ih s1

theorem accept_fill_step (h : Handler) (hq : ∀ c, h CLIENT_CONNECT c = false)
    (a : AcceptIn) (s : Srv) (k : Nat) (hk : k < MAXCL)
    (hcs : a.csock ≠ 0) (hhs : 0 < a.hs) (hmem : a.mem ≠ [])
    (hlen : s.IPCL.length = MAXCL)
    (hact : ∀ j, j < k → (slot s j).sock ≠ 0) (hfree : ∀ j, k ≤ j → (slot s j).sock = 0)
    (hev : s.events.length = k) (hco : ∀ e ∈ s.events, e.code = CLIENT_CONNECT) :
    ∃ s1, accept_phase h a s = some s1
      ∧ s1.IPCL.length = MAXCL
      ∧ (∀ j, j < k + 1 → (slot s1 j).sock ≠ 0)
      ∧ (∀ j, k + 1 ≤ j → (slot s1 j).sock = 0)
      ∧ s1.events.length = k + 1
      ∧ (∀ e ∈ s1.events, e.code = CLIENT_CONNECT) := by
  have hk2 : k < s.IPCL.length := by omega
  refine ⟨_, accept_ok h a s k hk hlen hact (hfree k (le_refl _)) hmem hhs, ?_⟩
  rw [dispatch_quiet _ _ _ _ (hq _)]
  refine ⟨by simp [hlen], ?_, ?_, by simp [hev], ?_⟩
  · intro j hj
    rw [slot_emit, slot_FD_SET]
    by_cases hjk : j = k
    · subst hjk
      rw [slot_upd_self _ _ _ hk2]
      exact hcs
    · rw [slot_upd_ne _ _ _ _ (Ne.symm hjk)]
      exact hact j (by omega)
  · intro j hj
    rw [slot_emit, slot_FD_SET, slot_upd_ne _ _ _ _ (by omega)]
    exact hfree j (by omega)
  · intro e he
    simp only [emit_events, FD_SET_events, upd_events, List.mem_append, List.mem_singleton] at he
    rcases he with he | he
    · exact hco e he
    · rw [he]

theorem accept_fill (h : Handler) (hq : ∀ c, h CLIENT_CONNECT c = false)
    (as : List AcceptIn) (s : Srv) (k : Nat) (hk : k + as.length ≤ MAXCL)
    (hgood : ∀ a ∈ as, a.csock ≠ 0 ∧ 0 < a.hs ∧ a.mem ≠ [])
    (hlen : s.IPCL.length = MAXCL)
    (hact : ∀ j, j < k → (slot s j).sock ≠ 0) (hfree : ∀ j, k ≤ j → (slot s j).sock = 0)
    (hev : s.events.length = k) (hco : ∀ e ∈ s.events, e.code = CLIENT_CONNECT) :
    ∃ s1, accept_all h as s = some s1
      ∧ s1.IPCL.length = MAXCL
      ∧ (∀ j, j < k + as.length → (slot s1 j).sock ≠ 0)
      ∧ s1.events.length = k + as.length
      ∧ (∀ e ∈ s1.events, e.code = CLIENT_CONNECT) := by
  induction as generalizing s k with
  | nil => exact ⟨s, rfl, hlen, by simpa using hact, by simpa using hev, hco⟩
  | cons a as ih =>
    simp only [List.length_cons] at hk ⊢
    obtain ⟨g1, g2, g3⟩ := hgood a (by simp)
    obtain ⟨s1, e1, l1, a1, f1, v1, c1⟩ :=
      accept_fill_step h hq a s k (by omega) g1 g2 g3 hlen hact hfree hev hco
    obtain ⟨s2, e2, l2, a2, v2, c2⟩ :=
      ih s1 (k + 1) (by omega) (fun b hb => hgood b (by simp [hb])) l1 a1 f1 v1 c1
    refine ⟨s2, by simp only [accept_all, e1]; exact e2, l2, ?_, by omega, c2⟩
    intro j hj
    exact a2 j (by omega)

theorem init_slot (lsock ctime : Int) (j : Nat) : slot (init lsock ctime) j = default := by
  simp only [slot, init, List.getD_eq_getElem?_getD]
  by_cases hj : j < MAXCL
  · rw [List.getElem?_eq_getElem (by simpa using hj)]
    simp
  · rw [List.getElem?_eq_none (by simpa using hj)]
    rfl

/-! ## Counting calls of the handler -/

theorem count_ev_append (code : Int) (i : Nat) (xs ys : List Event) :
    count_ev code i (xs ++ ys) = count_ev code i xs + count_ev code i ys := by
  simp [count_ev]

theorem count_ev_hit (code : Int) (i : Nat) (c : ipclient) :
    count_ev code i [⟨code, some (i, c)⟩] = 1 := by
  simp [count_ev]

theorem count_ev_code (code code1 : Int) (i : Nat) (a : Option (Nat × ipclient))
    (hne : code1 ≠ code) : count_ev code i [⟨code1, a⟩] = 0 := by
  simp [count_ev, hne]

theorem count_ev_slot (code code1 : Int) (i j : Nat) (c : ipclient)
    (hne : j ≠ i) : count_ev code i [⟨code1, some (j, c)⟩] = 0 := by
  simp [count_ev, hne]

theorem count_ev_null (code code1 : Int) (i : Nat) :
    count_ev code i [⟨code1, none⟩] = 0 := by
  simp [count_ev]

/-! ## The heartbeat -/

theorem tick_client_eq (h : Handler) (s : Srv) (j : Nat) :
    tick_client h s j =
      if (slot s j).sock ≠ 0 then
        if (slot s j).tictoc + 1 > 9 then
          easyssl_drop (emit (upd s j (fun c => { c with tictoc := c.tictoc + 1 }))
            ⟨CLIENT_TIMEOUT, some (j, { slot s j with tictoc := (slot s j).tictoc + 1 })⟩) j
        else upd s j (fun c => { c with tictoc := c.tictoc + 1 })
      else s := by
  unfold tick_client
  by_cases ha : (slot s j).sock = 0
  · simp [ha]
  · have hj := lt_of_active s j ha
    simp only [ne_eq, ha, not_false_eq_true, if_true]
    rw [slot_upd_self _ _ _ hj, drop_dispatch, slot_upd_self _ _ _ hj]

@[simp] theorem tick_client_length (h : Handler) (s : Srv) (j : Nat) :
    (tick_client h s j).IPCL.length = s.IPCL.length := by
  rw [tick_client_eq]
  split
  · split <;> simp
  · rfl

theorem tick_client_ne (h : Handler) (s : Srv) (j i : Nat) (hne : j ≠ i) :
    slot (tick_client h s j) i = slot s i := by
  rw [tick_client_eq]
  split
  · split
    · rw [slot_drop_ne _ _ _ hne, slot_emit, slot_upd_ne _ _ _ _ hne]
    · rw [slot_upd_ne _ _ _ _ hne]
  · rfl

theorem tick_client_self (h : Handler) (s : Srv) (i : Nat) :
    slot (tick_client h s i) i = tick_cl (slot s i) := by
  rw [tick_client_eq]
  unfold tick_cl
  by_cases ha : (slot s i).sock = 0
  · simp [ha]
  · have hi := lt_of_active s i ha
    simp only [ne_eq, ha, not_false_eq_true, if_true]
    split
    · have hs : slot (emit (upd s i (fun c => { c with tictoc := c.tictoc + 1 }))
          ⟨CLIENT_TIMEOUT, some (i, { slot s i with tictoc := (slot s i).tictoc + 1 })⟩) i
          = { slot s i with tictoc := (slot s i).tictoc + 1 } := by
        rw [slot_emit, slot_upd_self _ _ _ hi]
      rw [slot_drop_self _ _ (by simpa using hi) (by rw [hs]; exact ha), hs]
    · rw [slot_upd_self _ _ _ hi]

theorem tick_client_count (h : Handler) (s : Srv) (j i : Nat) :
    count_ev CLIENT_TIMEOUT i (tick_client h s j).events =
      count_ev CLIENT_TIMEOUT i s.events +
        (if j = i ∧ (slot s i).sock ≠ 0 ∧ (slot s i).tictoc + 1 > 9 then 1 else 0) := by
  rw [tick_client_eq]
  by_cases hji : j = i
  · subst hji
    by_cases ha : (slot s j).sock = 0
    · simp [ha]
    · by_cases ht : (slot s j).tictoc + 1 > 9
      · simp only [ne_eq, ha, not_false_eq_true, ht, if_true, drop_events, emit_events,
          upd_events, count_ev_append, count_ev_hit, and_self]
      · simp [ha, ht]
  · simp only [hji, false_and, if_false, Nat.add_zero]
    split
    · split
      · rw [drop_events, emit_events, upd_events, count_ev_append, count_ev_slot _ _ _ _ _ hji]
        rfl
      · rfl
    · rfl

theorem tick_fold (h : Handler) (s : Srv) (i n : Nat) :
    slot ((List.range n).foldl (tick_client h) s) i
        = (if i < n then tick_cl (slot s i) else slot s i)
    ∧ count_ev CLIENT_TIMEOUT i ((List.range n).foldl (tick_client h) s).events
        = count_ev CLIENT_TIMEOUT i s.events +
          (if i < n ∧ (slot s i).sock ≠ 0 ∧ (slot s i).tictoc + 1 > 9 then 1 else 0) := by
  induction n with
  | zero => simp
  | succ n ih =>
    rw [List.range_succ, List.foldl_append]
    simp only [List.foldl_cons, List.foldl_nil]
    obtain ⟨ih1, ih2⟩ := ih
    by_cases hin : n = i
    · subst hin
      rw [tick_client_self, tick_client_count, ih1, ih2]
      simp
    · rw [tick_client_ne _ _ _ _ hin, tick_client_count, ih1, ih2]
      have e1 : (i < n + 1) = (i < n) := by
        apply propext; constructor <;> intro hh <;> omega
      simp only [hin, false_and, if_false, Nat.add_zero, e1]
      trivial

theorem tick_slot (h : Handler) (s : Srv) (i : Nat) (hi : i < MAXCL) :
    slot (tick h s) i = tick_cl (slot s i)
    ∧ count_ev CLIENT_TIMEOUT i (tick h s).events
        = count_ev CLIENT_TIMEOUT i s.events +
          (if (slot s i).sock ≠ 0 ∧ (slot s i).tictoc + 1 > 9 then 1 else 0) := by
  obtain ⟨h1, h2⟩ := tick_fold h s i MAXCL
  unfold tick dispatch_null
  rw [slot_emit, emit_events, count_ev_append, count_ev_null, h1, h2]
  simp [hi]

theorem idle_run_slot (h : Handler) (gs : Nat → Srv → Srv) (s : Srv) (i : Nat)
    (hi : i < MAXCL) (ha : (slot s i).sock ≠ 0) (ht : (slot s i).tictoc = 0)
    (hg : ∀ k t, slot (gs k t) i = slot t i
      ∧ count_ev CLIENT_TIMEOUT i (gs k t).events = count_ev CLIENT_TIMEOUT i t.events)
    (k : Nat) (hk : k ≤ 9) :
    slot (idle_run h gs s k) i = { slot s i with tictoc := (k : Int) }
    ∧ count_ev CLIENT_TIMEOUT i (idle_run h gs s k).events
        = count_ev CLIENT_TIMEOUT i s.events := by
  induction k with
  | zero =>
    simp only [idle_run, Nat.cast_zero, and_true]
    rw [← ht]
  | succ k ih =>
    obtain ⟨ih1, ih2⟩ := ih (by omega)
    obtain ⟨t1, t2⟩ := tick_slot h (gs k (idle_run h gs s k)) i hi
    obtain ⟨g1, g2⟩ := hg k (idle_run h gs s k)
    simp only [idle_run]
    rw [t1, t2, g1, g2, ih1, ih2]
    have hk9 : ¬ ((k : Int) + 1 > 9) := by omega
    simp [tick_cl, ha, hk9]

theorem idle_run_tenth (h : Handler) (gs : Nat → Srv → Srv) (s : Srv) (i : Nat)
    (hi : i < MAXCL) (ha : (slot s i).sock ≠ 0) (ht : (slot s i).tictoc = 0)
    (hg : ∀ k t, slot (gs k t) i = slot t i
      ∧ count_ev CLIENT_TIMEOUT i (gs k t).events = count_ev CLIENT_TIMEOUT i t.events) :
    (slot (idle_run h gs s 10) i).sock = 0
    ∧ count_ev CLIENT_TIMEOUT i (idle_run h gs s 10).events
        = count_ev CLIENT_TIMEOUT i s.events + 1 := by
  obtain ⟨ih1, ih2⟩ := idle_run_slot h gs s i hi ha ht hg 9 (le_refl _)
  obtain ⟨t1, t2⟩ := tick_slot h (gs 9 (idle_run h gs s 9)) i hi
  obtain ⟨g1, g2⟩ := hg 9 (idle_run h gs s 9)
  rw [show idle_run h gs s 10 = tick h (gs 9 (idle_run h gs s 9)) from rfl,
    t1, t2, g1, g2, ih1, ih2]
  simp [tick_cl, ha]

theorem find_slot_le (s : Srv) (i : Nat) (h0 : (slot s i).sock = 0) :
    find_slot s.IPCL ≤ i := by
  obtain ⟨_, _, h3, _⟩ := find_slot_loop_spec s.IPCL MAXCL 0
  by_contra hn
  exact h3 i (by omega) (by unfold find_slot at hn; omega) h0

/-! ## A byte stream fed to one slot -/

theorem SSL_read_data (c : List Nat) (num : Int) :
    SSL_read (Rd.data c) num = ((((c.take num.toNat).length : Nat) : Int), c.take num.toNat) :=
  rfl

theorem findterm_after_read_none (cl : ipclient) (taken : List Nat)
    (hb1 : cl.bcnt.toNat ≤ cl.inbuf.length)
    (hfree : ∀ b ∈ taken, ¬ is_term b) :
    my_findterm (after_read cl (((taken.length : Nat) : Int), taken))
      = (none, after_read cl (((taken.length : Nat) : Int), taken)) := by
  unfold my_findterm
  apply findterm_loop_none
  intro k hk
  have hk2 : k < taken.length := by simpa [after_read] using hk
  have e : (after_read cl (((taken.length : Nat) : Int), taken)).inbuf.getD
      ((after_read cl (((taken.length : Nat) : Int), taken)).bptr.toNat + k) 0
      = taken.getD k 0 := by
    simp only [after_read]
    exact poke_getD _ _ _ _ hb1 hk2
  rw [e, List.getD_eq_getElem _ _ hk2]
  exact hfree _ (List.getElem_mem _)

theorem findterm_after_read_some (cl : ipclient) (taken : List Nat)
    (hb1 : cl.bcnt.toNat ≤ cl.inbuf.length)
    (hex : ∃ b ∈ taken, is_term b) :
    ∃ p, (my_findterm (after_read cl (((taken.length : Nat) : Int), taken))).1 = some p := by
  unfold my_findterm
  apply findterm_loop_some
  obtain ⟨b, hb, ht⟩ := hex
  obtain ⟨k, hk, hkb⟩ := List.getElem_of_mem hb
  refine ⟨k, by simpa [after_read] using hk, ?_⟩
  have e : (after_read cl (((taken.length : Nat) : Int), taken)).inbuf.getD
      ((after_read cl (((taken.length : Nat) : Int), taken)).bptr.toNat + k) 0
      = taken.getD k 0 := by
    simp only [after_read]
    exact poke_getD _ _ _ _ hb1 hk
  rw [e, List.getD_eq_getElem _ _ hk, hkb]
  exact ht

theorem findterm_frame (cl : ipclient) :
    (my_findterm cl).2.overflow = cl.overflow ∧ (my_findterm cl).2.sock = cl.sock
    ∧ (my_findterm cl).2.inbuf.length = cl.inbuf.length :=
  findterm_loop_overflow cl _ _

theorem after_read_length (cl : ipclient) (taken : List Nat)
    (hfit : cl.bcnt.toNat + taken.length ≤ cl.inbuf.length) :
    (after_read cl (((taken.length : Nat) : Int), taken)).inbuf.length = cl.inbuf.length := by
  simp only [after_read]
  exact poke_length _ _ _ hfit

theorem feed_done (h : Handler) (i fuel : Nat) (s : Srv) :
    feed h i fuel s [] = some (s, []) := by
  cases fuel <;> rfl

theorem feed_overfl (h : Handler) (i : Nat) (s : Srv) (c : List Nat) (cs : List (List Nat))
    (ha : (slot s i).sock ≠ 0) (hlen : (slot s i).inbuf.length = BSIZ)
    (hf : (BSIZ : Int) - (slot s i).bcnt < 4) (hq : ∀ x, h CLIENT_OVERFL x = false) :
    ∃ s1 e, (∀ fuel, feed h i (fuel + 1) s (c :: cs) = feed h i fuel s1 (c :: cs))
      ∧ (slot s1 i).sock = (slot s i).sock ∧ (slot s1 i).inbuf.length = BSIZ
      ∧ (slot s1 i).bcnt = 0 ∧ (slot s1 i).overflow = 1
      ∧ s1.events = s.events ++ [⟨CLIENT_OVERFL, some (i, e)⟩] := by
  have hi := lt_of_active s i ha
  have hb : (slot s i).inbuf ≠ [] := by
    intro h0; rw [h0] at hlen; simp at hlen
  have key := client_input_overfl h [(slot s i).sock] (Rd.data c) s i ha (by simp) hb hf
  rw [dispatch_quiet _ _ _ _ (hq _)] at key
  refine ⟨upd (emit (upd s i (fun c => { c with bptr := c.bcnt }))
      ⟨CLIENT_OVERFL, some (i, slot (upd s i (fun c => { c with bptr := c.bcnt })) i)⟩) i
      (fun c => { c with bcnt := 0, overflow := 1 }), _, ?_, ?_, ?_, ?_, ?_, rfl⟩
  · intro fuel
    simp only [feed, key, if_neg ha, if_pos hf]
  · rw [upd_emit, slot_emit, upd_upd, slot_upd_self _ _ _ hi]
  · rw [upd_emit, slot_emit, upd_upd, slot_upd_self _ _ _ hi]; exact hlen
  · rw [upd_emit, slot_emit, upd_upd, slot_upd_self _ _ _ hi]
  · rw [upd_emit, slot_emit, upd_upd, slot_upd_self _ _ _ hi]

theorem feed_read_none (h : Handler) (i : Nat) (s : Srv) (c : List Nat)
    (cs : List (List Nat))
    (ha : (slot s i).sock ≠ 0) (hlen : (slot s i).inbuf.length = BSIZ)
    (hb0 : 0 ≤ (slot s i).bcnt)
    (hf : ¬ (BSIZ : Int) - (slot s i).bcnt < 4) (hc : c ≠ [])
    (hfree : ∀ b ∈ c.take ((BSIZ : Int) - (slot s i).bcnt).toNat, ¬ is_term b) :
    ∃ s1, (∀ fuel, feed h i (fuel + 1) s (c :: cs) = feed h i fuel s1
        (if c.drop ((BSIZ : Int) - (slot s i).bcnt).toNat = [] then cs
          else c.drop ((BSIZ : Int) - (slot s i).bcnt).toNat :: cs))
      ∧ (slot s1 i).sock = (slot s i).sock ∧ (slot s1 i).inbuf.length = BSIZ
      ∧ (slot s1 i).bcnt
          = (slot s i).bcnt + ((c.take ((BSIZ : Int) - (slot s i).bcnt).toNat).length : Nat)
      ∧ (slot s1 i).overflow = (slot s i).overflow
      ∧ s1.events = s.events := by
  have hi := lt_of_active s i ha
  have hb : (slot s i).inbuf ≠ [] := by
    intro h0; rw [h0] at hlen; simp at hlen
  have hpos : 0 < (c.take ((BSIZ : Int) - (slot s i).bcnt).toNat).length := by
    cases c with
    | nil => exact absurd rfl hc
    | cons x xs =>
      simp only [List.length_take, List.length_cons]
      omega
  have hfit : (slot s i).bcnt.toNat + (c.take ((BSIZ : Int) - (slot s i).bcnt).toNat).length
      ≤ (slot s i).inbuf.length := by
    rw [hlen, List.length_take]; omega
  have hft := findterm_after_read_none (slot s i) _ (by omega) hfree
  have key := client_input_read h [(slot s i).sock] (Rd.data c) s i ha (by simp) hb hf _
    (SSL_read_data c _).symm (Int.natCast_pos.mpr hpos) _ rfl _ rfl
  rw [hft] at key
  simp only [] at key
  obtain ⟨s1, hs1⟩ : ∃ s1, client_input h [(slot s i).sock] (Rd.data c) s i = some s1 :=
    ⟨_, key⟩
  have hX := Option.some.inj (key.symm.trans hs1)
  refine ⟨s1, ?_, ?_, ?_, ?_, ?_, ?_⟩
  · intro fuel
    simp only [feed, hs1, if_neg ha, if_neg hf, SSL_rest]
    split <;> rfl
  · rw [← hX, slot_upd_self _ _ _ (by simpa using hi)]; rfl
  · rw [← hX, slot_upd_self _ _ _ (by simpa using hi), after_read_length _ _ hfit]; exact hlen
  · rw [← hX, slot_upd_self _ _ _ (by simpa using hi)]; rfl
  · rw [← hX, slot_upd_self _ _ _ (by simpa using hi)]; rfl
  · rw [← hX]; rfl

theorem feed_read_term (h : Handler) (i : Nat) (s : Srv) (c : List Nat)
    (cs : List (List Nat))
    (ha : (slot s i).sock ≠ 0) (hlen : (slot s i).inbuf.length = BSIZ)
    (hb0 : 0 ≤ (slot s i).bcnt)
    (hf : ¬ (BSIZ : Int) - (slot s i).bcnt < 4) (hc : c ≠ [])
    (hex : ∃ b ∈ c.take ((BSIZ : Int) - (slot s i).bcnt).toNat, is_term b) :
    ∃ s1, (∀ fuel, feed h i (fuel + 1) s (c :: cs) = feed h i fuel s1
        (if c.drop ((BSIZ : Int) - (slot s i).bcnt).toNat = [] then cs
          else c.drop ((BSIZ : Int) - (slot s i).bcnt).toNat :: cs))
      ∧ (slot s1 i).bcnt = 0 ∧ (slot s1 i).overflow = 0
      ∧ ((slot s i).overflow ≠ 0 →
          s1.events = s.events ∧ (slot s1 i).sock = (slot s i).sock
          ∧ (slot s1 i).inbuf.length = BSIZ)
      ∧ ((slot s i).overflow = 0 → ∃ e, s1.events = s.events ++ [⟨CLIENT_DATA, some (i, e)⟩]) := by
  have hi := lt_of_active s i ha
  have hb : (slot s i).inbuf ≠ [] := by
    intro h0; rw [h0] at hlen; simp at hlen
  have hpos : 0 < (c.take ((BSIZ : Int) - (slot s i).bcnt).toNat).length := by
    cases c with
    | nil => exact absurd rfl hc
    | cons x xs =>
      simp only [List.length_take, List.length_cons]
      omega
  have hfit : (slot s i).bcnt.toNat + (c.take ((BSIZ : Int) - (slot s i).bcnt).toNat).length
      ≤ (slot s i).inbuf.length := by
    rw [hlen, List.length_take]; omega
  obtain ⟨p, hp⟩ := findterm_after_read_some (slot s i) _ (by omega) hex
  obtain ⟨fo, fs, fl⟩ := findterm_frame (after_read (slot s i)
    (((c.take ((BSIZ : Int) - (slot s i).bcnt).toNat).length : Nat),
      c.take ((BSIZ : Int) - (slot s i).bcnt).toNat))
  rw [after_read_length _ _ hfit] at fl
  have key := client_input_read h [(slot s i).sock] (Rd.data c) s i ha (by simp) hb hf _
    (SSL_read_data c _).symm (Int.natCast_pos.mpr hpos) _ rfl _ rfl
  rw [hp] at key
  simp only [] at key
  have hi2 : ∀ (t : Srv), t.IPCL.length = s.IPCL.length → i < t.IPCL.length := by
    intro t ht; omega
  obtain ⟨s1, hs1⟩ : ∃ s1, client_input h [(slot s i).sock] (Rd.data c) s i = some s1 :=
    ⟨_, key⟩
  have hX := Option.some.inj (key.symm.trans hs1)
  refine ⟨s1, ?_, ?_, ?_, ?_, ?_⟩
  · intro fuel
    simp only [feed, hs1, if_neg ha, if_neg hf, SSL_rest]
    split <;> rfl
  · rw [← hX, slot_upd_self _ _ _ (hi2 _ (by split <;> simp))]
  · rw [← hX, slot_upd_self _ _ _ (hi2 _ (by split <;> simp))]
  · rw [← hX]
    intro hov
    have hov2 : ¬ (my_findterm (after_read (slot s i)
        (((c.take ((BSIZ : Int) - (slot s i).bcnt).toNat).length : Nat),
          c.take ((BSIZ : Int) - (slot s i).bcnt).toNat))).2.overflow = 0 := by
      rw [fo]; exact hov
    simp only [if_neg hov2]
    refine ⟨rfl, ?_, ?_⟩
    · rw [upd_upd, slot_upd_self _ _ _ (by simpa using hi)]
      exact fs
    · rw [upd_upd, slot_upd_self _ _ _ (by simpa using hi)]
      exact fl.trans hlen
  · rw [← hX]
    intro hov
    have hov2 : (my_findterm (after_read (slot s i)
        (((c.take ((BSIZ : Int) - (slot s i).bcnt).toNat).length : Nat),
          c.take ((BSIZ : Int) - (slot s i).bcnt).toNat))).2.overflow = 0 := by
      rw [fo]; exact hov
    simp only [if_pos hov2]
    exact ⟨_, by rw [upd_events, dispatch_events]; rfl⟩

/-! ## A message that fits, split into reads -/

theorem split_last (c j m : List Nat) (x : Nat) (hj : j ≠ []) (he : c ++ j = m ++ [x]) :
    ∃ m1, m = c ++ m1 ∧ j = m1 ++ [x] := by
  have hj2 := (List.dropLast_append_getLast hj).symm
  rw [hj2, ← List.append_assoc] at he
  have h2 := List.append_inj' he (by simp)
  refine ⟨j.dropLast, h2.1.symm, ?_⟩
  have h3 : j.getLast hj = x := by simpa using h2.2
  rw [← h3]
  exact hj2

theorem flatten_ne_nil (c : List Nat) (cs : List (List Nat)) (hc : c ≠ []) :
    (c :: cs).flatten ≠ [] := by
  cases c with
  | nil => exact absurd rfl hc
  | cons x xs => simp

theorem feed_message (h : Handler) (i : Nat) (chunks : List (List Nat)) :
    ∀ (s : Srv) (m : List Nat) (fuel : Nat), chunks.length ≤ fuel →
      (∀ c ∈ chunks, c ≠ []) → chunks.flatten = m ++ [10] → (∀ b ∈ m, ¬ is_term b) →
      (slot s i).sock ≠ 0 → (slot s i).inbuf.length = BSIZ → 0 ≤ (slot s i).bcnt →
      (slot s i).bcnt + m.length ≤ 1020 → (slot s i).overflow = 0 →
      ∃ s1 e, feed h i fuel s chunks = some (s1, [])
        ∧ s1.events = s.events ++ [⟨CLIENT_DATA, some (i, e)⟩] := by
  induction chunks with
  | nil =>
    intro s m fuel _ _ hj
    simp at hj
  | cons c cs ih =>
    intro s m fuel hfuel hne hj hm ha hlen hb0 hb1 hov
    obtain ⟨f, rfl⟩ : ∃ f, fuel = f + 1 := ⟨fuel - 1, by simp at hfuel; omega⟩
    have hc : c ≠ [] := hne c (by simp)
    have hf : ¬ (BSIZ : Int) - (slot s i).bcnt < 4 := by
      have : (0 : Int) ≤ (m.length : Int) := Int.natCast_nonneg _
      simp only [BSIZ, Nat.cast_ofNat]
      omega
    have hcl : c.length ≤ m.length + 1 := by
      have := congrArg List.length hj
      simp only [List.flatten_cons, List.length_append, List.length_singleton] at this
      omega
    have htk : c.take ((BSIZ : Int) - (slot s i).bcnt).toNat = c := by
      apply List.take_of_length_le
      simp only [BSIZ, Nat.cast_ofNat]
      omega
    have hdr : c.drop ((BSIZ : Int) - (slot s i).bcnt).toNat = [] := by
      apply List.drop_of_length_le
      simp only [BSIZ, Nat.cast_ofNat]
      omega
    by_cases hcs : cs = []
    · subst hcs
      simp only [List.flatten_cons, List.flatten_nil, List.append_nil] at hj
      obtain ⟨s1, e1, _, _, _, e2⟩ := feed_read_term h i s c [] ha hlen hb0 hf hc
        (by rw [htk, hj]; exact ⟨10, by simp, by decide⟩)
      obtain ⟨e, he⟩ := e2 hov
      rw [hdr] at e1
      simp only [if_true] at e1
      exact ⟨s1, e, by rw [e1 f, feed_done], he⟩
    · obtain ⟨c2, cs2, rfl⟩ : ∃ c2 cs2, cs = c2 :: cs2 := by
        cases cs with
        | nil => exact absurd rfl hcs
        | cons c2 cs2 => exact ⟨c2, cs2, rfl⟩
      have hjn : (c2 :: cs2).flatten ≠ [] := flatten_ne_nil c2 cs2 (hne c2 (by simp))
      obtain ⟨m1, hm1, hj1⟩ := split_last c (c2 :: cs2).flatten m 10 hjn (by simpa using hj)
      have hcfree : ∀ b ∈ c, ¬ is_term b := by
        intro b hb
        exact hm b (by rw [hm1]; simp [hb])
      obtain ⟨s1, e1, a1, l1, b1, o1, v1⟩ := feed_read_none h i s c (c2 :: cs2) ha hlen hb0
        hf hc (by rw [htk]; exact hcfree)
      rw [hdr] at e1
      simp only [if_true] at e1
      rw [htk] at b1
      have hml : m.length = c.length + m1.length := by rw [hm1]; simp
      obtain ⟨s2, e, e2, v2⟩ := ih s1 m1 f (by simp at hfuel ⊢; omega)
        (fun x hx => hne x (by simp [hx])) hj1
        (fun b hb => hm b (by rw [hm1]; simp [hb]))
        (by rw [a1]; exact ha) l1 (by rw [b1]; omega) (by rw [b1]; omega) (by rw [o1]; exact hov)
      exact ⟨s2, e, by rw [e1 f, e2], by rw [v2, v1]⟩

/-! ## A message longer than the buffer -/

theorem taken_inside (taken x pre rest : List Nat) (t : Nat)
    (he : taken ++ x = pre ++ t :: rest) (hfree : ∀ b ∈ taken, ¬ is_term b) (ht : is_term t) :
    ∃ pre1, pre = taken ++ pre1 ∧ x = pre1 ++ t :: rest := by
  rcases List.append_eq_append_iff.mp he with ⟨a, h1, h2⟩ | ⟨c, h1, h2⟩
  · exact ⟨a, h1, h2⟩
  · cases c with
    | nil =>
      refine ⟨[], by simpa using h1.symm, by simpa using h2.symm⟩
    | cons y ys =>
      exfalso
      simp only [List.cons_append, List.cons.injEq] at h2
      apply hfree t _ ht
      rw [h1, ← h2.1]
      simp

theorem taken_beyond (taken x pre rest : List Nat) (t : Nat)
    (he : taken ++ x = pre ++ t :: rest) (hex : ∃ b ∈ taken, is_term b)
    (hpre : ∀ b ∈ pre, ¬ is_term b) : pre.length + 1 ≤ taken.length := by
  rcases List.append_eq_append_iff.mp he with ⟨a, h1, _⟩ | ⟨c, h1, h2⟩
  · exfalso
    obtain ⟨b, hb, hbt⟩ := hex
    exact hpre b (by rw [h1]; simp [hb]) hbt
  · cases c with
    | nil =>
      exfalso
      obtain ⟨b, hb, hbt⟩ := hex
      exact hpre b (by simpa [h1] using hb) hbt
    | cons y ys =>
      rw [h1]
      simp

theorem count_ev_snoc (code code1 : Int) (i : Nat) (evs : List Event)
    (a : Option (Nat × ipclient)) (hne : code1 ≠ code) :
    count_ev code i (evs ++ [⟨code1, a⟩]) = count_ev code i evs := by
  rw [count_ev_append, count_ev_code _ _ _ _ hne]
  rfl

theorem overlong_run (h : Handler) (hq : ∀ x, h CLIENT_OVERFL x = false) (i : Nat)
    (t : Nat) (ht : is_term t) (rest : List Nat) (N : Nat) :
    ∀ (s : Srv) (p : List (List Nat)) (pre : List Nat),
      2 * pre.length + (if (BSIZ : Int) - (slot s i).bcnt < 4 then 1 else 0) < N →
      (slot s i).sock ≠ 0 → (slot s i).inbuf.length = BSIZ →
      0 ≤ (slot s i).bcnt → (slot s i).bcnt ≤ BSIZ →
      (∀ c ∈ p, c ≠ []) → p.flatten = pre ++ t :: rest → (∀ b ∈ pre, ¬ is_term b) →
      ((slot s i).overflow ≠ 0 ∨ (BSIZ : Int) < (slot s i).bcnt + pre.length) →
      ∃ n s1 p1, feed h i n s p = some (s1, p1)
        ∧ p1.flatten.length ≤ rest.length
        ∧ (∀ m, m < n → ∀ s2 p2, feed h i m s p = some (s2, p2) →
            rest.length < p2.flatten.length)
        ∧ count_ev CLIENT_DATA i s1.events = count_ev CLIENT_DATA i s.events
        ∧ count_ev CLIENT_OVERFL i s.events ≤ count_ev CLIENT_OVERFL i s1.events
        ∧ ((slot s i).overflow = 0 →
            count_ev CLIENT_OVERFL i s.events < count_ev CLIENT_OVERFL i s1.events)
        ∧ (slot s1 i).overflow = 0 ∧ (slot s1 i).bcnt = 0 := by
  induction N with
  | zero =>
    intro s p pre hN
    omega
  | succ N ih =>
    intro s p pre hN ha hlen hb0 hb1 hne hj hpre hinv
    have hBn : BSIZ = 1024 := rfl
    obtain ⟨c, cs, rfl⟩ : ∃ c cs, p = c :: cs := by
      cases p with
      | nil => simp at hj
      | cons c cs => exact ⟨c, cs, rfl⟩
    have hc : c ≠ [] := hne c (by simp)
    have hstart : ∀ s2 p2, feed h i 0 s (c :: cs) = some (s2, p2) →
        rest.length < p2.flatten.length := by
      intro s2 p2 h0
      simp only [feed, Option.some.injEq, Prod.mk.injEq] at h0
      rw [← h0.2, hj]
      simp
      omega
    by_cases hf : (BSIZ : Int) - (slot s i).bcnt < 4
    · -- no room: the overflow branch
      rw [if_pos hf] at hN
      obtain ⟨s1, e, e1, a1, l1, b1, o1, v1⟩ := feed_overfl h i s c cs ha hlen hf hq
      obtain ⟨n, s2, p2, r1, r2, r3, r4, r5, _, r7, r8⟩ := ih s1 (c :: cs) pre
        (by rw [b1]; split <;> omega)
        (by rw [a1]; exact ha) l1 (by rw [b1]) (by rw [b1]; simp) hne hj hpre
        (Or.inl (by rw [o1]; decide))
      have hd : count_ev CLIENT_DATA i s1.events = count_ev CLIENT_DATA i s.events := by
        rw [v1, count_ev_snoc _ _ _ _ _ (by decide)]
      have ho : count_ev CLIENT_OVERFL i s1.events = count_ev CLIENT_OVERFL i s.events + 1 := by
        rw [v1, count_ev_append, count_ev_hit]
      refine ⟨n + 1, s2, p2, by rw [e1 n, r1], r2, ?_, by rw [r4, hd], by omega,
        fun _ => by omega, r7, r8⟩
      intro m hm s3 p3 hm3
      cases m with
      | zero => exact hstart s3 p3 hm3
      | succ m =>
        rw [e1 m] at hm3
        exact r3 m (by omega) s3 p3 hm3
    · rw [if_neg hf] at hN
      have hsplit : c.take ((BSIZ : Int) - (slot s i).bcnt).toNat
          ++ (c.drop ((BSIZ : Int) - (slot s i).bcnt).toNat ++ cs.flatten)
          = pre ++ t :: rest := by
        rw [← List.append_assoc, List.take_append_drop]
        exact hj
      have hpj : (if c.drop ((BSIZ : Int) - (slot s i).bcnt).toNat = [] then cs
            else c.drop ((BSIZ : Int) - (slot s i).bcnt).toNat :: cs).flatten
          = c.drop ((BSIZ : Int) - (slot s i).bcnt).toNat ++ cs.flatten := by
        split
        · rename_i h0; rw [h0]; rfl
        · rfl
      have hpne : ∀ x ∈ (if c.drop ((BSIZ : Int) - (slot s i).bcnt).toNat = [] then cs
            else c.drop ((BSIZ : Int) - (slot s i).bcnt).toNat :: cs), x ≠ [] := by
        intro x hx
        split at hx
        · exact hne x (by simp [hx])
        · rename_i h0
          rcases List.mem_cons.mp hx with hx | hx
          · rw [hx]; exact h0
          · exact hne x (by simp [hx])
      have hklen : (c.take ((BSIZ : Int) - (slot s i).bcnt).toNat).length
          ≤ ((BSIZ : Int) - (slot s i).bcnt).toNat := by
        rw [List.length_take]; omega
      have hkpos : 1 ≤ (c.take ((BSIZ : Int) - (slot s i).bcnt).toNat).length := by
        cases c with
        | nil => exact absurd rfl hc
        | cons x xs =>
          simp only [List.length_take, List.length_cons]
          omega
      by_cases hfree : ∀ b ∈ c.take ((BSIZ : Int) - (slot s i).bcnt).toNat, ¬ is_term b
      · -- the bytes read hold no terminator
        obtain ⟨pre1, hp1, hp2⟩ := taken_inside _ _ _ _ _ hsplit hfree ht
        have hpl : pre.length = (c.take ((BSIZ : Int) - (slot s i).bcnt).toNat).length
            + pre1.length := by
          conv_lhs => rw [hp1]
          simp
        obtain ⟨s1, e1, a1, l1, b1, o1, v1⟩ := feed_read_none h i s c cs ha hlen hb0 hf hc hfree
        obtain ⟨n, s2, p2, r1, r2, r3, r4, r5, r6, r7, r8⟩ := ih s1 _ pre1
          (by split <;> omega)
          (by rw [a1]; exact ha) l1 (by rw [b1]; omega)
          (by rw [b1]; omega) hpne
          (by rw [hpj]; exact hp2)
          (fun b hb => hpre b (by rw [hp1]; simp [hb]))
          (by
            rcases hinv with hov | hov
            · left; rw [o1]; exact hov
            · right; rw [b1]; omega)
        refine ⟨n + 1, s2, p2, by rw [e1 n, r1], r2, ?_, by rw [r4, v1], by rw [← v1]; exact r5,
          fun h0 => by rw [← v1]; exact r6 (by rw [o1]; exact h0), r7, r8⟩
        intro m hm s3 p3 hm3
        cases m with
        | zero => exact hstart s3 p3 hm3
        | succ m =>
          rw [e1 m] at hm3
          exact r3 m (by omega) s3 p3 hm3
      · -- the bytes read hold the terminator
        have hex : ∃ b ∈ c.take ((BSIZ : Int) - (slot s i).bcnt).toNat, is_term b := by
          by_contra hn
          apply hfree
          intro b hb hbt
          exact hn ⟨b, hb, hbt⟩
        have hbey := taken_beyond _ _ _ _ _ hsplit hex hpre
        have hov : (slot s i).overflow ≠ 0 := by
          rcases hinv with hov | hov
          · exact hov
          · exfalso
            omega
        obtain ⟨s1, e1, b1, o1, f1, _⟩ := feed_read_term h i s c cs ha hlen hb0 hf hc hex
        obtain ⟨v1, _, _⟩ := f1 hov
        refine ⟨1, s1, _, by rw [e1 0]; rfl, ?_, ?_, by rw [v1], by rw [v1],
          fun h0 => absurd h0 hov, o1, b1⟩
        · rw [hpj]
          have := congrArg List.length hsplit
          simp only [List.length_append, List.length_cons] at this ⊢
          omega
        · intro m hm s3 p3 hm3
          have hm0 : m = 0 := by omega
          subst hm0
          exact hstart s3 p3 hm3

/-! ## Steps that are local to one slot -/

theorem local_refl (i : Nat) (s : Srv) : local_to i s s :=
  ⟨rfl, rfl, fun _ _ => rfl⟩

theorem local_trans (i : Nat) (s t u : Srv) (h1 : local_to i s t) (h2 : local_to i t u) :
    local_to i s u :=
  ⟨h2.1.trans h1.1, h2.2.1.trans h1.2.1, fun j hj => (h2.2.2 j hj).trans (h1.2.2 j hj)⟩

theorem local_upd (i : Nat) (s : Srv) (f : ipclient → ipclient) : local_to i s (upd s i f) :=
  ⟨upd_length s i f, rfl, fun j hj => slot_upd_ne s i j f (Ne.symm hj)⟩

theorem local_syscall (i : Nat) (s : Srv) (xs : List Sys) : local_to i s (syscall s xs) :=
  ⟨rfl, rfl, fun _ _ => rfl⟩

theorem local_emit (i : Nat) (s : Srv) (e : Event) : local_to i s (emit s e) :=
  ⟨rfl, rfl, fun _ _ => rfl⟩

theorem local_FD_SET (i : Nat) (s : Srv) (fd : Int) : local_to i s (FD_SET s fd) :=
  ⟨rfl, rfl, fun _ _ => rfl⟩

theorem local_set_ptime_slots (s : Srv) (t : Int) (j : Nat) :
    slot (set_ptime s t) j = slot s j := rfl

theorem local_drop (i : Nat) (s : Srv) : local_to i s (easyssl_drop s i) :=
  ⟨drop_length s i, drop_ptime s i, fun j hj => slot_drop_ne s i j (Ne.symm hj)⟩

theorem local_dispatch (h : Handler) (i : Nat) (s : Srv) (code : Int) :
    local_to i s (dispatch h s code i) :=
  ⟨dispatch_length h s code i, dispatch_ptime h s code i,
    fun j hj => slot_dispatch_ne h s code i j (Ne.symm hj)⟩

theorem local_tick_client (h : Handler) (i : Nat) (s : Srv) :
    local_to i s (tick_client h s i) := by
  rw [tick_client_eq]
  split
  · split
    · exact local_trans i _ _ _ (local_trans i _ _ _ (local_upd i s _) (local_emit i _ _))
        (local_drop i _)
    · exact local_upd i s _
  · exact local_refl i s

theorem local_client_input (h : Handler) (fds : List Int) (rd : Rd) (s t : Srv) (i : Nat)
    (hs : client_input h fds rd s i = some t) : local_to i s t := by
  unfold client_input at hs
  split at hs
  · cases hs; exact local_refl i s
  · split at hs
    · cases hs; exact local_refl i s
    · split at hs
      · cases hs
      · simp only [] at hs
        split at hs
        · cases hs
          exact local_trans i _ _ _ (local_trans i _ _ _ (local_upd i s _)
            (local_dispatch h i _ _)) (local_upd i _ _)
        · have l2 : local_to i s (upd (syscall (upd s i (fun c => { c with bptr := c.bcnt }))
              [Sys.SSL_read (slot (upd s i (fun c => { c with bptr := c.bcnt })) i).ssl
                ((BSIZ : Int) - (slot (upd s i (fun c => { c with bptr := c.bcnt })) i).bcnt)]) i
              (fun c => { c with
                inbuf := poke c.inbuf c.bptr.toNat (SSL_read rd ((BSIZ : Int) -
                  (slot (upd s i (fun c => { c with bptr := c.bcnt })) i).bcnt)).2
                rdcnt := (SSL_read rd ((BSIZ : Int) -
                  (slot (upd s i (fun c => { c with bptr := c.bcnt })) i).bcnt)).1 })) :=
            local_trans i _ _ _ (local_trans i _ _ _ (local_upd i s _) (local_syscall i _ _))
              (local_upd i _ _)
          split at hs
          · split at hs
            · cases hs
              refine local_trans i _ _ _ ?_ (local_upd i _ _)
              split
              · exact local_trans i _ _ _ (local_trans i _ _ _ (local_trans i _ _ _ l2
                  (local_upd i _ _)) (local_upd i _ _)) (local_dispatch h i _ _)
              · exact local_trans i _ _ _ (local_trans i _ _ _ l2
                  (local_upd i _ _)) (local_upd i _ _)
            · cases hs
              exact local_trans i _ _ _ (local_trans i _ _ _ l2
                  (local_upd i _ _)) (local_upd i _ _)
          · cases hs
            exact local_trans i _ _ _ (local_trans i _ _ _ l2 (local_dispatch h i _ _))
              (local_drop i _)

/-! ## A read without a terminator -/

theorem poke_take (buf : List Nat) (off : Nat) (bytes : List Nat) (hoff : off ≤ buf.length) :
    (poke buf off bytes).take off = buf.take off := by
  have h1 : (buf.take off).length = off := by simp [hoff]
  unfold poke
  rw [List.append_assoc, List.take_append_of_le_length (by omega)]
  exact List.take_of_length_le (by omega)

theorem poke_drop_take (buf : List Nat) (off : Nat) (bytes : List Nat) (hoff : off ≤ buf.length) :
    ((poke buf off bytes).drop off).take bytes.length = bytes := by
  have h1 : (buf.take off).length = off := by simp [hoff]
  unfold poke
  rw [List.append_assoc]
  conv_lhs => rw [show List.drop off (buf.take off ++ (bytes ++ buf.drop (off + bytes.length)))
    = bytes ++ buf.drop (off + bytes.length) from by
      rw [List.drop_append_of_le_length (by omega)]
      rw [List.drop_of_length_le (by omega)]
      rfl]
  exact List.take_left bytes _

theorem read_plain (h : Handler) (fds : List Int) (s : Srv) (i : Nat) (bytes : List Nat)
    (ha : (slot s i).sock ≠ 0) (hr : (slot s i).sock ∈ fds)
    (hlen : (slot s i).inbuf.length = BSIZ) (hb0 : 0 ≤ (slot s i).bcnt)
    (hf : 4 ≤ (BSIZ : Int) - (slot s i).bcnt) (hn : bytes ≠ [])
    (hfit : (bytes.length : Int) ≤ (BSIZ : Int) - (slot s i).bcnt)
    (hfree : ∀ b ∈ bytes, ¬ is_term b) :
    client_input h fds (Rd.data bytes) s i =
      some (upd (syscall s [Sys.SSL_read (slot s i).ssl ((BSIZ : Int) - (slot s i).bcnt)]) i
        (fun _ => after_read (slot s i) (((bytes.length : Nat) : Int), bytes))) := by
  have hBn : BSIZ = 1024 := rfl
  have hb : (slot s i).inbuf ≠ [] := by
    intro h0; rw [h0] at hlen; simp at hlen
  have htk : bytes.take ((BSIZ : Int) - (slot s i).bcnt).toNat = bytes :=
    List.take_of_length_le (by omega)
  have hpos : 0 < bytes.length := List.length_pos.mpr hn
  have hR : ((((bytes.length : Nat) : Int)), bytes)
      = SSL_read (Rd.data bytes) ((BSIZ : Int) - (slot s i).bcnt) := by
    rw [SSL_read_data, htk]
  have hft := findterm_after_read_none (slot s i) bytes (by omega) hfree
  have key := client_input_read h fds (Rd.data bytes) s i ha hr hb (by omega) _ hR
    (Int.natCast_pos.mpr hpos) _ rfl _ rfl
  rw [hft] at key
  exact key

/-! ## The accept block, case by case -/

theorem upd_self (s : Srv) (i : Nat) (f : ipclient → ipclient) (hf : f (slot s i) = slot s i) :
    upd s i f = s := by
  have hl : s.IPCL.set i (slot s i) = s.IPCL := by
    by_cases hi : i < s.IPCL.length
    · apply List.ext_getElem (by simp)
      intro n h1 h2
      rw [List.getElem_set]
      split
      · rename_i hin
        subst hin
        simp [slot, List.getD_eq_getElem?_getD, List.getElem?_eq_getElem hi]
      · rfl
    · exact List.set_eq_of_length_le (by omega)
  unfold upd
  rw [hf, hl]

theorem accept_cases (h : Handler) (a : AcceptIn) (s t : Srv)
    (hs : accept_phase h a s = some t) :
    (MAXCL ≤ find_slot s.IPCL
      ∧ t = syscall s [Sys.shutdown a.csock, Sys.closesocket a.csock])
    ∨ (find_slot s.IPCL < MAXCL ∧ a.hs ≤ 0
      ∧ t = syscall (upd s (find_slot s.IPCL) (fun c =>
          { c with inbuf := if c.inbuf = [] then a.mem else c.inbuf }))
          [Sys.SSL_free a.ssl, Sys.shutdown a.csock, Sys.closesocket a.csock])
    ∨ (find_slot s.IPCL < MAXCL ∧ 0 < a.hs
      ∧ ((slot s (find_slot s.IPCL)).inbuf ≠ [] ∨ a.mem ≠ [])
      ∧ t = dispatch h (FD_SET (upd s (find_slot s.IPCL) (fun c =>
          { c with
            inbuf := if c.inbuf = [] then a.mem else c.inbuf
            cid := (find_slot s.IPCL : Int) + 1, sock := a.csock, ip := a.ip, bcnt := 0
            tictoc := 0, overflow := 0, ssl := some a.ssl })) a.csock)
          CLIENT_CONNECT (find_slot s.IPCL)) := by
  unfold accept_phase at hs
  simp only [] at hs
  split at hs
  · rename_i hfull
    left
    exact ⟨hfull, (Option.some.inj hs).symm⟩
  · rename_i hfree
    right
    split at hs
    · cases hs
    · rename_i hmem
      have e1 : (if (slot s (find_slot s.IPCL)).inbuf = []
            then upd s (find_slot s.IPCL) (fun c => { c with inbuf := a.mem }) else s)
          = upd s (find_slot s.IPCL) (fun c =>
              { c with inbuf := if c.inbuf = [] then a.mem else c.inbuf }) := by
        split
        · rename_i hb
          apply upd_congr
          simp [hb]
        · rename_i hb
          exact (upd_self s _ _ (by simp [hb])).symm
      rw [e1] at hs
      split at hs
      · rename_i hhs
        left
        exact ⟨by omega, hhs, (Option.some.inj hs).symm⟩
      · rename_i hhs
        right
        refine ⟨by omega, by omega, ?_, ?_⟩
        · by_contra hn
          apply hmem
          simp only [not_or, not_not] at hn
          exact hn
        · rw [upd_upd] at hs
          exact (Option.some.inj hs).symm

theorem local_accept (h : Handler) (a : AcceptIn) (s t : Srv)
    (hs : accept_phase h a s = some t) : local_to (find_slot s.IPCL) s t := by
  rcases accept_cases h a s t hs with ⟨_, rfl⟩ | ⟨_, _, rfl⟩ | ⟨_, _, _, rfl⟩
  · exact local_syscall _ _ _
  · exact local_trans _ _ _ _ (local_upd _ _ _) (local_syscall _ _ _)
  · exact local_trans _ _ _ _ (local_trans _ _ _ _ (local_upd _ _ _) (local_FD_SET _ _ _))
      (local_dispatch h _ _ _)

/-! ## The minute boundary -/

theorem tick_fold_frame (h : Handler) (s : Srv) (n : Nat) :
    ((List.range n).foldl (tick_client h) s).ptime = s.ptime
    ∧ ((List.range n).foldl (tick_client h) s).IPCL.length = s.IPCL.length := by
  induction n with
  | zero => exact ⟨rfl, rfl⟩
  | succ n ih =>
    rw [List.range_succ, List.foldl_append]
    simp only [List.foldl_cons, List.foldl_nil]
    have hl := local_tick_client h n ((List.range n).foldl (tick_client h) s)
    exact ⟨hl.2.1.trans ih.1, hl.1.trans ih.2⟩

theorem tick_ptime (h : Handler) (s : Srv) : (tick h s).ptime = s.ptime := by
  unfold tick dispatch_null
  rw [emit_ptime]
  exact (tick_fold_frame h s MAXCL).1

theorem timeout_phase_ptime (h : Handler) (c : Int) (s : Srv) :
    (timeout_phase h c s).ptime = if c - s.ptime ≥ 60 then c - c.tmod 60 else s.ptime := by
  unfold timeout_phase
  split
  · rw [tick_ptime]; rfl
  · rfl

theorem minute_dvd (c : Int) : (60 : Int) ∣ c - c.tmod 60 := by
  have := Int.tdiv_add_tmod c 60
  exact ⟨c.tdiv 60, by omega⟩

theorem accept_ptime (h : Handler) (a : AcceptIn) (s t : Srv)
    (hs : accept_phase h a s = some t) : t.ptime = s.ptime :=
  (local_accept h a s t hs).2.1

theorem reach_ptime (h : Handler) (s : Srv) (hr : Reach h s) : (60 : Int) ∣ s.ptime := by
  induction hr with
  | start lsock ctime => exact minute_dvd ctime
  | timeout c s _ ih =>
    rw [timeout_phase_ptime]
    split
    · exact minute_dvd c
    · exact ih
  | accept a s t _ _ hs ih => rw [accept_ptime h a s t hs]; exact ih
  | input fds rd clnt s t _ hs ih => rw [(local_client_input h fds rd s t clnt hs).2.1]; exact ih
  | drop clnt s _ ih => rw [drop_ptime]; exact ih

/-! ## What `my_findterm` returns -/

theorem findterm_loop_spec (cl : ipclient) (len buf : Nat) :
    ((∀ k, buf ≤ k → k < buf + len → ¬ is_term (cl.inbuf.getD k 0))
      ∧ my_findterm_loop cl len buf = (none, cl))
    ∨ ∃ q, buf ≤ q ∧ q < buf + len
      ∧ (∀ k, buf ≤ k → k < q → ¬ is_term (cl.inbuf.getD k 0))
      ∧ is_term (cl.inbuf.getD q 0)
      ∧ my_findterm_loop cl len buf =
          (if cl.inbuf.getD q 0 = 0 then (some q, cl)
           else if cl.bcnt < BSIZ then
             (some (q + 1), { cl with bcnt := cl.bcnt + 1, inbuf := cl.inbuf.set (q + 1) 0 })
           else (some q, { cl with inbuf := cl.inbuf.set q 0 })) := by
  induction len generalizing buf with
  | zero =>
    left
    exact ⟨fun k h1 h2 => by omega, rfl⟩
  | succ n ih =>
    by_cases ht : is_term (cl.inbuf.getD buf 0)
    · right
      refine ⟨buf, le_refl _, by omega, fun k h1 h2 => by omega, ht, ?_⟩
      rw [my_findterm_loop]
      by_cases h0 : cl.inbuf.getD buf 0 = 0
      · simp only [h0, if_true]
      · have h1 : cl.inbuf.getD buf 0 = 10 ∨ cl.inbuf.getD buf 0 = 13 ∨ cl.inbuf.getD buf 0 = 4 := by
          rcases ht with ht | ht
          · exact absurd ht h0
          · exact ht
        simp only [h0, if_false, h1, if_true]
    · have hstep : my_findterm_loop cl (n + 1) buf = my_findterm_loop cl n (buf + 1) := by
        have := findterm_loop_skip cl 1 n buf (fun k hk => by
          have hk0 : k = 0 := by omega
          subst hk0
          exact ht)
        rw [show 1 + n = n + 1 by omega] at this
        exact this
      rcases ih (buf + 1) with ⟨hno, hr⟩ | ⟨q, hq1, hq2, hq3, hq4, hr⟩
      · left
        refine ⟨?_, by rw [hstep, hr]⟩
        intro k h1 h2
        by_cases hk : k = buf
        · subst hk; exact ht
        · exact hno k (by omega) (by omega)
      · right
        refine ⟨q, by omega, by omega, ?_, hq4, by rw [hstep, hr]⟩
        intro k h1 h2
        by_cases hk : k = buf
        · subst hk; exact ht
        · exact hq3 k (by omega) h2

theorem getD_set_self (l : List Nat) (p : Nat) (x : Nat) (hp : p < l.length) :
    (l.set p x).getD p 0 = x := by
  simp [List.getD_eq_getElem?_getD, List.getElem?_set, hp]

theorem getD_set_ne (l : List Nat) (p k : Nat) (x : Nat) (hk : p ≠ k) :
    (l.set p x).getD k 0 = l.getD k 0 := by
  simp [List.getD_eq_getElem?_getD, List.getElem?_set, hk]

theorem set_same (l : List Nat) (p : Nat) (hp : l.getD p 0 = 0) : l.set p 0 = l := by
  by_cases hlt : p < l.length
  · apply List.ext_getElem (by simp)
    intro n h1 h2
    rw [List.getElem_set]
    split
    · rename_i hpn
      subst hpn
      rw [List.getD_eq_getElem _ _ hlt] at hp
      exact hp.symm
    · rfl
  · exact List.set_eq_of_length_le (by omega)

theorem findterm_some_facts (cl : ipclient) (p : Nat) (cl1 : ipclient)
    (hlen : cl.inbuf.length = BSIZ) (hb : cl.bcnt ≤ BSIZ) (hrd : 1 ≤ cl.rdcnt)
    (hptr : cl.bptr = cl.bcnt - cl.rdcnt) (hp0 : 0 ≤ cl.bptr)
    (hft : my_findterm cl = (some p, cl1)) :
    p < BSIZ ∧ (p : Int) < cl1.bcnt ∧ cl1.bcnt ≤ BSIZ ∧ cl.bcnt ≤ cl1.bcnt
      ∧ cl1.inbuf = cl.inbuf.set p 0 ∧ cl1.inbuf.getD p 0 = 0
      ∧ cl1.inbuf.length = BSIZ := by
  have hBn : BSIZ = 1024 := rfl
  unfold my_findterm at hft
  have hend : (cl.bptr.toNat + cl.rdcnt.toNat : Int) = cl.bcnt := by omega
  rcases findterm_loop_spec cl cl.rdcnt.toNat cl.bptr.toNat with ⟨_, hr⟩ | ⟨q, hq1, hq2, _, _, hr⟩
  · rw [hr] at hft
    cases hft
  · rw [hr] at hft
    have hq3 : (q : Int) < cl.bcnt := by omega
    by_cases h0 : cl.inbuf.getD q 0 = 0
    · rw [if_pos h0] at hft
      cases hft
      refine ⟨by omega, hq3, hb, le_refl _, (set_same _ _ h0).symm, h0, hlen⟩
    · rw [if_neg h0] at hft
      by_cases hlt : cl.bcnt < BSIZ
      · rw [if_pos hlt] at hft
        cases hft
        refine ⟨by omega, by simp only []; omega, by simp only []; omega,
          by simp only []; omega, rfl, ?_, by simp [hlen]⟩
        exact getD_set_self _ _ _ (by omega)
      · rw [if_neg hlt] at hft
        cases hft
        refine ⟨by omega, hq3, hb, le_refl _, rfl, ?_, by simp [hlen]⟩
        exact getD_set_self _ _ _ (by omega)

theorem SSL_read_pos (rd : Rd) (num : Int) (hpos : 0 < (SSL_read rd num).1) :
    ∃ taken : List Nat, SSL_read rd num = (((taken.length : Nat) : Int), taken)
      ∧ taken ≠ [] ∧ (taken.length : Int) ≤ num := by
  cases rd with
  | data bytes =>
    refine ⟨bytes.take num.toNat, rfl, ?_, ?_⟩
    · intro h0
      rw [SSL_read_data, h0] at hpos
      simp at hpos
    · rw [SSL_read_data] at hpos
      simp only [List.length_take] at hpos ⊢
      omega
  | eof => simp [SSL_read] at hpos
  | err k =>
    simp only [SSL_read] at hpos
    omega

theorem poke_getD_before (buf : List Nat) (off : Nat) (bytes : List Nat) (k : Nat)
    (hoff : off ≤ buf.length) (hk : k < off) :
    (poke buf off bytes).getD k 0 = buf.getD k 0 := by
  have h1 : (buf.take off).length = off := by simp [hoff]
  simp only [poke, List.getD_eq_getElem?_getD, List.append_assoc]
  rw [List.getElem?_append_left (by omega), List.getElem?_take_of_lt hk]

/-! ## The input step, case by case -/

theorem client_input_cases (h : Handler) (fds : List Int) (rd : Rd) (s t : Srv) (i : Nat)
    (hs : client_input h fds rd s i = some t) :
    t = s
    ∨ ((slot s i).sock ≠ 0 ∧ (slot s i).inbuf ≠ []
        ∧ (BSIZ : Int) - (slot s i).bcnt < 4
        ∧ t = upd (dispatch h (upd s i (fun c => { c with bptr := c.bcnt })) CLIENT_OVERFL i) i
            (fun c => { c with bcnt := 0, overflow := 1 }))
    ∨ ((slot s i).sock ≠ 0 ∧ (slot s i).inbuf ≠ []
        ∧ ¬ (BSIZ : Int) - (slot s i).bcnt < 4
        ∧ (SSL_read rd ((BSIZ : Int) - (slot s i).bcnt)).1 ≤ 0
        ∧ t = easyssl_drop (dispatch h
            (upd (syscall s [Sys.SSL_read (slot s i).ssl ((BSIZ : Int) - (slot s i).bcnt)]) i
              (fun c => { c with
                bptr := c.bcnt
                inbuf := poke c.inbuf c.bcnt.toNat (SSL_read rd ((BSIZ : Int) - (slot s i).bcnt)).2
                rdcnt := (SSL_read rd ((BSIZ : Int) - (slot s i).bcnt)).1 }))
            CLIENT_ERROR i) i)
    ∨ ((slot s i).sock ≠ 0 ∧ (slot s i).inbuf ≠ []
        ∧ ¬ (BSIZ : Int) - (slot s i).bcnt < 4
        ∧ ∃ (taken : List Nat) (ft : Option Nat × ipclient), taken ≠ []
          ∧ (taken.length : Int) ≤ (BSIZ : Int) - (slot s i).bcnt
          ∧ SSL_read rd ((BSIZ : Int) - (slot s i).bcnt) = (((taken.length : Nat) : Int), taken)
          ∧ ft = my_findterm (after_read (slot s i) (((taken.length : Nat) : Int), taken))
          ∧ ((ft.1 = none
              ∧ t = upd (syscall s
                  [Sys.SSL_read (slot s i).ssl ((BSIZ : Int) - (slot s i).bcnt)]) i
                  (fun _ => ft.2))
            ∨ (ft.1 ≠ none ∧ ft.2.overflow ≠ 0
              ∧ t = upd (upd (syscall s
                  [Sys.SSL_read (slot s i).ssl ((BSIZ : Int) - (slot s i).bcnt)]) i
                  (fun _ => ft.2)) i (fun c => { c with overflow := 0, bcnt := 0 }))
            ∨ (ft.1 ≠ none ∧ ft.2.overflow = 0
              ∧ t = upd (dispatch h (upd (syscall s
                  [Sys.SSL_read (slot s i).ssl ((BSIZ : Int) - (slot s i).bcnt)]) i
                  (fun _ => ft.2)) CLIENT_DATA i) i
                  (fun c => { c with overflow := 0, bcnt := 0 })))) := by
  by_cases ha : (slot s i).sock = 0
  · left
    simp only [client_input, ha, if_true] at hs
    exact (Option.some.inj hs).symm
  by_cases hr : (slot s i).sock ∈ fds
  swap
  · left
    simp only [client_input, ha, if_false, hr, not_false_eq_true, if_true] at hs
    exact (Option.some.inj hs).symm
  by_cases hb : (slot s i).inbuf = []
  · simp only [client_input, ha, if_false, hr, not_true_eq_false, hb, if_true] at hs
    cases hs
  right
  by_cases hf : (BSIZ : Int) - (slot s i).bcnt < 4
  · left
    rw [client_input_overfl h fds rd s i ha hr hb hf] at hs
    exact ⟨ha, hb, hf, (Option.some.inj hs).symm⟩
  right
  by_cases hrd : (SSL_read rd ((BSIZ : Int) - (slot s i).bcnt)).1 ≤ 0
  · left
    rw [client_input_fail h fds rd s i ha hr hb hf hrd] at hs
    exact ⟨ha, hb, hf, hrd, (Option.some.inj hs).symm⟩
  right
  obtain ⟨taken, hR, hne, hfit⟩ := SSL_read_pos rd ((BSIZ : Int) - (slot s i).bcnt) (by omega)
  refine ⟨ha, hb, hf, taken, _, hne, hfit, hR, rfl, ?_⟩
  have key := client_input_read h fds rd s i ha hr hb hf _ hR.symm
    (Int.natCast_pos.mpr (List.length_pos.mpr hne)) _ rfl _ rfl
  rw [hs] at key
  cases hft : (my_findterm (after_read (slot s i) (((taken.length : Nat) : Int), taken))).1 with
  | none =>
    left
    rw [hft] at key
    exact ⟨rfl, Option.some.inj key⟩
  | some p =>
    right
    rw [hft] at key
    simp only [] at key
    by_cases hov : (my_findterm (after_read (slot s i)
        (((taken.length : Nat) : Int), taken))).2.overflow = 0
    · right
      rw [if_pos hov] at key
      exact ⟨by simp, hov, Option.some.inj key⟩
    · left
      rw [if_neg hov] at key
      exact ⟨by simp, hov, Option.some.inj key⟩

/-! ## The calls made by the input step -/

theorem findterm_keeps (cl : ipclient) :
    (my_findterm cl).2 =
      { cl with bcnt := (my_findterm cl).2.bcnt, inbuf := (my_findterm cl).2.inbuf } := by
  unfold my_findterm
  rcases findterm_loop_spec cl cl.rdcnt.toNat cl.bptr.toNat with ⟨_, hr⟩ | ⟨q, _, _, _, _, hr⟩
  · rw [hr]
  · rw [hr]
    split
    · rfl
    · split <;> rfl

theorem slot_dispatch_self (h : Handler) (s : Srv) (code : Int) (i : Nat) :
    ∃ b : Bool, slot (dispatch h s code i) i =
      if b then { slot s i with ssl := none, sock := 0 } else slot s i := by
  unfold dispatch
  by_cases hh : h code (slot s i) = true
  · simp only [hh, if_true]
    by_cases ha : (slot s i).sock = 0
    · exact ⟨false, by rw [drop_inactive _ _ (by rw [slot_emit]; exact ha)]; rfl⟩
    · refine ⟨true, ?_⟩
      rw [slot_drop_self _ _ (by simpa using lt_of_active s i ha) (by rw [slot_emit]; exact ha)]
      rfl
  · exact ⟨false, by simp [hh]⟩

theorem SSL_read_nonpos (rd : Rd) (num : Int) (hn : (SSL_read rd num).1 ≤ 0) :
    (SSL_read rd num).2 = [] := by
  cases rd with
  | data bytes =>
    have hn2 : ((bytes.take num.toNat).length : Int) ≤ 0 := hn
    show bytes.take num.toNat = []
    exact List.length_eq_zero.mp (by omega)
  | eof => rfl
  | err k => rfl

theorem poke_nil (buf : List Nat) (off : Nat) : poke buf off [] = buf := by
  simp [poke]

theorem client_input_events (h : Handler) (fds : List Int) (rd : Rd) (s t : Srv) (i : Nat)
    (hs : client_input h fds rd s i = some t) :
    ∃ evs, t.events = s.events ++ evs
      ∧ (evs = [] ∨ ∃ code c, evs = [⟨code, some (i, c)⟩]
          ∧ (code = CLIENT_OVERFL ∨ code = CLIENT_ERROR ∨ code = CLIENT_DATA)
          ∧ c.sock = (slot s i).sock ∧ c.sock ≠ 0 ∧ c.ssl = (slot s i).ssl
          ∧ (code = CLIENT_ERROR → (slot t i).sock = 0 ∧ (slot t i).ssl = none)
          ∧ (code = CLIENT_OVERFL → h CLIENT_OVERFL c = false →
              (slot t i).sock = c.sock ∧ (slot t i).ssl = c.ssl)) := by
  rcases client_input_cases h fds rd s t i hs with rfl | ⟨ha, hb, hf, rfl⟩ |
    ⟨ha, hb, hf, hrd, rfl⟩ | ⟨ha, hb, hf, taken, ft, hne, hfit, hR, hft, hcase⟩
  · exact ⟨[], by simp, Or.inl rfl⟩
  · have hi := lt_of_active s i ha
    refine ⟨_, by rw [upd_events, dispatch_events]; rfl, Or.inr ⟨_, _, rfl, Or.inl rfl, ?_⟩⟩
    rw [slot_upd_self _ _ _ hi]
    refine ⟨rfl, ha, rfl, fun hc => absurd hc (by decide), ?_⟩
    intro _ hq
    have hq2 : h CLIENT_OVERFL (slot (upd s i (fun c => { c with bptr := c.bcnt })) i)
        = false := by
      rw [slot_upd_self _ _ _ hi]; exact hq
    rw [dispatch_quiet _ _ _ _ hq2, upd_emit, slot_emit, upd_upd, slot_upd_self _ _ _ hi]
    exact ⟨rfl, rfl⟩
  · have hi := lt_of_active s i ha
    refine ⟨_, by rw [drop_events, dispatch_events]; rfl, Or.inr ⟨_, _, rfl, Or.inr (Or.inl rfl), ?_⟩⟩
    rw [slot_upd_self _ _ _ (by simpa using hi)]
    refine ⟨rfl, ha, rfl, ?_, fun hc => absurd hc (by decide)⟩
    intro _
    rw [drop_dispatch]
    have hs2 : ∀ (e : Event), slot (emit (upd (syscall s
        [Sys.SSL_read (slot s i).ssl ((BSIZ : Int) - (slot s i).bcnt)]) i (fun c => { c with
          bptr := c.bcnt
          inbuf := poke c.inbuf c.bcnt.toNat (SSL_read rd ((BSIZ : Int) - (slot s i).bcnt)).2
          rdcnt := (SSL_read rd ((BSIZ : Int) - (slot s i).bcnt)).1 })) e) i
        = { slot s i with
          bptr := (slot s i).bcnt
          inbuf := poke (slot s i).inbuf (slot s i).bcnt.toNat
            (SSL_read rd ((BSIZ : Int) - (slot s i).bcnt)).2
          rdcnt := (SSL_read rd ((BSIZ : Int) - (slot s i).bcnt)).1 } := by
      intro e
      rw [slot_emit, slot_upd_self _ _ _ (by simpa using hi)]
      rfl
    rw [slot_drop_self _ _ (by simpa using hi) (by rw [hs2]; exact ha)]
    exact ⟨rfl, rfl⟩
  · have hi := lt_of_active s i ha
    have hk := findterm_keeps (after_read (slot s i) (((taken.length : Nat) : Int), taken))
    rw [← hft] at hk
    rcases hcase with ⟨_, rfl⟩ | ⟨_, _, rfl⟩ | ⟨_, _, rfl⟩
    · exact ⟨[], by simp, Or.inl rfl⟩
    · exact ⟨[], by simp, Or.inl rfl⟩
    · refine ⟨_, by rw [upd_events, dispatch_events]; rfl, Or.inr ⟨_, _, rfl, Or.inr (Or.inr rfl), ?_⟩⟩
      rw [slot_upd_self _ _ _ (by simpa using hi), hk]
      exact ⟨rfl, ha, rfl, fun hc => absurd hc (by decide), fun hc => absurd hc (by decide)⟩

/-! ## The buffer bookkeeping is kept by every step -/

theorem keeps_ok (cl cl1 : ipclient) (hbuf : cl1.inbuf = cl.inbuf)
    (hb : cl1.bcnt = cl.bcnt ∨ cl1.bcnt = 0) (hsock : cl1.sock = cl.sock ∨ cl1.sock = 0)
    (hok : slot_ok cl) : slot_ok cl1 := by
  obtain ⟨h1, h2, h3, h4, h5, h6⟩ := hok
  refine ⟨by rw [hbuf]; exact h1, ?_, ?_, ?_, ?_, ?_⟩
  · intro hn
    rcases hb with hb | hb
    · rw [hb]; exact h2 (by rw [← hbuf]; exact hn)
    · exact hb
  · intro hs
    rw [hbuf]
    rcases hsock with hsock | hsock
    · exact h3 (by rw [← hsock]; exact hs)
    · exact absurd hsock hs
  · rcases hb with hb | hb <;> rw [hb]
    · exact h4
  · rcases hb with hb | hb <;> rw [hb]
    · exact h5
    · exact Int.ofNat_nonneg _
  · intro k hk
    rw [hbuf]
    rcases hb with hb | hb
    · exact h6 k (by rw [← hb]; exact hk)
    · rw [hb] at hk
      exact absurd hk (by omega)

theorem ok_default : slot_ok (default : ipclient) := by
  refine ⟨Or.inl rfl, fun _ => rfl, fun hs => absurd rfl hs, le_refl _, by decide, ?_⟩
  intro k hk
  have : (k : Int) < 0 := hk
  omega

theorem drop_keeps (s : Srv) (i j : Nat) :
    (slot (easyssl_drop s i) j).inbuf = (slot s j).inbuf
    ∧ (slot (easyssl_drop s i) j).bcnt = (slot s j).bcnt
    ∧ ((slot (easyssl_drop s i) j).sock = (slot s j).sock
        ∨ (slot (easyssl_drop s i) j).sock = 0) := by
  by_cases hij : i = j
  · subst hij
    by_cases ha : (slot s i).sock = 0
    · rw [drop_inactive s i ha]
      exact ⟨rfl, rfl, Or.inl rfl⟩
    · rw [slot_drop_self s i (lt_of_active s i ha) ha]
      exact ⟨rfl, rfl, Or.inr rfl⟩
  · rw [slot_drop_ne s i j hij]
    exact ⟨rfl, rfl, Or.inl rfl⟩

theorem dispatch_keeps (h : Handler) (s : Srv) (code : Int) (i j : Nat) :
    (slot (dispatch h s code i) j).inbuf = (slot s j).inbuf
    ∧ (slot (dispatch h s code i) j).bcnt = (slot s j).bcnt
    ∧ ((slot (dispatch h s code i) j).sock = (slot s j).sock
        ∨ (slot (dispatch h s code i) j).sock = 0) := by
  by_cases hij : i = j
  · subst hij
    obtain ⟨b, hb⟩ := slot_dispatch_self h s code i
    rw [hb]
    cases b
    · exact ⟨rfl, rfl, Or.inl rfl⟩
    · exact ⟨rfl, rfl, Or.inr rfl⟩
  · rw [slot_dispatch_ne h s code i j hij]
    exact ⟨rfl, rfl, Or.inl rfl⟩

theorem drop_ok (s : Srv) (i j : Nat) (hok : slot_ok (slot s j)) :
    slot_ok (slot (easyssl_drop s i) j) :=
  keeps_ok _ _ (drop_keeps s i j).1 (Or.inl (drop_keeps s i j).2.1) (drop_keeps s i j).2.2 hok

theorem dispatch_ok (h : Handler) (s : Srv) (code : Int) (i j : Nat)
    (hok : slot_ok (slot s j)) : slot_ok (slot (dispatch h s code i) j) :=
  keeps_ok _ _ (dispatch_keeps h s code i j).1 (Or.inl (dispatch_keeps h s code i j).2.1)
    (dispatch_keeps h s code i j).2.2 hok

theorem events_ok_append (evs new : List Event) (h1 : events_ok evs)
    (h2 : ∀ e ∈ new, e.code = CLIENT_DATA → ∃ i c, e.arg = some (i, c) ∧ data_ok c) :
    events_ok (evs ++ new) := by
  intro e he
  rcases List.mem_append.mp he with he | he
  · exact h1 e he
  · exact h2 e he

theorem events_ok_other (evs : List Event) (e : Event) (h1 : events_ok evs)
    (hc : e.code ≠ CLIENT_DATA) : events_ok (evs ++ [e]) := by
  refine events_ok_append evs [e] h1 ?_
  intro e1 he1 hd
  rw [List.mem_singleton.mp he1] at hd
  exact absurd hd hc

theorem events_ok_code (evs : List Event) (code : Int) (arg : Option (Nat × ipclient))
    (h1 : events_ok evs) (hc : code ≠ CLIENT_DATA) : events_ok (evs ++ [⟨code, arg⟩]) :=
  events_ok_other evs ⟨code, arg⟩ h1 hc

theorem findterm_none_facts (cl : ipclient) (hn : (my_findterm cl).1 = none) :
    (my_findterm cl).2 = cl
    ∧ ∀ k, cl.bptr.toNat ≤ k → k < cl.bptr.toNat + cl.rdcnt.toNat →
        ¬ is_term (cl.inbuf.getD k 0) := by
  unfold my_findterm at hn ⊢
  rcases findterm_loop_spec cl cl.rdcnt.toNat cl.bptr.toNat with ⟨hfree, hr⟩ |
    ⟨q, _, _, _, _, hr⟩
  · rw [hr]
    exact ⟨rfl, hfree⟩
  · rw [hr] at hn
    split at hn
    · cases hn
    · split at hn <;> cases hn

theorem after_read_facts (cl : ipclient) (taken : List Nat) (hok : slot_ok cl)
    (hbuf : cl.inbuf ≠ []) (hne : taken ≠ [])
    (hfit : (taken.length : Int) ≤ (BSIZ : Int) - cl.bcnt) :
    (after_read cl (((taken.length : Nat) : Int), taken)).inbuf.length = BSIZ
    ∧ (after_read cl (((taken.length : Nat) : Int), taken)).bcnt ≤ BSIZ
    ∧ 1 ≤ (after_read cl (((taken.length : Nat) : Int), taken)).rdcnt
    ∧ (after_read cl (((taken.length : Nat) : Int), taken)).bptr
        = (after_read cl (((taken.length : Nat) : Int), taken)).bcnt
          - (after_read cl (((taken.length : Nat) : Int), taken)).rdcnt
    ∧ 0 ≤ (after_read cl (((taken.length : Nat) : Int), taken)).bptr
    ∧ ∀ k : Nat, (k : Int) < cl.bcnt →
        ¬ is_term ((after_read cl (((taken.length : Nat) : Int), taken)).inbuf.getD k 0) := by
  obtain ⟨h1, _, _, h4, h5, h6⟩ := hok
  have hlen : cl.inbuf.length = BSIZ := by
    rcases h1 with h1 | h1
    · exact absurd h1 hbuf
    · exact h1
  have hBn : BSIZ = 1024 := rfl
  have hpos : 0 < taken.length := List.length_pos.mpr hne
  have hfit2 : cl.bcnt.toNat + taken.length ≤ cl.inbuf.length := by omega
  refine ⟨by rw [after_read_length cl taken hfit2]; exact hlen, ?_, ?_, ?_, ?_, ?_⟩
  · show cl.bcnt + ((taken.length : Nat) : Int) ≤ BSIZ
    omega
  · show (1 : Int) ≤ ((taken.length : Nat) : Int)
    omega
  · show cl.bcnt = cl.bcnt + ((taken.length : Nat) : Int) - ((taken.length : Nat) : Int)
    omega
  · exact h4
  · intro k hk
    show ¬ is_term ((poke cl.inbuf cl.bcnt.toNat taken).getD k 0)
    rw [poke_getD_before _ _ _ _ (by omega) (by omega)]
    exact h6 k hk

theorem ok_reset (cl cl1 : ipclient) (hlen : cl.inbuf.length = BSIZ)
    (hbuf : cl1.inbuf = cl.inbuf) (hb : cl1.bcnt = 0) : slot_ok cl1 := by
  have hne : cl1.inbuf ≠ [] := by
    intro hn
    rw [hbuf] at hn
    rw [hn] at hlen
    exact absurd hlen (by decide)
  refine ⟨Or.inr (by rw [hbuf]; exact hlen), fun _ => hb, fun _ => hne, by rw [hb],
    by rw [hb]; exact Int.ofNat_nonneg _, ?_⟩
  intro k hk
  rw [hb] at hk
  exact absurd hk (by omega)

theorem ok_len (cl : ipclient) (hok : slot_ok cl) (hbuf : cl.inbuf ≠ []) :
    cl.inbuf.length = BSIZ := by
  rcases hok.1 with h1 | h1
  · exact absurd h1 hbuf
  · exact h1

theorem client_input_ok (h : Handler) (fds : List Int) (rd : Rd) (s t : Srv) (i : Nat)
    (hs : client_input h fds rd s i = some t) (hok : slot_ok (slot s i)) :
    slot_ok (slot t i) ∧ (events_ok s.events → events_ok t.events) := by
  rcases client_input_cases h fds rd s t i hs with rfl | ⟨ha, hb, hf, rfl⟩ |
    ⟨ha, hb, hf, hrd, rfl⟩ | ⟨ha, hb, hf, taken, ft, hne, hfit, hR, hft, hcase⟩
  · exact ⟨hok, id⟩
  · have hi := lt_of_active s i ha
    have hlen := ok_len _ hok hb
    constructor
    · rw [slot_upd_self _ _ _ (by simpa using hi)]
      refine ok_reset (slot s i) _ hlen ?_ rfl
      show (slot (dispatch h (upd s i (fun c => { c with bptr := c.bcnt })) CLIENT_OVERFL i)
        i).inbuf = _
      rw [(dispatch_keeps h _ CLIENT_OVERFL i i).1, slot_upd_self _ _ _ hi]
    · intro he
      rw [upd_events, dispatch_events]
      exact events_ok_code _ _ _ he (by decide)
  · have hi := lt_of_active s i ha
    have hlen := ok_len _ hok hb
    have hnil := SSL_read_nonpos rd _ hrd
    constructor
    · refine keeps_ok (slot s i) _ ?_ (Or.inl ?_) ?_ hok
      · rw [(drop_keeps _ i i).1, (dispatch_keeps h _ CLIENT_ERROR i i).1,
          slot_upd_self _ _ _ (by simpa using hi)]
        show poke (slot s i).inbuf _ _ = _
        rw [hnil, poke_nil]
      · rw [(drop_keeps _ i i).2.1, (dispatch_keeps h _ CLIENT_ERROR i i).2.1,
          slot_upd_self _ _ _ (by simpa using hi)]
        rfl
      · rcases (drop_keeps (dispatch h
            (upd (syscall s [Sys.SSL_read (slot s i).ssl ((BSIZ : Int) - (slot s i).bcnt)]) i
              (fun c => { c with
                bptr := c.bcnt
                inbuf := poke c.inbuf c.bcnt.toNat (SSL_read rd ((BSIZ : Int) - (slot s i).bcnt)).2
                rdcnt := (SSL_read rd ((BSIZ : Int) - (slot s i).bcnt)).1 }))
            CLIENT_ERROR i) i i).2.2 with h1 | h1
        · rcases (dispatch_keeps h
            (upd (syscall s [Sys.SSL_read (slot s i).ssl ((BSIZ : Int) - (slot s i).bcnt)]) i
              (fun c => { c with
                bptr := c.bcnt
                inbuf := poke c.inbuf c.bcnt.toNat (SSL_read rd ((BSIZ : Int) - (slot s i).bcnt)).2
                rdcnt := (SSL_read rd ((BSIZ : Int) - (slot s i).bcnt)).1 }))
            CLIENT_ERROR i i).2.2 with h2 | h2
          · left
            rw [h1, h2, slot_upd_self _ _ _ (by simpa using hi)]
            rfl
          · right; rw [h1, h2]
        · right; exact h1
    · intro he
      rw [drop_events, dispatch_events]
      exact events_ok_code _ _ _ he (by decide)
  · have hi := lt_of_active s i ha
    have hlen := ok_len _ hok hb
    obtain ⟨f1, f2, f3, f4, f5, f6⟩ := after_read_facts (slot s i) taken hok hb hne hfit
    have hfr := findterm_frame (after_read (slot s i) (((taken.length : Nat) : Int), taken))
    rw [← hft] at hfr
    rcases hcase with ⟨hnone, rfl⟩ | ⟨hsome, _, rfl⟩ | ⟨hsome, _, rfl⟩
    · constructor
      · rw [slot_upd_self _ _ _ (by simpa using hi)]
        rw [hft] at hnone
        obtain ⟨g1, g2⟩ := findterm_none_facts _ hnone
        rw [hft, g1]
        have hBn : BSIZ = 1024 := rfl
        have hpos : 0 < taken.length := List.length_pos.mpr hne
        obtain ⟨_, _, _, h4, h5, _⟩ := hok
        refine ⟨Or.inr f1, ?_, ?_, ?_, f2, ?_⟩
        · intro hn
          rw [hn] at f1
          exact absurd f1 (by decide)
        · intro _ hn
          rw [hn] at f1
          exact absurd f1 (by decide)
        · show 0 ≤ (slot s i).bcnt + ((taken.length : Nat) : Int)
          omega
        · intro k hk
          by_cases hk2 : (k : Int) < (slot s i).bcnt
          · exact f6 k hk2
          · refine g2 k ?_ ?_
            · show (slot s i).bcnt.toNat ≤ k
              omega
            · have hk3 : (k : Int) < (slot s i).bcnt + ((taken.length : Nat) : Int) := hk
              show k < (slot s i).bcnt.toNat + (((taken.length : Nat) : Int)).toNat
              omega
      · intro he
        exact he
    · constructor
      · rw [slot_upd_self _ _ _ (by simpa using hi), slot_upd_self _ _ _ (by simpa using hi)]
        exact ok_reset ft.2 _ (by rw [hfr.2.2]; exact f1) rfl rfl
      · intro he
        exact he
    · have hp : ∃ p, ft.1 = some p := by
        cases hq : ft.1 with
        | none => exact absurd hq hsome
        | some p => exact ⟨p, rfl⟩
      obtain ⟨p, hp⟩ := hp
      have hpair : my_findterm (after_read (slot s i) (((taken.length : Nat) : Int), taken))
          = (some p, ft.2) := by
        rw [← hft, ← hp]
      obtain ⟨k1, k2, k3, k4, k5, k6, k7⟩ := findterm_some_facts _ p ft.2 f1 f2 f3 f4 f5 hpair
      constructor
      · rw [slot_upd_self _ _ _ (by simpa using hi)]
        refine ok_reset ft.2 _ k7 ?_ rfl
        show (slot (dispatch h _ CLIENT_DATA i) i).inbuf = _
        rw [(dispatch_keeps h _ CLIENT_DATA i i).1, slot_upd_self _ _ _ (by simpa using hi)]
      · intro he
        rw [upd_events, dispatch_events]
        refine events_ok_append _ _ he ?_
        intro e1 he1 _
        rw [List.mem_singleton.mp he1]
        refine ⟨i, _, rfl, ?_⟩
        rw [slot_upd_self _ _ _ (by simpa using hi)]
        have hBn : BSIZ = 1024 := rfl
        have h0 : 0 ≤ (slot s i).bcnt := hok.2.2.2.1
        have h00 : (slot s i).bcnt ≤ (after_read (slot s i)
            (((taken.length : Nat) : Int), taken)).bcnt := by
          show (slot s i).bcnt ≤ (slot s i).bcnt + ((taken.length : Nat) : Int)
          omega
        exact ⟨by omega, k3, k7, p, k1, k2, k6⟩

/-! ## The calls made by the timeout block -/

theorem slots_of_append (a b : List Event) : slots_of (a ++ b) = slots_of a ++ slots_of b := by
  simp [slots_of, List.filterMap_append]

theorem slots_of_nil : slots_of [] = [] := rfl

theorem slots_of_one (code : Int) (j : Nat) (c : ipclient) :
    slots_of [⟨code, some (j, c)⟩] = [j] := rfl

theorem slots_of_null (code : Int) : slots_of [⟨code, none⟩] = [] := rfl

theorem mem_slots_of (T : List Event) (x : Nat) (hx : x ∈ slots_of T) :
    ∃ e ∈ T, ∃ c, e.arg = some (x, c) := by
  unfold slots_of at hx
  obtain ⟨e, he, hev⟩ := List.mem_filterMap.mp hx
  refine ⟨e, he, ?_⟩
  unfold ev_slot at hev
  cases ha : e.arg with
  | none => rw [ha] at hev; cases hev
  | some p =>
    rw [ha] at hev
    obtain ⟨j, c⟩ := p
    have hj : j = x := by simpa using hev
    exact ⟨c, by rw [hj]⟩

theorem pairwise_snoc (T : List Event) (e : Event) (j : Nat) (c : ipclient)
    (he : e.arg = some (j, c))
    (hp : (slots_of T).Pairwise (· < ·))
    (hlt : ∀ x ∈ slots_of T, x < j) :
    (slots_of (T ++ [e])).Pairwise (· < ·) := by
  have h1 : slots_of [e] = [j] := by
    simp [slots_of, ev_slot, he]
  rw [slots_of_append, h1, List.pairwise_append]
  refine ⟨hp, List.pairwise_singleton _ _, ?_⟩
  intro a ha b hb
  rw [List.mem_singleton.mp hb]
  exact hlt a ha

theorem tick_client_events (h : Handler) (s : Srv) (j : Nat) :
    (tick_client h s j).events = s.events ++
      (if (slot s j).sock ≠ 0 ∧ (slot s j).tictoc + 1 > 9 then
        [⟨CLIENT_TIMEOUT, some (j, { slot s j with tictoc := (slot s j).tictoc + 1 })⟩]
      else []) := by
  rw [tick_client_eq]
  by_cases ha : (slot s j).sock = 0
  · simp [ha]
  · by_cases ht : (slot s j).tictoc + 1 > 9
    · simp only [ne_eq, ha, not_false_eq_true, ht, if_true, drop_events, emit_events,
        upd_events, and_self]
    · simp [ha, ht]

theorem tick_fold_events (h : Handler) (s : Srv) (n : Nat) :
    ∃ T, ((List.range n).foldl (tick_client h) s).events = s.events ++ T
      ∧ (∀ e ∈ T, ∃ j, j < n ∧ (slot s j).sock ≠ 0 ∧ (slot s j).tictoc + 1 > 9
          ∧ e = ⟨CLIENT_TIMEOUT, some (j, { slot s j with tictoc := (slot s j).tictoc + 1 })⟩)
      ∧ (slots_of T).Pairwise (· < ·) := by
  induction n with
  | zero => exact ⟨[], by simp, by simp, by simp [slots_of]⟩
  | succ n ih =>
    obtain ⟨T, hT, hall, hp⟩ := ih
    have hsl : slot ((List.range n).foldl (tick_client h) s) n = slot s n := by
      rw [(tick_fold h s n n).1]
      simp
    rw [List.range_succ, List.foldl_append]
    simp only [List.foldl_cons, List.foldl_nil]
    rw [tick_client_events, hsl, hT]
    by_cases hc : (slot s n).sock ≠ 0 ∧ (slot s n).tictoc + 1 > 9
    · rw [if_pos hc]
      refine ⟨T ++ [⟨CLIENT_TIMEOUT, some (n, { slot s n with tictoc := (slot s n).tictoc + 1 })⟩],
        by rw [List.append_assoc], ?_, ?_⟩
      · intro e he
        rcases List.mem_append.mp he with he | he
        · obtain ⟨j, hj, r⟩ := hall e he
          exact ⟨j, by omega, r⟩
        · exact ⟨n, by omega, hc.1, hc.2, List.mem_singleton.mp he⟩
      · refine pairwise_snoc T _ n _ rfl hp ?_
        intro x hx
        obtain ⟨e, he, c, hec⟩ := mem_slots_of T x hx
        obtain ⟨j, hj, _, _, hje⟩ := hall e he
        rw [hje] at hec
        have : j = x := by
          have := Option.some.inj hec
          exact congrArg Prod.fst this
        omega
    · rw [if_neg hc]
      refine ⟨T, by simp, ?_, hp⟩
      intro e he
      obtain ⟨j, hj, r⟩ := hall e he
      exact ⟨j, by omega, r⟩

theorem tick_events (h : Handler) (s : Srv) :
    ∃ T, (tick h s).events = s.events ++ T ++ [⟨TIMER_EXPIRED, none⟩]
      ∧ (∀ e ∈ T, ∃ j, j < MAXCL ∧ (slot s j).sock ≠ 0 ∧ (slot s j).tictoc + 1 > 9
          ∧ e = ⟨CLIENT_TIMEOUT, some (j, { slot s j with tictoc := (slot s j).tictoc + 1 })⟩)
      ∧ (slots_of T).Pairwise (· < ·) := by
  obtain ⟨T, hT, hall, hp⟩ := tick_fold_events h s MAXCL
  refine ⟨T, ?_, hall, hp⟩
  unfold tick dispatch_null
  rw [emit_events, hT]

theorem timeout_phase_events (h : Handler) (c : Int) (s : Srv) :
    (c - s.ptime ≥ 60 →
      ∃ T, (timeout_phase h c s).events = s.events ++ T ++ [⟨TIMER_EXPIRED, none⟩]
        ∧ (∀ e ∈ T, ∃ j, j < MAXCL ∧ (slot s j).sock ≠ 0 ∧ (slot s j).tictoc + 1 > 9
            ∧ e = ⟨CLIENT_TIMEOUT,
                some (j, { slot s j with tictoc := (slot s j).tictoc + 1 })⟩)
        ∧ (slots_of T).Pairwise (· < ·))
    ∧ (¬ c - s.ptime ≥ 60 → timeout_phase h c s = s) := by
  constructor
  · intro hc
    unfold timeout_phase
    rw [if_pos hc]
    exact tick_events h (set_ptime s (c - c.tmod 60))
  · intro hc
    unfold timeout_phase
    rw [if_neg hc]

theorem timeout_phase_slot (h : Handler) (c : Int) (s : Srv) (j : Nat) :
    slot (timeout_phase h c s) j = slot s j
    ∨ (j < MAXCL ∧ c - s.ptime ≥ 60 ∧ slot (timeout_phase h c s) j = tick_cl (slot s j)) := by
  unfold timeout_phase
  by_cases hc : c - s.ptime ≥ 60
  · rw [if_pos hc]
    by_cases hj : j < MAXCL
    · right
      refine ⟨hj, hc, ?_⟩
      rw [(tick_slot h _ j hj).1]
      rfl
    · left
      unfold tick dispatch_null
      rw [slot_emit, (tick_fold h _ j MAXCL).1, if_neg hj]
      rfl
  · rw [if_neg hc]
    exact Or.inl rfl

theorem tick_cl_keeps (c : ipclient) :
    (tick_cl c).inbuf = c.inbuf ∧ (tick_cl c).bcnt = c.bcnt
    ∧ ((tick_cl c).sock = c.sock ∨ (tick_cl c).sock = 0) := by
  unfold tick_cl
  split
  · split
    · exact ⟨rfl, rfl, Or.inr rfl⟩
    · exact ⟨rfl, rfl, Or.inl rfl⟩
  · exact ⟨rfl, rfl, Or.inl rfl⟩

theorem timeout_phase_ok (h : Handler) (c : Int) (s : Srv) (j : Nat)
    (hok : slot_ok (slot s j)) : slot_ok (slot (timeout_phase h c s) j) := by
  rcases timeout_phase_slot h c s j with hj | ⟨_, _, hj⟩
  · rw [hj]; exact hok
  · rw [hj]
    exact keeps_ok _ _ (tick_cl_keeps _).1 (Or.inl (tick_cl_keeps _).2.1) (tick_cl_keeps _).2.2 hok

theorem timeout_phase_events_ok (h : Handler) (c : Int) (s : Srv)
    (hok : events_ok s.events) : events_ok (timeout_phase h c s).events := by
  by_cases hc : c - s.ptime ≥ 60
  · obtain ⟨T, hT, hall, _⟩ := (timeout_phase_events h c s).1 hc
    rw [hT]
    refine events_ok_code _ _ _ (events_ok_append _ _ hok ?_) (by decide)
    intro e he hd
    obtain ⟨j, _, _, _, hje⟩ := hall e he
    rw [hje] at hd
    have hd2 : CLIENT_TIMEOUT = CLIENT_DATA := hd
    exact absurd hd2 (by decide)
  · rw [(timeout_phase_events h c s).2 hc]
    exact hok

/-! ## The bookkeeping in the states of the server -/

theorem accept_keeps_ok (h : Handler) (a : AcceptIn) (s t : Srv)
    (hmem : a.mem = [] ∨ a.mem.length = BSIZ) (hlen : s.IPCL.length = MAXCL)
    (hs : accept_phase h a s = some t) (j : Nat) (hok : slot_ok (slot s j)) :
    slot_ok (slot t j) := by
  by_cases hj : j = find_slot s.IPCL
  · subst hj
    rcases accept_cases h a s t hs with ⟨_, rfl⟩ | ⟨hk, _, rfl⟩ | ⟨hk, _, hbuf, rfl⟩
    · exact hok
    · rw [slot_syscall, slot_upd_self _ _ _ (by rw [hlen]; exact hk)]
      by_cases hn : (slot s (find_slot s.IPCL)).inbuf = []
      · obtain ⟨h1, h2, h3, h4, h5, h6⟩ := hok
        refine ⟨?_, fun _ => h2 hn, ?_, h4, h5, ?_⟩
        · show (if (slot s (find_slot s.IPCL)).inbuf = [] then a.mem else _) = [] ∨ _
          rw [if_pos hn]
          exact hmem
        · intro hsock
          exact absurd hn (h3 hsock)
        · intro k hk2
          rw [h2 hn] at hk2
          exact absurd hk2 (by omega)
      · refine keeps_ok (slot s (find_slot s.IPCL)) _ ?_ (Or.inl rfl) (Or.inl rfl) hok
        show (if (slot s (find_slot s.IPCL)).inbuf = [] then a.mem else _) = _
        rw [if_neg hn]
    · refine dispatch_ok h _ _ _ _ ?_
      rw [slot_FD_SET, slot_upd_self _ _ _ (by rw [hlen]; exact hk)]
      have hl : (if (slot s (find_slot s.IPCL)).inbuf = [] then a.mem
          else (slot s (find_slot s.IPCL)).inbuf).length = BSIZ := by
        by_cases hn : (slot s (find_slot s.IPCL)).inbuf = []
        · rw [if_pos hn]
          rcases hbuf with hb | hb
          · exact absurd hn hb
          · rcases hmem with hm | hm
            · exact absurd hm hb
            · exact hm
        · rw [if_neg hn]
          exact ok_len _ hok hn
      exact ok_reset _ _ hl rfl rfl
  · rw [(local_accept h a s t hs).2.2 j hj]
    exact hok

theorem accept_events_ok (h : Handler) (a : AcceptIn) (s t : Srv)
    (hs : accept_phase h a s = some t) (hok : events_ok s.events) : events_ok t.events := by
  rcases accept_cases h a s t hs with ⟨_, rfl⟩ | ⟨hk, _, rfl⟩ | ⟨hk, _, hbuf, rfl⟩
  · exact hok
  · exact hok
  · rw [dispatch_events]
    exact events_ok_code _ _ _ hok (by decide)

theorem client_input_ok_all (h : Handler) (fds : List Int) (rd : Rd) (s t : Srv) (i : Nat)
    (hs : client_input h fds rd s i = some t) (hok : ∀ j, slot_ok (slot s j)) :
    ∀ j, slot_ok (slot t j) := by
  intro j
  by_cases hj : j = i
  · subst hj
    exact (client_input_ok h fds rd s t j hs (hok j)).1
  · rw [(local_client_input h fds rd s t i hs).2.2 j hj]
    exact hok j

theorem emit_length (s : Srv) (e : Event) : (emit s e).IPCL.length = s.IPCL.length := rfl

theorem tick_length (h : Handler) (s : Srv) : (tick h s).IPCL.length = s.IPCL.length := by
  unfold tick dispatch_null
  rw [emit_length]
  exact (tick_fold_frame h s MAXCL).2

theorem timeout_phase_length (h : Handler) (c : Int) (s : Srv) :
    (timeout_phase h c s).IPCL.length = s.IPCL.length := by
  unfold timeout_phase
  split
  · rw [tick_length]; rfl
  · rfl

theorem reach_ok (h : Handler) (s : Srv) (hr : Reach h s) :
    s.IPCL.length = MAXCL ∧ (∀ j, slot_ok (slot s j)) ∧ events_ok s.events := by
  induction hr with
  | start lsock ctime =>
    refine ⟨by simp [init], ?_, ?_⟩
    · intro j
      rw [init_slot]
      exact ok_default
    · intro e he
      exact absurd he (List.not_mem_nil e)
  | timeout c s _ ih =>
    exact ⟨by rw [timeout_phase_length]; exact ih.1,
      fun j => timeout_phase_ok h c s j (ih.2.1 j), timeout_phase_events_ok h c s ih.2.2⟩
  | accept a s t _ hmem hs ih =>
    exact ⟨by rw [(local_accept h a s t hs).1]; exact ih.1,
      fun j => accept_keeps_ok h a s t hmem ih.1 hs j (ih.2.1 j), accept_events_ok h a s t hs ih.2.2⟩
  | input fds rd clnt s t _ hs ih =>
    exact ⟨by rw [(local_client_input h fds rd s t clnt hs).1]; exact ih.1,
      client_input_ok_all h fds rd s t clnt hs ih.2.1,
      (client_input_ok h fds rd s t clnt hs (ih.2.1 clnt)).2 ih.2.2⟩
  | drop clnt s _ ih =>
    exact ⟨by rw [drop_length]; exact ih.1, fun j => drop_ok s clnt j (ih.2.1 j),
      by rw [drop_events]; exact ih.2.2⟩

theorem client_input_total (h : Handler) (fds : List Int) (rd : Rd) (s : Srv) (i : Nat)
    (hok : slot_ok (slot s i)) : ∃ t, client_input h fds rd s i = some t := by
  unfold client_input
  by_cases ha : (slot s i).sock = 0
  · exact ⟨s, by rw [if_pos ha]⟩
  · rw [if_neg ha]
    by_cases hr : (slot s i).sock ∉ fds
    · exact ⟨s, by rw [if_pos hr]⟩
    · rw [if_neg hr, if_neg (hok.2.2.1 ha)]
      simp only []
      split
      · exact ⟨_, rfl⟩
      · split
        · split
          · exact ⟨_, rfl⟩
          · exact ⟨_, rfl⟩
        · exact ⟨_, rfl⟩

/-! ## The calls made by the input loop -/

theorem input_fold_step (h : Handler) (fds : List Int) (rd : Nat → Rd) (n : Nat) (s t : Srv)
    (hs : (List.range (n + 1)).foldlM (fun st clnt => client_input h fds (rd clnt) st clnt) s
      = some t) :
    ∃ u, (List.range n).foldlM (fun st clnt => client_input h fds (rd clnt) st clnt) s = some u
      ∧ client_input h fds (rd n) u n = some t := by
  rw [List.range_succ, List.foldlM_append] at hs
  cases hu : (List.range n).foldlM (fun st clnt => client_input h fds (rd clnt) st clnt) s with
  | none =>
    rw [hu] at hs
    cases hs
  | some u =>
    rw [hu] at hs
    refine ⟨u, rfl, ?_⟩
    simpa using hs

theorem input_fold_snoc (h : Handler) (fds : List Int) (rd : Nat → Rd) (n : Nat) (s u t : Srv)
    (hu : (List.range n).foldlM (fun st clnt => client_input h fds (rd clnt) st clnt) s = some u)
    (ht : client_input h fds (rd n) u n = some t) :
    (List.range (n + 1)).foldlM (fun st clnt => client_input h fds (rd clnt) st clnt) s
      = some t := by
  rw [List.range_succ, List.foldlM_append, hu]
  simpa using ht

theorem input_fold (h : Handler) (fds : List Int) (rd : Nat → Rd) (n : Nat) (s t : Srv)
    (hs : (List.range n).foldlM (fun st clnt => client_input h fds (rd clnt) st clnt) s
      = some t) :
    t.IPCL.length = s.IPCL.length ∧ t.ptime = s.ptime ∧ (∀ j, n ≤ j → slot t j = slot s j)
    ∧ ∃ R, t.events = s.events ++ R
      ∧ (∀ e ∈ R, ∃ j c, j < n ∧ e.arg = some (j, c)
          ∧ (e.code = CLIENT_OVERFL ∨ e.code = CLIENT_ERROR ∨ e.code = CLIENT_DATA)
          ∧ c.sock = (slot s j).sock ∧ c.sock ≠ 0 ∧ c.ssl = (slot s j).ssl
          ∧ (e.code = CLIENT_ERROR → (slot t j).sock = 0 ∧ (slot t j).ssl = none)
          ∧ (e.code = CLIENT_OVERFL → h CLIENT_OVERFL c = false →
              (slot t j).sock = c.sock ∧ (slot t j).ssl = c.ssl))
      ∧ (slots_of R).Pairwise (· < ·) := by
  induction n generalizing t with
  | zero =>
    have ht : t = s := by
      simp at hs
      exact hs.symm
    subst ht
    exact ⟨rfl, rfl, fun _ _ => rfl, [], by simp, by simp, by simp [slots_of]⟩
  | succ n ih =>
    obtain ⟨u, hu, ht⟩ := input_fold_step h fds rd n s t hs
    obtain ⟨i1, i2, i3, R, hR, hall, hp⟩ := ih u hu
    obtain ⟨l1, l2, l3⟩ := local_client_input h fds (rd n) u t n ht
    obtain ⟨evs, hev, hcase⟩ := client_input_events h fds (rd n) u t n ht
    have hold : ∀ e ∈ R, ∃ j c, j < n + 1 ∧ e.arg = some (j, c)
          ∧ (e.code = CLIENT_OVERFL ∨ e.code = CLIENT_ERROR ∨ e.code = CLIENT_DATA)
          ∧ c.sock = (slot s j).sock ∧ c.sock ≠ 0 ∧ c.ssl = (slot s j).ssl
          ∧ (e.code = CLIENT_ERROR → (slot t j).sock = 0 ∧ (slot t j).ssl = none)
          ∧ (e.code = CLIENT_OVERFL → h CLIENT_OVERFL c = false →
              (slot t j).sock = c.sock ∧ (slot t j).ssl = c.ssl) := by
      intro e he
      obtain ⟨j, c, hj, r1, r2, r3, r4, r5, r6, r7⟩ := hall e he
      have hjn : j ≠ n := by omega
      refine ⟨j, c, by omega, r1, r2, r3, r4, r5, ?_, ?_⟩
      · rw [l3 j hjn]; exact r6
      · rw [l3 j hjn]; exact r7
    refine ⟨by rw [l1, i1], by rw [l2, i2], ?_, ?_⟩
    · intro j hj
      rw [l3 j (by omega), i3 j (by omega)]
    · rcases hcase with hnil | ⟨code, c, hone, hcode, c1, c2, c3, c4, c5⟩
      · refine ⟨R, by rw [hev, hR, hnil, List.append_nil], hold, hp⟩
      · refine ⟨R ++ [⟨code, some (n, c)⟩], by rw [hev, hR, hone, List.append_assoc], ?_, ?_⟩
        · intro e he
          rcases List.mem_append.mp he with he | he
          · exact hold e he
          · rw [List.mem_singleton.mp he]
            refine ⟨n, c, by omega, rfl, hcode, ?_, c2, ?_, c4, c5⟩
            · rw [c1, i3 n (le_refl n)]
            · rw [c3, i3 n (le_refl n)]
        · refine pairwise_snoc R _ n c rfl hp ?_
          intro x hx
          obtain ⟨e, he, c0, hec⟩ := mem_slots_of R x hx
          obtain ⟨j, c9, hj, r1, _⟩ := hall e he
          rw [r1] at hec
          have : j = x := congrArg Prod.fst (Option.some.inj hec)
          omega

theorem input_fold_total (h : Handler) (fds : List Int) (rd : Nat → Rd) (n : Nat) (s : Srv)
    (hok : ∀ j, slot_ok (slot s j)) :
    ∃ t, (List.range n).foldlM (fun st clnt => client_input h fds (rd clnt) st clnt) s = some t
      ∧ ∀ j, slot_ok (slot t j) := by
  induction n with
  | zero => exact ⟨s, by simp, hok⟩
  | succ n ih =>
    obtain ⟨u, hu, huok⟩ := ih
    obtain ⟨t, ht⟩ := client_input_total h fds (rd n) u n (huok n)
    exact ⟨t, input_fold_snoc h fds rd n s u t hu ht,
      client_input_ok_all h fds (rd n) u t n ht huok⟩

theorem input_phase_total (h : Handler) (fds : List Int) (rd : Nat → Rd) (s : Srv)
    (hok : ∀ j, slot_ok (slot s j)) : ∃ t, input_phase h fds rd s = some t :=
  (input_fold_total h fds rd MAXCL s hok).imp (fun _ ht => ht.1)

/-! ## One pass of the loop -/

theorem accept_events (h : Handler) (a : AcceptIn) (s t : Srv)
    (hs : accept_phase h a s = some t) :
    t.events = s.events
    ∨ ∃ c, t.events = s.events ++ [⟨CLIENT_CONNECT, some (find_slot s.IPCL, c)⟩]
        ∧ find_slot s.IPCL < MAXCL ∧ 0 < a.hs
        ∧ (find_slot s.IPCL < s.IPCL.length → c.sock = a.csock ∧ c.ssl = some a.ssl) := by
  rcases accept_cases h a s t hs with ⟨_, rfl⟩ | ⟨hk, _, rfl⟩ | ⟨hk, hhs, hbuf, rfl⟩
  · exact Or.inl rfl
  · exact Or.inl rfl
  · right
    refine ⟨_, by rw [dispatch_events]; rfl, hk, hhs, ?_⟩
    intro hlt
    rw [slot_FD_SET, slot_upd_self _ _ _ hlt]
    exact ⟨rfl, rfl⟩

theorem accept_total (h : Handler) (a : AcceptIn) (s : Srv) (hmem : a.mem ≠ []) :
    ∃ t, accept_phase h a s = some t := by
  unfold accept_phase
  simp only []
  split
  · exact ⟨_, rfl⟩
  · rw [if_neg (fun hc => hmem hc.2)]
    split
    · exact ⟨_, rfl⟩
    · exact ⟨_, rfl⟩

theorem pass_cases (h : Handler) (i : IterIn) (s t : Srv)
    (hs : easyssl_pass h i s = some t) :
    0 ≤ i.selcnt
    ∧ ((i.selcnt < 1 ∧ t = timeout_phase h i.ctime s)
      ∨ (1 ≤ i.selcnt ∧ i.lready = false
          ∧ input_phase h i.fds i.rd (timeout_phase h i.ctime s) = some t)
      ∨ (1 ≤ i.selcnt ∧ i.lready = true
          ∧ ∃ u, accept_phase h i.acc (timeout_phase h i.ctime s) = some u
            ∧ input_phase h i.fds i.rd u = some t)) := by
  unfold easyssl_pass at hs
  by_cases h0 : i.selcnt < 0
  · rw [if_pos h0] at hs
    cases hs
  · rw [if_neg h0] at hs
    simp only [] at hs
    refine ⟨by omega, ?_⟩
    by_cases h1 : i.selcnt < 1
    · rw [if_pos h1] at hs
      exact Or.inl ⟨h1, (Option.some.inj hs).symm⟩
    · rw [if_neg h1] at hs
      cases hl : i.lready with
      | false =>
        rw [hl] at hs
        exact Or.inr (Or.inl ⟨by omega, rfl, by simpa using hs⟩)
      | true =>
        rw [hl] at hs
        simp only [if_true] at hs
        cases hu : accept_phase h i.acc (timeout_phase h i.ctime s) with
        | none =>
          rw [hu] at hs
          cases hs
        | some u =>
          rw [hu] at hs
          exact Or.inr (Or.inr ⟨by omega, rfl, u, rfl, hs⟩)

theorem pass_total (h : Handler) (i : IterIn) (s : Srv) (hr : Reach h s)
    (hsel : 0 ≤ i.selcnt) (hmem : i.lready = true → i.acc.mem.length = BSIZ) :
    ∃ t, easyssl_pass h i s = some t := by
  obtain ⟨hlen, hok, _⟩ := reach_ok h s hr
  have hok1 : ∀ j, slot_ok (slot (timeout_phase h i.ctime s) j) :=
    fun j => timeout_phase_ok h i.ctime s j (hok j)
  unfold easyssl_pass
  rw [if_neg (by omega)]
  simp only []
  by_cases h1 : i.selcnt < 1
  · rw [if_pos h1]
    exact ⟨_, rfl⟩
  · rw [if_neg h1]
    cases hl : i.lready with
    | false =>
      obtain ⟨t, ht⟩ := input_phase_total h i.fds i.rd _ hok1
      exact ⟨t, by simpa using ht⟩
    | true =>
      have hm := hmem hl
      have hne : i.acc.mem ≠ [] := by
        intro hc
        rw [hc] at hm
        exact absurd hm (by decide)
      obtain ⟨u, hu⟩ := accept_total h i.acc (timeout_phase h i.ctime s) hne
      have hok2 : ∀ j, slot_ok (slot u j) := fun j =>
        accept_keeps_ok h i.acc _ u (Or.inr hm)
          (by rw [timeout_phase_length]; exact hlen) hu j (hok1 j)
      obtain ⟨t, ht⟩ := input_phase_total h i.fds i.rd u hok2
      refine ⟨t, ?_⟩
      simp only [if_true]
      rw [hu]
      exact ht

theorem timeout_phase_split (h : Handler) (c : Int) (s : Srv) :
    ∃ T X, (timeout_phase h c s).events = s.events ++ T ++ X
      ∧ (∀ e ∈ T, e.code = CLIENT_TIMEOUT ∧ ∃ j c1, e.arg = some (j, c1))
      ∧ (slots_of T).Pairwise (· < ·)
      ∧ ((c - s.ptime ≥ 60 ∧ X = [⟨TIMER_EXPIRED, none⟩])
          ∨ (¬ c - s.ptime ≥ 60 ∧ X = [] ∧ T = [])) := by
  by_cases hc : c - s.ptime ≥ 60
  · obtain ⟨T, hT, hall, hp⟩ := (timeout_phase_events h c s).1 hc
    refine ⟨T, _, hT, ?_, hp, Or.inl ⟨hc, rfl⟩⟩
    intro e he
    obtain ⟨j, _, _, _, hje⟩ := hall e he
    rw [hje]
    exact ⟨rfl, j, _, rfl⟩
  · refine ⟨[], [], by rw [(timeout_phase_events h c s).2 hc]; simp, ?_, ?_,
      Or.inr ⟨hc, rfl, rfl⟩⟩
    · intro e he
      exact absurd he (List.not_mem_nil e)
    · simp [slots_of]

theorem input_phase_split (h : Handler) (fds : List Int) (rd : Nat → Rd) (s t : Srv)
    (hs : input_phase h fds rd s = some t) :
    ∃ R, t.events = s.events ++ R
      ∧ (∀ e ∈ R, (e.code = CLIENT_DATA ∨ e.code = CLIENT_ERROR ∨ e.code = CLIENT_OVERFL)
          ∧ ∃ j c, e.arg = some (j, c))
      ∧ (slots_of R).Pairwise (· < ·) := by
  obtain ⟨_, _, _, R, hR, hall, hp⟩ := input_fold h fds rd MAXCL s t hs
  refine ⟨R, hR, ?_, hp⟩
  intro e he
  obtain ⟨j, c, _, r1, r2, _⟩ := hall e he
  refine ⟨?_, j, c, r1⟩
  rcases r2 with r | r | r
  · exact Or.inr (Or.inr r)
  · exact Or.inr (Or.inl r)
  · exact Or.inl r

theorem pass_events (h : Handler) (i : IterIn) (s t : Srv)
    (hs : easyssl_pass h i s = some t) :
    ∃ T X C R, t.events = s.events ++ T ++ X ++ C ++ R
      ∧ (∀ e ∈ T, e.code = CLIENT_TIMEOUT ∧ ∃ j c, e.arg = some (j, c))
      ∧ (slots_of T).Pairwise (· < ·)
      ∧ ((i.ctime - s.ptime ≥ 60 ∧ X = [⟨TIMER_EXPIRED, none⟩])
          ∨ (¬ i.ctime - s.ptime ≥ 60 ∧ X = [] ∧ T = []))
      ∧ (C = [] ∨ ∃ k c, C = [⟨CLIENT_CONNECT, some (k, c)⟩])
      ∧ (∀ e ∈ R, (e.code = CLIENT_DATA ∨ e.code = CLIENT_ERROR ∨ e.code = CLIENT_OVERFL)
          ∧ ∃ j c, e.arg = some (j, c))
      ∧ (slots_of R).Pairwise (· < ·) := by
  obtain ⟨T, X, hTX, hT, hTp, hX⟩ := timeout_phase_split h i.ctime s
  have hnilR : ∀ e ∈ ([] : List Event),
      (e.code = CLIENT_DATA ∨ e.code = CLIENT_ERROR ∨ e.code = CLIENT_OVERFL)
        ∧ ∃ j c, e.arg = some (j, c) := fun e he => absurd he (List.not_mem_nil e)
  rcases (pass_cases h i s t hs).2 with ⟨_, rfl⟩ | ⟨_, _, hin⟩ | ⟨_, _, u, hu, hin⟩
  · exact ⟨T, X, [], [], by rw [hTX]; simp, hT, hTp, hX, Or.inl rfl, hnilR,
      by simp [slots_of]⟩
  · obtain ⟨R, hR, hall, hp⟩ := input_phase_split h i.fds i.rd _ t hin
    exact ⟨T, X, [], R, by rw [hR, hTX]; simp, hT, hTp, hX, Or.inl rfl, hall, hp⟩
  · obtain ⟨R, hR, hall, hp⟩ := input_phase_split h i.fds i.rd u t hin
    rcases accept_events h i.acc _ u hu with hC | ⟨c, hC, _⟩
    · exact ⟨T, X, [], R, by rw [hR, hC, hTX]; simp, hT, hTp, hX, Or.inl rfl, hall, hp⟩
    · exact ⟨T, X, _, R, by rw [hR, hC, hTX], hT, hTp, hX, Or.inr ⟨_, c, rfl⟩, hall, hp⟩

/-! ## The string given with `CLIENT_DATA`, and what the scan sees -/

theorem cstr_le (buf : List Nat) (p : Nat) (hp : p < buf.length) (h0 : buf.getD p 0 = 0) :
    (cstr buf).length ≤ p := by
  induction buf generalizing p with
  | nil => simp [cstr]
  | cons x xs ih =>
    cases p with
    | zero =>
      have hx : x = 0 := by simpa using h0
      simp [cstr, List.takeWhile, hx]
    | succ p =>
      have h1 : xs.getD p 0 = 0 := by simpa using h0
      have h2 := ih p (by simpa using hp) h1
      unfold cstr at h2 ⊢
      by_cases hx : x = 0
      · simp [List.takeWhile, hx]
      · simp only [List.takeWhile, ne_eq, hx, not_false_eq_true, decide_True, List.length_cons]
        exact Nat.succ_le_succ h2

theorem data_ok_cstr (c : ipclient) (hd : data_ok c) :
    (cstr c.inbuf).length < BSIZ ∧ ((cstr c.inbuf).length : Int) < c.bcnt := by
  obtain ⟨_, _, hlen, p, hp, hpb, h0⟩ := hd
  have := cstr_le c.inbuf p (by rw [hlen]; exact hp) h0
  exact ⟨by omega, by omega⟩

theorem scan_iff (cl : ipclient) (taken : List Nat) (hok : slot_ok cl)
    (hbuf : cl.inbuf ≠ []) (hne : taken ≠ [])
    (hfit : (taken.length : Int) ≤ (BSIZ : Int) - cl.bcnt) :
    (my_findterm (after_read cl (((taken.length : Nat) : Int), taken))).1 ≠ none
    ↔ ∃ k : Nat, (k : Int) < (after_read cl (((taken.length : Nat) : Int), taken)).bcnt
        ∧ is_term ((after_read cl (((taken.length : Nat) : Int), taken)).inbuf.getD k 0) := by
  obtain ⟨f1, f2, f3, f4, f5, f6⟩ := after_read_facts cl taken hok hbuf hne hfit
  have h0 : 0 ≤ cl.bcnt := hok.2.2.2.1
  have hb : (after_read cl (((taken.length : Nat) : Int), taken)).bptr = cl.bcnt := rfl
  have hr : (after_read cl (((taken.length : Nat) : Int), taken)).rdcnt
      = ((taken.length : Nat) : Int) := rfl
  have hc : (after_read cl (((taken.length : Nat) : Int), taken)).bcnt
      = cl.bcnt + ((taken.length : Nat) : Int) := rfl
  constructor
  · intro hsome
    unfold my_findterm at hsome
    rcases findterm_loop_spec (after_read cl (((taken.length : Nat) : Int), taken))
      (after_read cl (((taken.length : Nat) : Int), taken)).rdcnt.toNat
      (after_read cl (((taken.length : Nat) : Int), taken)).bptr.toNat with ⟨_, hnone⟩ |
      ⟨q, hq1, hq2, _, hq4, _⟩
    · rw [hnone] at hsome
      exact absurd rfl hsome
    · refine ⟨q, ?_, hq4⟩
      rw [hb, hr] at hq2
      rw [hc]
      omega
  · rintro ⟨k, hk, hterm⟩ hnone
    obtain ⟨_, hfree⟩ := findterm_none_facts _ hnone
    by_cases hk2 : (k : Int) < cl.bcnt
    · exact f6 k hk2 hterm
    · refine hfree k ?_ ?_ hterm
      · rw [hb]; omega
      · rw [hb, hr]
        rw [hc] at hk
        omega

/-! ## A read that holds more than one message -/

theorem findterm_first (cl : ipclient) (M rest : List Nat) (t : Nat)
    (hM : ∀ b ∈ M, ¬ is_term b) (ht : t = 10 ∨ t = 13 ∨ t = 4)
    (hb0 : cl.bcnt = 0) (hfit : M.length + 1 + rest.length < BSIZ) :
    my_findterm (after_read cl (((M ++ t :: rest).length : Nat), M ++ t :: rest)) =
      (some (M.length + 1),
        { after_read cl (((M ++ t :: rest).length : Nat), M ++ t :: rest) with
          bcnt := (((M ++ t :: rest).length : Nat) : Int) + 1
          inbuf := M ++ [t] ++
            (rest ++ cl.inbuf.drop (M ++ t :: rest).length).set 0 0 }) := by
  have hbuf : (after_read cl (((M ++ t :: rest).length : Nat), M ++ t :: rest)).inbuf
      = M ++ [t] ++ (rest ++ cl.inbuf.drop (M ++ t :: rest).length) := by
    simp [after_read, poke, hb0]
  have hL : (M ++ t :: rest).length = M.length + (rest.length + 1) := by simp
  have e1 : my_findterm (after_read cl (((M ++ t :: rest).length : Nat), M ++ t :: rest))
      = my_findterm_loop (after_read cl (((M ++ t :: rest).length : Nat), M ++ t :: rest))
          (M.length + (rest.length + 1)) 0 := by
    unfold my_findterm
    have h1 : (after_read cl (((M ++ t :: rest).length : Nat), M ++ t :: rest)).rdcnt.toNat
        = M.length + (rest.length + 1) := by
      show ((((M ++ t :: rest).length : Nat) : Int)).toNat = _
      rw [Int.toNat_ofNat, hL]
    have h2 : (after_read cl (((M ++ t :: rest).length : Nat), M ++ t :: rest)).bptr.toNat
        = 0 := by
      show cl.bcnt.toNat = 0
      rw [hb0]; rfl
    rw [h1, h2]
  have hgetM : ∀ k, k < M.length →
      (after_read cl (((M ++ t :: rest).length : Nat), M ++ t :: rest)).inbuf.getD (0 + k) 0
        = M.getD k 0 := by
    intro k hk
    rw [hbuf, Nat.zero_add, List.append_assoc, List.getD_append _ _ _ _ hk]
  have hgett :
      (after_read cl (((M ++ t :: rest).length : Nat), M ++ t :: rest)).inbuf.getD
        (0 + M.length) 0 = t := by
    rw [hbuf, Nat.zero_add, List.append_assoc, List.getD_append_right _ _ _ _ (le_refl _)]
    simp
  rw [e1, findterm_loop_skip _ M.length (rest.length + 1) 0, findterm_loop_hit]
  · have hb : (after_read cl (((M ++ t :: rest).length : Nat), M ++ t :: rest)).bcnt
        = (((M ++ t :: rest).length : Nat) : Int) := by
      show cl.bcnt + _ = _
      rw [hb0, Int.zero_add]
    have hlt2 : (after_read cl (((M ++ t :: rest).length : Nat), M ++ t :: rest)).bcnt
        < (BSIZ : Int) := by
      rw [hb, hL]
      have hBn : BSIZ = 1024 := rfl
      omega
    rw [if_pos hlt2]
    congr 1
    · rw [Nat.zero_add]
    · simp only [hbuf, hb]
      congr 1
      rw [Nat.zero_add, List.set_append_right _ _ (by simp)]
      simp
  · rw [hgett]
    exact ht
  · intro k hk
    rw [hgetM k hk, List.getD_eq_getElem _ _ hk]
    exact hM _ (List.getElem_mem _)

theorem first_only (h : Handler) (fds : List Int) (s : Srv) (i : Nat) (M rest : List Nat)
    (t : Nat)
    (ha : (slot s i).sock ≠ 0) (hr : (slot s i).sock ∈ fds)
    (hlen : (slot s i).inbuf.length = BSIZ) (hb0 : (slot s i).bcnt = 0)
    (hov : (slot s i).overflow = 0)
    (hM : ∀ b ∈ M, ¬ is_term b) (ht : t = 10 ∨ t = 13 ∨ t = 4)
    (hfit : M.length + 1 + rest.length < BSIZ) :
    ∃ s1 c, client_input h fds (Rd.data (M ++ t :: rest)) s i = some s1
      ∧ s1.events = s.events ++ [⟨CLIENT_DATA, some (i, c)⟩]
      ∧ cstr c.inbuf = M ++ [t]
      ∧ c.inbuf.getD (M.length + 1) 0 = 0
      ∧ (slot s1 i).bcnt = 0
      ∧ SSL_rest (Rd.data (M ++ t :: rest)) ((BSIZ : Int) - (slot s i).bcnt) = []
      ∧ ∀ n, feed h i (n + 1) s [M ++ t :: rest] = some (s1, []) := by
  have hBn : BSIZ = 1024 := rfl
  have hi := lt_of_active s i ha
  have hb : (slot s i).inbuf ≠ [] := by
    intro h0; rw [h0] at hlen; simp at hlen
  have hf : ¬ (BSIZ : Int) - (slot s i).bcnt < 4 := by rw [hb0]; decide
  have hL : (M ++ t :: rest).length = M.length + (rest.length + 1) := by simp
  have htake : (M ++ t :: rest).take 1024 = M ++ t :: rest := by
    apply List.take_of_length_le
    rw [hL]; omega
  have hR : ((((M ++ t :: rest).length : Nat) : Int), M ++ t :: rest)
      = SSL_read (Rd.data (M ++ t :: rest)) ((BSIZ : Int) - (slot s i).bcnt) := by
    rw [SSL_read_data, hb0]
    show _ = (((((M ++ t :: rest).take 1024).length : Nat) : Int), (M ++ t :: rest).take 1024)
    rw [htake]
  have hrest : SSL_rest (Rd.data (M ++ t :: rest)) ((BSIZ : Int) - (slot s i).bcnt) = [] := by
    rw [hb0]
    show (M ++ t :: rest).drop 1024 = []
    apply List.drop_of_length_le
    rw [hL]; omega
  have hft := findterm_first (slot s i) M rest t hM ht hb0 hfit
  have hpos : (0 : Int) < (((M ++ t :: rest).length : Nat) : Int) := by
    rw [hL]; omega
  have key : ∀ fds1, (slot s i).sock ∈ fds1 →
      client_input h fds1 (Rd.data (M ++ t :: rest)) s i = _ := fun fds1 hr1 =>
    client_input_read h fds1 (Rd.data (M ++ t :: rest)) s i ha hr1 hb hf _ hR hpos _ rfl _ rfl
  rw [hft] at key
  have hov3 : (after_read (slot s i)
      (((M ++ t :: rest).length : Nat), M ++ t :: rest)).overflow = 0 := hov
  rw [if_pos hov3] at key
  obtain ⟨d, ds, hd⟩ : ∃ d ds,
      rest ++ (slot s i).inbuf.drop (M ++ t :: rest).length = d :: ds := by
    cases hd : rest ++ (slot s i).inbuf.drop (M ++ t :: rest).length with
    | nil =>
      have := congrArg List.length hd
      simp only [List.length_append, List.length_drop, hlen, List.length_nil, hL] at this
      omega
    | cons d ds => exact ⟨d, ds, rfl⟩
  have hs4 : ∀ (xs : List Sys), slot (upd (syscall s xs) i (fun _ =>
      { after_read (slot s i) (((M ++ t :: rest).length : Nat), M ++ t :: rest) with
        bcnt := (((M ++ t :: rest).length : Nat) : Int) + 1
        inbuf := M ++ [t] ++
          (rest ++ (slot s i).inbuf.drop (M ++ t :: rest).length).set 0 0 })) i
      = { after_read (slot s i) (((M ++ t :: rest).length : Nat), M ++ t :: rest) with
        bcnt := (((M ++ t :: rest).length : Nat) : Int) + 1
        inbuf := M ++ [t] ++
          (rest ++ (slot s i).inbuf.drop (M ++ t :: rest).length).set 0 0 } := by
    intro xs
    rw [slot_upd_self _ _ _ (by simpa using hi)]
  have hnz : ∀ b ∈ M ++ [t], b ≠ 0 := by
    intro b hb1
    rcases List.mem_append.mp hb1 with hb1 | hb1
    · exact term_free_nonzero M hM b hb1
    · rw [List.mem_singleton.mp hb1]
      rcases ht with rfl | rfl | rfl <;> decide
  refine ⟨_, _, key fds hr, by rw [upd_events, dispatch_events]; rfl, ?_, ?_, ?_, hrest, ?_⟩
  · refine (congrArg (fun c => cstr c.inbuf) (hs4 _)).trans ?_
    show cstr (M ++ [t] ++
      (rest ++ (slot s i).inbuf.drop (M ++ t :: rest).length).set 0 0) = _
    rw [hd, List.set_cons_zero]
    exact cstr_stop _ _ hnz
  · refine (congrArg (fun c => c.inbuf.getD (M.length + 1) 0) (hs4 _)).trans ?_
    show (M ++ [t] ++
      (rest ++ (slot s i).inbuf.drop (M ++ t :: rest).length).set 0 0).getD _ 0 = 0
    rw [hd, List.set_cons_zero, List.getD_append_right _ _ _ _ (by simp)]
    simp
  · rw [slot_upd_self _ _ _ (by simpa using hi)]
  · intro n
    have k2 := key [(slot s i).sock] (by simp)
    simp only [feed, k2, if_neg ha, if_neg hf, hrest, if_true]
    exact feed_done h i n _

/-! ## An active slot has a session handle -/

theorem handle_keep (cl cl1 : ipclient)
    (hk : (cl1.sock = cl.sock ∧ cl1.ssl = cl.ssl) ∨ cl1.sock = 0)
    (hok : cl.sock ≠ 0 → cl.ssl ≠ none) : cl1.sock ≠ 0 → cl1.ssl ≠ none := by
  intro hs
  rcases hk with ⟨h1, h2⟩ | h1
  · rw [h2]
    exact hok (by rw [← h1]; exact hs)
  · exact absurd h1 hs

theorem drop_handle (s : Srv) (i j : Nat) :
    ((slot (easyssl_drop s i) j).sock = (slot s j).sock
      ∧ (slot (easyssl_drop s i) j).ssl = (slot s j).ssl)
    ∨ (slot (easyssl_drop s i) j).sock = 0 := by
  by_cases hij : i = j
  · subst hij
    by_cases ha : (slot s i).sock = 0
    · rw [drop_inactive s i ha]
      exact Or.inl ⟨rfl, rfl⟩
    · rw [slot_drop_self s i (lt_of_active s i ha) ha]
      exact Or.inr rfl
  · rw [slot_drop_ne s i j hij]
    exact Or.inl ⟨rfl, rfl⟩

theorem dispatch_handle (h : Handler) (s : Srv) (code : Int) (i j : Nat) :
    ((slot (dispatch h s code i) j).sock = (slot s j).sock
      ∧ (slot (dispatch h s code i) j).ssl = (slot s j).ssl)
    ∨ (slot (dispatch h s code i) j).sock = 0 := by
  by_cases hij : i = j
  · subst hij
    obtain ⟨b, hb⟩ := slot_dispatch_self h s code i
    rw [hb]
    cases b
    · exact Or.inl ⟨rfl, rfl⟩
    · exact Or.inr rfl
  · rw [slot_dispatch_ne h s code i j hij]
    exact Or.inl ⟨rfl, rfl⟩

theorem handle_chain (a b c : ipclient)
    (h1 : (b.sock = a.sock ∧ b.ssl = a.ssl) ∨ b.sock = 0)
    (h2 : (c.sock = b.sock ∧ c.ssl = b.ssl) ∨ c.sock = 0) :
    (c.sock = a.sock ∧ c.ssl = a.ssl) ∨ c.sock = 0 := by
  rcases h2 with ⟨h2, h3⟩ | h2
  · rcases h1 with ⟨h1, h4⟩ | h1
    · exact Or.inl ⟨h2.trans h1, h3.trans h4⟩
    · exact Or.inr (h2.trans h1)
  · exact Or.inr h2

theorem client_input_handle (h : Handler) (fds : List Int) (rd : Rd) (s t : Srv) (i : Nat)
    (hs : client_input h fds rd s i = some t) :
    ((slot t i).sock = (slot s i).sock ∧ (slot t i).ssl = (slot s i).ssl)
    ∨ (slot t i).sock = 0 := by
  rcases client_input_cases h fds rd s t i hs with rfl | ⟨ha, hb, hf, rfl⟩ |
    ⟨ha, hb, hf, hrd, rfl⟩ | ⟨ha, hb, hf, taken, ft, hne, hfit, hR, hft, hcase⟩
  · exact Or.inl ⟨rfl, rfl⟩
  · have hi := lt_of_active s i ha
    rw [slot_upd_self _ _ _ (by simpa using hi)]
    refine handle_chain (slot s i) (slot (upd s i (fun c => { c with bptr := c.bcnt })) i) _
      (by rw [slot_upd_self _ _ _ hi]; exact Or.inl ⟨rfl, rfl⟩) ?_
    exact dispatch_handle h _ CLIENT_OVERFL i i
  · have hi := lt_of_active s i ha
    refine handle_chain (slot s i) _ _ ?_ (drop_handle _ i i)
    refine handle_chain (slot s i) _ _ ?_ (dispatch_handle h _ CLIENT_ERROR i i)
    rw [slot_upd_self _ _ _ (by simpa using hi)]
    exact Or.inl ⟨rfl, rfl⟩
  · have hi := lt_of_active s i ha
    have hk := findterm_keeps (after_read (slot s i) (((taken.length : Nat) : Int), taken))
    rw [← hft] at hk
    have hft2 : (ft.2.sock = (slot s i).sock ∧ ft.2.ssl = (slot s i).ssl) ∨ ft.2.sock = 0 := by
      rw [hk]
      exact Or.inl ⟨rfl, rfl⟩
    rcases hcase with ⟨_, rfl⟩ | ⟨_, _, rfl⟩ | ⟨_, _, rfl⟩
    · rw [slot_upd_self _ _ _ (by simpa using hi)]
      exact hft2
    · rw [slot_upd_self _ _ _ (by simpa using hi), slot_upd_self _ _ _ (by simpa using hi)]
      exact hft2
    · rw [slot_upd_self _ _ _ (by simpa using hi)]
      refine handle_chain (slot s i) _ _ ?_ (dispatch_handle h _ CLIENT_DATA i i)
      rw [slot_upd_self _ _ _ (by simpa using hi)]
      exact hft2

theorem tick_cl_handle (c : ipclient) :
    ((tick_cl c).sock = c.sock ∧ (tick_cl c).ssl = c.ssl) ∨ (tick_cl c).sock = 0 := by
  unfold tick_cl
  split
  · split
    · exact Or.inr rfl
    · exact Or.inl ⟨rfl, rfl⟩
  · exact Or.inl ⟨rfl, rfl⟩

theorem accept_handle (h : Handler) (a : AcceptIn) (s t : Srv)
    (hlen : s.IPCL.length = MAXCL)
    (hs : accept_phase h a s = some t) (j : Nat)
    (hok : (slot s j).sock ≠ 0 → (slot s j).ssl ≠ none) :
    (slot t j).sock ≠ 0 → (slot t j).ssl ≠ none := by
  by_cases hj : j = find_slot s.IPCL
  · subst hj
    rcases accept_cases h a s t hs with ⟨_, rfl⟩ | ⟨hk, _, rfl⟩ | ⟨hk, _, hbuf, rfl⟩
    · exact hok
    · rw [slot_syscall, slot_upd_self _ _ _ (by rw [hlen]; exact hk)]
      exact hok
    · refine handle_keep _ _ (dispatch_handle h _ CLIENT_CONNECT _ _) ?_
      rw [slot_FD_SET, slot_upd_self _ _ _ (by rw [hlen]; exact hk)]
      intro _ hc
      cases hc
  · rw [(local_accept h a s t hs).2.2 j hj]
    exact hok

theorem reach_handle (h : Handler) (s : Srv) (hr : Reach h s) :
    ∀ j, (slot s j).sock ≠ 0 → (slot s j).ssl ≠ none := by
  induction hr with
  | start lsock ctime =>
    intro j hs
    rw [init_slot] at hs
    exact absurd rfl hs
  | timeout c s _ ih =>
    intro j
    rcases timeout_phase_slot h c s j with hj | ⟨_, _, hj⟩
    · rw [hj]; exact ih j
    · rw [hj]; exact handle_keep _ _ (tick_cl_handle _) (ih j)
  | accept a s t hr0 _ hs ih =>
    exact fun j => accept_handle h a s t (reach_ok h s hr0).1 hs j (ih j)
  | input fds rd clnt s t _ hs ih =>
    intro j
    by_cases hj : j = clnt
    · subst hj
      exact handle_keep _ _ (client_input_handle h fds rd s t j hs) (ih j)
    · rw [(local_client_input h fds rd s t clnt hs).2.2 j hj]
      exact ih j
  | drop clnt s _ ih =>
    exact fun j => handle_keep _ _ (drop_handle s clnt j) (ih j)

theorem timeout_phase_calls (h : Handler) (c : Int) (s : Srv) :
    ∃ T, (timeout_phase h c s).events
        = s.events ++ T ++ (if c - s.ptime ≥ 60 then [⟨TIMER_EXPIRED, none⟩] else [])
      ∧ ∀ e ∈ T, ∃ j cl, e = ⟨CLIENT_TIMEOUT, some (j, cl)⟩
          ∧ cl.sock = (slot s j).sock ∧ cl.sock ≠ 0 ∧ cl.ssl = (slot s j).ssl
          ∧ (slot (timeout_phase h c s) j).sock = 0
          ∧ (slot (timeout_phase h c s) j).ssl = none := by
  by_cases hc : c - s.ptime ≥ 60
  · obtain ⟨T, hT, hall, _⟩ := (timeout_phase_events h c s).1 hc
    refine ⟨T, by rw [if_pos hc]; exact hT, ?_⟩
    intro e he
    obtain ⟨j, hj, ha, ht, hje⟩ := hall e he
    refine ⟨j, _, hje, rfl, ha, rfl, ?_⟩
    rcases timeout_phase_slot h c s j with hq | ⟨_, _, hq⟩
    · have h1 : slot (timeout_phase h c s) j = tick_cl (slot s j) := by
        unfold timeout_phase
        rw [if_pos hc, (tick_slot h _ j hj).1]
        rfl
      rw [h1]
      unfold tick_cl
      rw [if_pos ha, if_pos ht]
      exact ⟨rfl, rfl⟩
    · rw [hq]
      unfold tick_cl
      rw [if_pos ha, if_pos ht]
      exact ⟨rfl, rfl⟩
  · refine ⟨[], by rw [if_neg hc, (timeout_phase_events h c s).2 hc]; simp, ?_⟩
    intro e he
    exact absurd he (List.not_mem_nil e)

/-! ## A pass with a call in every phase -/

set_option maxRecDepth 1000000 in
theorem busy_pass :
    ∃ t, easyssl_pass quiet exBusy (init 3 60) = some t
      ∧ t.events.map Event.code = [TIMER_EXPIRED, CLIENT_CONNECT, CLIENT_DATA] :=
  ⟨_, rfl, rfl⟩

/-! ## A pass of the loop leads from a state of the server to a state of the server -/

theorem reach_fold (h : Handler) (fds : List Int) (rd : Nat → Rd) (n : Nat) (s t : Srv)
    (hr : Reach h s)
    (hs : (List.range n).foldlM (fun st clnt => client_input h fds (rd clnt) st clnt) s
      = some t) : Reach h t := by
  induction n generalizing t with
  | zero =>
    have ht : t = s := by
      simp at hs
      exact hs.symm
    rw [ht]; exact hr
  | succ n ih =>
    obtain ⟨u, hu, ht⟩ := input_fold_step h fds rd n s t hs
    exact Reach.input fds (rd n) n u t (ih u hu) ht

theorem reach_pass (h : Handler) (i : IterIn) (s t : Srv) (hr : Reach h s)
    (hmem : i.lready = true → i.acc.mem = [] ∨ i.acc.mem.length = BSIZ)
    (hs : easyssl_pass h i s = some t) : Reach h t := by
  have hr1 : Reach h (timeout_phase h i.ctime s) := Reach.timeout i.ctime s hr
  rcases (pass_cases h i s t hs).2 with ⟨_, rfl⟩ | ⟨_, _, hin⟩ | ⟨_, hl, u, hu, hin⟩
  · exact hr1
  · exact reach_fold h i.fds i.rd MAXCL _ t hr1 hin
  · exact reach_fold h i.fds i.rd MAXCL u t (Reach.accept i.acc _ u hr1 (hmem hl) hu) hin

/-! ## A client dropped by the handler -/

theorem slot_dispatch_drop (h : Handler) (s : Srv) (code : Int) (i : Nat)
    (hd : h code (slot s i) = true) :
    (slot (dispatch h s code i) i).sock = 0
    ∧ (slot (dispatch h s code i) i).bcnt = (slot s i).bcnt
    ∧ (slot (dispatch h s code i) i).overflow = (slot s i).overflow
    ∧ ((slot s i).sock ≠ 0 → (slot (dispatch h s code i) i).ssl = none) := by
  unfold dispatch
  simp only [hd, if_true]
  by_cases ha : (slot s i).sock = 0
  · rw [drop_inactive _ _ (by rw [slot_emit]; exact ha), slot_emit]
    exact ⟨ha, rfl, rfl, fun hn => absurd ha hn⟩
  · rw [slot_drop_self _ _ (by simpa using lt_of_active s i ha) (by rw [slot_emit]; exact ha),
      slot_emit]
    exact ⟨rfl, rfl, rfl, fun _ => rfl⟩

theorem client_input_inactive (h : Handler) (fds : List Int) (rd : Rd) (s : Srv) (i : Nat)
    (h0 : (slot s i).sock = 0) : client_input h fds rd s i = some s := by
  unfold client_input
  rw [if_pos h0]

theorem input_fold_inactive (h : Handler) (fds : List Int) (rd : Nat → Rd) (n : Nat)
    (s t : Srv) (j : Nat) (h0 : (slot s j).sock = 0)
    (hs : (List.range n).foldlM (fun st clnt => client_input h fds (rd clnt) st clnt) s
      = some t) : slot t j = slot s j := by
  induction n generalizing t with
  | zero =>
    have ht : t = s := by
      simp at hs
      exact hs.symm
    rw [ht]
  | succ n ih =>
    obtain ⟨u, hu, ht⟩ := input_fold_step h fds rd n s t hs
    have hj := ih u hu
    by_cases hn : j = n
    · subst hn
      rw [client_input_inactive h fds (rd j) u j (by rw [hj]; exact h0)] at ht
      rw [← Option.some.inj ht]
      exact hj
    · rw [(local_client_input h fds (rd n) u t n ht).2.2 j hn]
      exact hj

theorem client_input_data_drop (h : Handler) (fds : List Int) (rd : Rd) (s t : Srv) (i : Nat)
    (c : ipclient)
    (hs : client_input h fds rd s i = some t)
    (hev : t.events = s.events ++ [⟨CLIENT_DATA, some (i, c)⟩])
    (hd : h CLIENT_DATA c = true) :
    (slot t i).sock = 0 ∧ (slot t i).bcnt = 0 ∧ (slot t i).overflow = 0
    ∧ (slot t i).ssl = none ∧ c.sock ≠ 0 := by
  rcases client_input_cases h fds rd s t i hs with rfl | ⟨ha, hb, hf, rfl⟩ |
    ⟨ha, hb, hf, hrd, rfl⟩ | ⟨ha, hb, hf, taken, ft, hne, hfit, hR, hft, hcase⟩
  · have := congrArg List.length hev
    simp at this
  · rw [upd_events, dispatch_events] at hev
    have h1 := congrArg (fun l => l.map Event.code) (List.append_cancel_left hev)
    exact absurd (show [CLIENT_OVERFL] = [CLIENT_DATA] from h1) (by decide)
  · rw [drop_events, dispatch_events] at hev
    have h1 := congrArg (fun l => l.map Event.code) (List.append_cancel_left hev)
    exact absurd (show [CLIENT_ERROR] = [CLIENT_DATA] from h1) (by decide)
  · have hi := lt_of_active s i ha
    have hk := findterm_keeps (after_read (slot s i) (((taken.length : Nat) : Int), taken))
    rw [← hft] at hk
    rcases hcase with ⟨_, rfl⟩ | ⟨_, _, rfl⟩ | ⟨_, _, rfl⟩
    · have := congrArg List.length hev
      simp at this
    · have := congrArg List.length hev
      simp at this
    · rw [upd_events, dispatch_events] at hev
      have h1 := List.append_cancel_left hev
      simp only [List.cons.injEq, Event.mk.injEq, Option.some.injEq, Prod.mk.injEq, and_true,
        true_and] at h1
      rw [← h1] at hd ⊢
      have hsock : (slot (upd (syscall s
          [Sys.SSL_read (slot s i).ssl ((BSIZ : Int) - (slot s i).bcnt)]) i
          (fun _ => ft.2)) i).sock ≠ 0 := by
        rw [slot_upd_self _ _ _ (by simpa using hi), hk]
        exact ha
      obtain ⟨d1, _, _, d4⟩ := slot_dispatch_drop h _ CLIENT_DATA i hd
      rw [slot_upd_self _ _ _ (by simpa using hi)]
      exact ⟨d1, rfl, rfl, d4 hsock, hsock⟩

theorem input_fold_drop (h : Handler) (fds : List Int) (rd : Nat → Rd) (n : Nat) (s t : Srv)
    (hs : (List.range n).foldlM (fun st clnt => client_input h fds (rd clnt) st clnt) s
      = some t) :
    ∃ R, t.events = s.events ++ R
      ∧ ∀ e ∈ R, ∀ j c, e = ⟨CLIENT_DATA, some (j, c)⟩ → h CLIENT_DATA c = true →
          j < n ∧ (slot t j).sock = 0 ∧ (slot t j).bcnt = 0 ∧ (slot t j).overflow = 0
          ∧ (slot t j).ssl = none ∧ c.sock ≠ 0 := by
  induction n generalizing t with
  | zero =>
    have ht : t = s := by
      simp at hs
      exact hs.symm
    subst ht
    exact ⟨[], by simp, fun e he => absurd he (List.not_mem_nil e)⟩
  | succ n ih =>
    obtain ⟨u, hu, ht⟩ := input_fold_step h fds rd n s t hs
    obtain ⟨R, hR, hall⟩ := ih u hu
    obtain ⟨l1, l2, l3⟩ := local_client_input h fds (rd n) u t n ht
    obtain ⟨evs, hev, hcase⟩ := client_input_events h fds (rd n) u t n ht
    refine ⟨R ++ evs, by rw [hev, hR, List.append_assoc], ?_⟩
    intro e he j c hje hd
    rcases List.mem_append.mp he with he | he
    · obtain ⟨hj, r⟩ := hall e he j c hje hd
      have hjn : j ≠ n := by omega
      rw [l3 j hjn]
      exact ⟨by omega, r⟩
    · rcases hcase with hnil | ⟨code, cl, hone, _⟩
      · rw [hnil] at he
        exact absurd he (List.not_mem_nil e)
      · rw [hone] at he hev
        have h1 := List.mem_singleton.mp he
        rw [hje] at h1
        simp only [Event.mk.injEq, Option.some.injEq, Prod.mk.injEq] at h1
        obtain ⟨hc1, hj1, hc2⟩ := h1
        subst hc1 hj1 hc2
        exact ⟨by omega, client_input_data_drop h fds (rd j) u t j c ht hev hd⟩

theorem append_split (A B pre post : List Event) (e : Event)
    (hh : A ++ B = pre ++ e :: post) :
    (∃ A2, A = pre ++ e :: A2 ∧ post = A2 ++ B)
    ∨ (∃ B1, pre = A ++ B1 ∧ B = B1 ++ e :: post) := by
  induction A generalizing pre with
  | nil => exact Or.inr ⟨pre, rfl, hh⟩
  | cons a A ih =>
    cases pre with
    | nil =>
      have h1 : a = e ∧ A ++ B = post := by simpa using hh
      exact Or.inl ⟨A, by rw [h1.1]; rfl, h1.2.symm⟩
    | cons p pre =>
      have h1 : a = p ∧ A ++ B = pre ++ e :: post := by simpa using hh
      rcases ih pre h1.2 with ⟨A2, hA, hp⟩ | ⟨B1, hp, hB⟩
      · exact Or.inl ⟨A2, by rw [h1.1, hA]; rfl, hp⟩
      · exact Or.inr ⟨B1, by rw [h1.1, hp]; rfl, hB⟩

theorem mem_of_split (A pre post : List Event) (e : Event) (hh : A = pre ++ e :: post) :
    e ∈ A := by
  rw [hh]
  simp

theorem free_eligible (t : Srv) (j : Nat) (h0 : (slot t j).sock = 0) (hj : j < MAXCL) :
    find_slot t.IPCL ≤ j
    ∧ ((∀ k, k < j → (slot t k).sock ≠ 0) → find_slot t.IPCL = j) :=
  ⟨find_slot_le t j h0, fun hact => find_slot_eq t j hj hact h0⟩

theorem accept_drop_connect (h : Handler) (a : AcceptIn) (s u : Srv) (j : Nat)
    (c : ipclient) (hlen : s.IPCL.length = MAXCL)
    (hs : accept_phase h a s = some u)
    (hev : u.events = s.events ++ [⟨CLIENT_CONNECT, some (j, c)⟩])
    (hd : h CLIENT_CONNECT c = true) :
    j < MAXCL ∧ (slot u j).sock = 0 ∧ (slot u j).bcnt = 0 ∧ (slot u j).overflow = 0
    ∧ (c.sock ≠ 0 → (slot u j).ssl = none) := by
  rcases accept_cases h a s u hs with ⟨_, rfl⟩ | ⟨hk, _, rfl⟩ | ⟨hk, _, hbuf, rfl⟩
  · have := congrArg List.length hev
    simp at this
  · have := congrArg List.length hev
    simp at this
  · rw [dispatch_events] at hev
    have h1 := List.append_cancel_left hev
    simp only [List.cons.injEq, Event.mk.injEq, Option.some.injEq, Prod.mk.injEq, and_true,
      true_and] at h1
    obtain ⟨hj, hc⟩ := h1
    subst hj
    rw [← hc] at hd ⊢
    obtain ⟨d1, d2, d3, d4⟩ := slot_dispatch_drop h _ CLIENT_CONNECT _ hd
    refine ⟨hk, d1, ?_, ?_, d4⟩
    · rw [d2, slot_FD_SET, slot_upd_self _ _ _ (by rw [hlen]; exact hk)]
    · rw [d3, slot_FD_SET, slot_upd_self _ _ _ (by rw [hlen]; exact hk)]

theorem input_phase_inactive (h : Handler) (fds : List Int) (rd : Nat → Rd) (u t : Srv)
    (j : Nat) (h0 : (slot u j).sock = 0) (R : List Event)
    (hs : input_phase h fds rd u = some t) (hR : t.events = u.events ++ R) :
    slot t j = slot u j ∧ ∀ e ∈ R, ev_slot e ≠ some j := by
  refine ⟨input_fold_inactive h fds rd MAXCL u t j h0 hs, ?_⟩
  obtain ⟨_, _, _, R2, hR2, hall, _⟩ := input_fold h fds rd MAXCL u t hs
  have hRR : R = R2 := List.append_cancel_left (hR.symm.trans hR2)
  intro e he hslot
  rw [hRR] at he
  obtain ⟨j2, c2, _, harg, _, hsock, hne, _⟩ := hall e he
  unfold ev_slot at hslot
  rw [harg] at hslot
  have hj : j2 = j := by simpa using hslot
  rw [hj] at hsock
  exact hne (hsock.trans h0)

theorem input_phase_drop (h : Handler) (fds : List Int) (rd : Nat → Rd) (u t : Srv)
    (R1 post : List Event) (code : Int) (j : Nat) (c : ipclient)
    (hs : input_phase h fds rd u = some t)
    (hR : t.events = u.events ++ (R1 ++ ⟨code, some (j, c)⟩ :: post))
    (hcode : code = CLIENT_CONNECT ∨ code = CLIENT_DATA)
    (hd : h code c = true) :
    j < MAXCL ∧ (slot t j).sock = 0 ∧ (slot t j).bcnt = 0 ∧ (slot t j).overflow = 0
    ∧ (slot t j).ssl = none ∧ c.sock ≠ 0 ∧ ∀ e ∈ post, ev_slot e ≠ some j := by
  obtain ⟨_, _, _, R2, hR2, hall, hp⟩ := input_fold h fds rd MAXCL u t hs
  obtain ⟨R3, hR3, hdrop⟩ := input_fold_drop h fds rd MAXCL u t hs
  have h2 : R2 = R1 ++ ⟨code, some (j, c)⟩ :: post :=
    List.append_cancel_left (hR2.symm.trans hR)
  have h3 : R3 = R1 ++ ⟨code, some (j, c)⟩ :: post :=
    List.append_cancel_left (hR3.symm.trans hR)
  have hmem2 : (⟨code, some (j, c)⟩ : Event) ∈ R2 := by rw [h2]; simp
  have hmem3 : (⟨code, some (j, c)⟩ : Event) ∈ R3 := by rw [h3]; simp
  have hdata : code = CLIENT_DATA := by
    rcases hcode with hc | hc
    · obtain ⟨_, _, _, _, r, _⟩ := hall _ hmem2
      have r2 : code = CLIENT_OVERFL ∨ code = CLIENT_ERROR ∨ code = CLIENT_DATA := r
      rw [hc] at r2
      rcases r2 with r | r | r <;> exact absurd r (by decide)
    · exact hc
  subst hdata
  obtain ⟨q1, q2, q3, q4, q5, q6⟩ := hdrop _ hmem3 j c rfl hd
  refine ⟨q1, q2, q3, q4, q5, q6, ?_⟩
  rw [h2, slots_of_append] at hp
  have hp2 := (List.pairwise_append.mp hp).2.1
  have hp3 : (j :: slots_of post).Pairwise (· < ·) := hp2
  have hp4 := (List.pairwise_cons.mp hp3).1
  intro e he hslot
  have hin : j ∈ slots_of post := by
    unfold slots_of
    exact List.mem_filterMap.mpr ⟨e, he, hslot⟩
  exact absurd (hp4 j hin) (by omega)

theorem input_tail_split (h : Handler) (fds : List Int) (rd : Nat → Rd) (u t : Srv)
    (base P pre post : List Event) (e : Event)
    (hs : input_phase h fds rd u = some t) (hu : u.events = base ++ P)
    (hev : t.events = base ++ (pre ++ e :: post)) :
    (∃ A2 R, P = pre ++ e :: A2 ∧ post = A2 ++ R ∧ t.events = u.events ++ R)
    ∨ (∃ B1, t.events = u.events ++ (B1 ++ e :: post)) := by
  obtain ⟨_, _, _, R, hR, _⟩ := input_fold h fds rd MAXCL u t hs
  have h1 : P ++ R = pre ++ e :: post := by
    have h2 : base ++ (P ++ R) = base ++ (pre ++ e :: post) := by
      rw [← List.append_assoc, ← hu, ← hR, hev]
    exact List.append_cancel_left h2
  rcases append_split P R pre post e h1 with ⟨A2, hA, hp⟩ | ⟨B1, _, hB⟩
  · exact Or.inl ⟨A2, R, hA, hp, hR⟩
  · exact Or.inr ⟨B1, by rw [hR, hB]⟩

theorem timeout_codes (h : Handler) (c : Int) (s : Srv) :
    ∃ P, (timeout_phase h c s).events = s.events ++ P
      ∧ ∀ e ∈ P, e.code ≠ CLIENT_CONNECT ∧ e.code ≠ CLIENT_DATA := by
  obtain ⟨T, X, hTX, hT, _, hX⟩ := timeout_phase_split h c s
  refine ⟨T ++ X, by rw [hTX, List.append_assoc], ?_⟩
  intro e he
  rcases List.mem_append.mp he with he | he
  · rw [(hT e he).1]
    exact ⟨by decide, by decide⟩
  · rcases hX with ⟨_, hX⟩ | ⟨_, hX, _⟩
    · rw [hX] at he
      rw [List.mem_singleton.mp he]
      show TIMER_EXPIRED ≠ CLIENT_CONNECT ∧ TIMER_EXPIRED ≠ CLIENT_DATA
      exact ⟨by decide, by decide⟩
    · rw [hX] at he
      exact absurd he (List.not_mem_nil e)

theorem pass_drop (h : Handler) (i : IterIn) (s t : Srv) (hlen : s.IPCL.length = MAXCL)
    (hs : easyssl_pass h i s = some t)
    (pre post : List Event) (code : Int) (j : Nat) (c : ipclient)
    (hev : t.events = s.events ++ (pre ++ ⟨code, some (j, c)⟩ :: post))
    (hcode : code = CLIENT_CONNECT ∨ code = CLIENT_DATA)
    (hd : h code c = true) :
    j < MAXCL ∧ (slot t j).sock = 0 ∧ (slot t j).bcnt = 0 ∧ (slot t j).overflow = 0
    ∧ (c.sock ≠ 0 → (slot t j).ssl = none) ∧ ∀ e ∈ post, ev_slot e ≠ some j := by
  obtain ⟨P, hP, hPc⟩ := timeout_codes h i.ctime s
  have hnotP : ∀ A2, P ≠ pre ++ ⟨code, some (j, c)⟩ :: A2 := by
    intro A2 hA
    have hc := hPc _ (mem_of_split P pre A2 _ hA)
    have hc2 : code ≠ CLIENT_CONNECT ∧ code ≠ CLIENT_DATA := hc
    rcases hcode with r | r
    · exact hc2.1 r
    · exact hc2.2 r
  have hlen1 : (timeout_phase h i.ctime s).IPCL.length = MAXCL := by
    rw [timeout_phase_length]; exact hlen
  rcases (pass_cases h i s t hs).2 with ⟨_, rfl⟩ | ⟨_, _, hin⟩ | ⟨_, _, u, hu, hin⟩
  · rw [hP] at hev
    exact absurd (List.append_cancel_left hev) (hnotP post)
  · rcases input_tail_split h i.fds i.rd _ t s.events P pre post _ hin hP hev with
      ⟨A2, _, hA, _⟩ | ⟨B1, hB⟩
    · exact absurd hA (hnotP A2)
    · obtain ⟨q1, q2, q3, q4, q5, _, q7⟩ :=
        input_phase_drop h i.fds i.rd _ t B1 post code j c hin hB hcode hd
      exact ⟨q1, q2, q3, q4, fun _ => q5, q7⟩
  · rcases accept_events h i.acc _ u hu with hC | ⟨cl, hC, _⟩
    · rcases input_tail_split h i.fds i.rd u t s.events P pre post _ hin
          (by rw [hC, hP]) hev with ⟨A2, _, hA, _⟩ | ⟨B1, hB⟩
      · exact absurd hA (hnotP A2)
      · obtain ⟨q1, q2, q3, q4, q5, _, q7⟩ :=
          input_phase_drop h i.fds i.rd u t B1 post code j c hin hB hcode hd
        exact ⟨q1, q2, q3, q4, fun _ => q5, q7⟩
    · rcases input_tail_split h i.fds i.rd u t s.events
          (P ++ [⟨CLIENT_CONNECT, some (find_slot (timeout_phase h i.ctime s).IPCL, cl)⟩])
          pre post _ hin (by rw [hC, hP, List.append_assoc]) hev with
        ⟨A2, R, hA, hpost, hR⟩ | ⟨B1, hB⟩
      · rcases append_split P _ pre A2 _ hA with ⟨A3, hA3, _⟩ | ⟨B1, _, hB1⟩
        · exact absurd hA3 (hnotP A3)
        · have hB2 : B1 = [] ∧ A2 = [] ∧ (⟨CLIENT_CONNECT,
              some (find_slot (timeout_phase h i.ctime s).IPCL, cl)⟩ : Event)
              = ⟨code, some (j, c)⟩ := by
            cases B1 with
            | nil =>
              have h2 : (⟨CLIENT_CONNECT,
                  some (find_slot (timeout_phase h i.ctime s).IPCL, cl)⟩ : Event)
                  = ⟨code, some (j, c)⟩ ∧ [] = A2 := by simpa using hB1
              exact ⟨rfl, h2.2.symm, h2.1⟩
            | cons b B1 =>
              have := congrArg List.length hB1
              simp at this
          obtain ⟨_, hA2, he⟩ := hB2
          simp only [Event.mk.injEq, Option.some.injEq, Prod.mk.injEq] at he
          obtain ⟨hc1, hj1, hc2⟩ := he
          subst hc1 hj1 hc2
          obtain ⟨a1, a2, a3, a4, a5⟩ :=
            accept_drop_connect h i.acc _ u _ cl hlen1 hu hC hd
          obtain ⟨b1, b2⟩ := input_phase_inactive h i.fds i.rd u t _ a2 R hin hR
          rw [b1]
          refine ⟨a1, a2, a3, a4, a5, ?_⟩
          rw [hpost, hA2, List.nil_append]
          exact b2
      · obtain ⟨q1, q2, q3, q4, q5, _, q7⟩ :=
          input_phase_drop h i.fds i.rd u t B1 post code j c hin hB hcode hd
        exact ⟨q1, q2, q3, q4, fun _ => q5, q7⟩

/-! ## The handler of `simple.c` and a client that says goodby -/

set_option maxRecDepth 1000000 in
theorem bye_pass :
    ∃ t1 t c, easyssl_pass client_handler exConn (init 3 60) = some t1
      ∧ t1.IPCL.length = MAXCL
      ∧ (slot t1 0).sock = 4
      ∧ easyssl_pass client_handler exBye t1 = some t
      ∧ t.events = t1.events ++ [] ++ ⟨CLIENT_DATA, some (0, c)⟩ :: []
      ∧ cstr c.inbuf = [103, 111, 111, 100, 98, 121, 10]
      ∧ client_handler CLIENT_DATA c = true :=
  ⟨_, _, _, rfl, rfl, rfl, rfl, rfl, rfl, rfl⟩

/-! ## A read that fails or meets the end of data -/

/-- C1, as stated, fails: after the single read `"a\n"` the string the handler
finds at `inbuf` is `"a\n"`, not `"a"`; the line feed is kept and the NUL is
written behind it. -/
theorem C1_counterexample :
    ∃ s1 c, client_input quiet [5] (Rd.data ([97] ++ [10])) exSrv 0 = some s1
      ∧ s1.events = [⟨CLIENT_DATA, some (0, c)⟩]
      ∧ cstr c.inbuf = [97, 10] ∧ cstr c.inbuf ≠ [97] := by
  obtain ⟨s1, c, h1, h2, h3, _⟩ := single_read quiet [5] exSrv 0 [97] (by decide) (by decide)
    (by simp [slot, exSrv]) (by decide) (by decide) (by decide) (by decide)
  refine ⟨s1, c, h1, by simpa [exSrv] using h2, ?_, ?_⟩
  · simpa using h3
  · rw [h3]; decide

/-- C1 (amended): a message `M` without NUL, CR, LF, ^D and of at most `BSIZ - 1`
bytes that arrives, followed by LF, in one read at an active, ready slot with
`bcnt = 0` and `overflow = 0` makes the step call the handler exactly once,
with `CLIENT_DATA`; the string at `inbuf` is `M` followed by the line feed when
`len(M) + 1 < BSIZ` (the terminator is kept, the NUL is stored behind it) and
is `M` when `len(M) = BSIZ - 1` (the NUL replaces the terminator). -/
theorem C1_single_read_message (h : Handler) (fds : List Int) (s : Srv) (i : Nat)
    (M : List Nat)
    (ha : (slot s i).sock ≠ 0) (hr : (slot s i).sock ∈ fds)
    (hlen : (slot s i).inbuf.length = BSIZ) (hb0 : (slot s i).bcnt = 0)
    (hov : (slot s i).overflow = 0)
    (hM : ∀ b ∈ M, ¬ is_term b) (hML : M.length ≤ BSIZ - 1) :
    ∃ s1 c, client_input h fds (Rd.data (M ++ [10])) s i = some s1
      ∧ s1.events = s.events ++ [⟨CLIENT_DATA, some (i, c)⟩]
      ∧ cstr c.inbuf = (if M.length + 1 < BSIZ then M ++ [10] else M) := by
  obtain ⟨s1, c, h1, h2, h3, _⟩ := single_read h fds s i M ha hr hlen hb0 hov hM hML
  exact ⟨s1, c, h1, h2, h3⟩

/-- C1 (amended) at the message `"hi"` for the client in slot 0 of `exSrv`. -/
theorem C1_single_read_message_witness :
    ∃ s1 c, client_input quiet [5] (Rd.data ([104, 105] ++ [10])) exSrv 0 = some s1
      ∧ s1.events = exSrv.events ++ [⟨CLIENT_DATA, some (0, c)⟩]
      ∧ cstr c.inbuf = (if [104, 105].length + 1 < BSIZ then [104, 105] ++ [10] else [104, 105]) :=
  C1_single_read_message quiet [5] exSrv 0 [104, 105] (by decide) (by decide)
    (by simp [slot, exSrv]) (by decide) (by decide) (by decide) (by decide)

/-- C2, as stated, fails: a message of 1021 bytes (at most `BSIZ - 1`) that
arrives as one read of the 1021 bytes and one read of the line feed leaves
only 3 bytes free after the first read, so the next pass reports an overflow
and the terminator read after it is discarded: no `CLIENT_DATA`, one
`CLIENT_OVERFL`. -/
theorem C2_counterexample :
    ∃ s1, feed quiet 0 3 exSrv [List.replicate 1021 97, [10]] = some (s1, [])
      ∧ count_ev CLIENT_DATA 0 s1.events = 0
      ∧ count_ev CLIENT_OVERFL 0 s1.events = 1 := by
  have hz : (slot exSrv 0).bcnt = 0 := by decide
  have hB : ((BSIZ : Int) - 0).toNat = 1024 := by decide
  obtain ⟨s1, e1, a1, l1, b1, o1, v1⟩ := feed_read_none quiet 0 exSrv (List.replicate 1021 97)
    [[10]] (by decide) (by simp [slot, exSrv]) (by decide) (by decide)
    (List.ne_nil_of_length_pos (by rw [List.length_replicate]; decide))
    (by
      intro b hb
      rw [List.eq_of_mem_replicate (List.mem_of_mem_take hb)]
      decide)
  rw [hz, hB] at e1 b1
  have hd : List.drop 1024 (List.replicate 1021 97) = [] :=
    List.drop_of_length_le (by rw [List.length_replicate]; decide)
  have htk : (List.take 1024 (List.replicate 1021 97)).length = 1021 := by
    rw [List.length_take, List.length_replicate]; decide
  rw [hd] at e1
  rw [htk] at b1
  simp only [if_true] at e1
  obtain ⟨s2, x, e2, a2, l2, b2, o2, v2⟩ := feed_overfl quiet 0 s1 [10] []
    (by rw [a1]; decide) l1 (by rw [b1]; decide) (fun _ => rfl)
  obtain ⟨s3, e3, _, _, f3, _⟩ := feed_read_term quiet 0 s2 [10] []
    (by rw [a2, a1]; decide) l2 (by rw [b2]) (by rw [b2]; decide) (by simp)
    ⟨10, by rw [b2, hB]; simp, by decide⟩
  obtain ⟨v3, _, _⟩ := f3 (by rw [o2]; decide)
  rw [b2, hB] at e3
  have hev : s3.events = [⟨CLIENT_OVERFL, some (0, x)⟩] := by
    rw [v3, v2, v1]; rfl
  refine ⟨s3, ?_, ?_, ?_⟩
  · rw [e1 2, e2 1, e3 0]; rfl
  · rw [hev]; exact count_ev_code _ _ _ _ (by decide)
  · rw [hev]; exact count_ev_hit _ _ _

/-- C2 (amended): for every message `M` without NUL, CR, LF, ^D and of at most
`BSIZ - 4` bytes, and for every way of splitting `M` followed by LF into
non-empty reads that arrive at an active slot with `bcnt = 0` and
`overflow = 0`, the passes that read them call the handler exactly once, with
`CLIENT_DATA` for that slot, and never with `CLIENT_OVERFL`; as many passes as
there are reads consume the whole stream. -/
theorem C2_split_message (h : Handler) (s : Srv) (i : Nat) (M : List Nat)
    (chunks : List (List Nat)) (fuel : Nat)
    (ha : (slot s i).sock ≠ 0) (hlen : (slot s i).inbuf.length = BSIZ)
    (hb0 : (slot s i).bcnt = 0) (hov : (slot s i).overflow = 0)
    (hM : ∀ b ∈ M, ¬ is_term b) (hML : M.length ≤ BSIZ - 4)
    (hne : ∀ c ∈ chunks, c ≠ []) (hj : chunks.flatten = M ++ [10])
    (hfuel : chunks.length ≤ fuel) :
    ∃ s1 e, feed h i fuel s chunks = some (s1, [])
      ∧ s1.events = s.events ++ [⟨CLIENT_DATA, some (i, e)⟩]
      ∧ count_ev CLIENT_DATA i s1.events = count_ev CLIENT_DATA i s.events + 1
      ∧ count_ev CLIENT_OVERFL i s1.events = count_ev CLIENT_OVERFL i s.events := by
  have hML2 : M.length ≤ 1020 := hML
  obtain ⟨s1, e, e1, v1⟩ := feed_message h i chunks s M fuel hfuel hne hj hM ha hlen
    (by rw [hb0]) (by rw [hb0]; omega) hov
  refine ⟨s1, e, e1, v1, ?_, ?_⟩
  · rw [v1, count_ev_append, count_ev_hit]
  · rw [v1, count_ev_snoc _ _ _ _ _ (by decide)]

/-- C2 (amended) at the message `"hello"`, which arrives as `"he"`, `"llo"` and
the line feed. -/
theorem C2_split_message_witness :
    ∃ s1 e, feed quiet 0 3 exSrv [[104, 101], [108, 108, 111], [10]] = some (s1, [])
      ∧ s1.events = exSrv.events ++ [⟨CLIENT_DATA, some (0, e)⟩]
      ∧ count_ev CLIENT_DATA 0 s1.events = count_ev CLIENT_DATA 0 exSrv.events + 1
      ∧ count_ev CLIENT_OVERFL 0 s1.events = count_ev CLIENT_OVERFL 0 exSrv.events :=
  C2_split_message quiet exSrv 0 [104, 101, 108, 108, 111] [[104, 101], [108, 108, 111], [10]] 3
    (by decide) (by simp [slot, exSrv]) (by decide) (by decide) (by decide) (by decide)
    (by decide) (by decide) (by decide)

/-- C4: at an active, ready slot with less than 4 bytes free the step does not
call `SSL_read`, calls the handler exactly once, with `CLIENT_OVERFL`, and
leaves the slot with `bcnt = 0` and `overflow` set; the slot stays active and
its descriptor stays in the read set (the handler is one that does not drop
the client while it handles `CLIENT_OVERFL`). -/
theorem C4_overflow_step (h : Handler) (fds : List Int) (rd : Rd) (s : Srv) (i : Nat)
    (ha : (slot s i).sock ≠ 0) (hr : (slot s i).sock ∈ fds) (hb : (slot s i).inbuf ≠ [])
    (hf : (BSIZ : Int) - (slot s i).bcnt < 4)
    (hq : ∀ c, h CLIENT_OVERFL c = false) :
    ∃ s1 c, client_input h fds rd s i = some s1
      ∧ s1.sys = s.sys
      ∧ s1.events = s.events ++ [⟨CLIENT_OVERFL, some (i, c)⟩]
      ∧ (slot s1 i).bcnt = 0 ∧ (slot s1 i).overflow = 1
      ∧ (slot s1 i).sock = (slot s i).sock ∧ (slot s1 i).ssl = (slot s i).ssl
      ∧ s1.RDSET = s.RDSET := by
  have hi := lt_of_active s i ha
  have key := client_input_overfl h fds rd s i ha hr hb hf
  rw [dispatch_quiet _ _ _ _ (hq _)] at key
  refine ⟨_, _, key, rfl, rfl, ?_⟩
  simp only [upd_emit, emit_RDSET, upd_RDSET, slot_emit, upd_upd, slot_upd_self _ _ _ hi,
    and_self]

/-- C4 at the client in slot 0 of `exFull`, whose buffer holds `BSIZ - 3` bytes. -/
theorem C4_overflow_step_witness :
    ∃ s1 c, client_input quiet [5] (Rd.data [97]) exFull 0 = some s1
      ∧ s1.sys = exFull.sys
      ∧ s1.events = exFull.events ++ [⟨CLIENT_OVERFL, some (0, c)⟩]
      ∧ (slot s1 0).bcnt = 0 ∧ (slot s1 0).overflow = 1
      ∧ (slot s1 0).sock = (slot exFull 0).sock ∧ (slot s1 0).ssl = (slot exFull 0).ssl
      ∧ s1.RDSET = exFull.RDSET :=
  C4_overflow_step quiet [5] (Rd.data [97]) exFull 0 (by decide) (by decide)
    (by simp [slot, exFull, exSrv, upd]) (by decide) (fun _ => rfl)

/-- C5: a stream whose first terminator `t` comes after more than `BSIZ` bytes
without a terminator, arriving in any non-empty records at an active slot with
`bcnt = 0` and `overflow = 0` (each read takes at most the free space), is
never handed to the handler: there is a number `n` of passes, the last of which
is the read that takes `t` (after `n` passes at most the bytes behind `t` are
still to be read, after fewer passes `t` is), such that up to then no
`CLIENT_DATA` was sent for the slot, at least one `CLIENT_OVERFL` was, and the
slot is left with `overflow = 0` and `bcnt = 0`.  The handler is one that does
not drop the client while it handles `CLIENT_OVERFL`. -/
theorem C5_overlong_message (h : Handler) (s : Srv) (i : Nat)
    (chunks : List (List Nat)) (pre : List Nat) (t : Nat) (rest : List Nat)
    (hq : ∀ x, h CLIENT_OVERFL x = false)
    (ha : (slot s i).sock ≠ 0) (hlen : (slot s i).inbuf.length = BSIZ)
    (hb0 : (slot s i).bcnt = 0) (hov : (slot s i).overflow = 0)
    (hne : ∀ c ∈ chunks, c ≠ []) (hj : chunks.flatten = pre ++ t :: rest)
    (hpre : ∀ b ∈ pre, ¬ is_term b) (ht : is_term t) (hlong : BSIZ < pre.length) :
    ∃ n s1 p1, feed h i n s chunks = some (s1, p1)
      ∧ p1.flatten.length ≤ rest.length
      ∧ (∀ m, m < n → ∀ s2 p2, feed h i m s chunks = some (s2, p2) →
          rest.length < p2.flatten.length)
      ∧ count_ev CLIENT_DATA i s1.events = count_ev CLIENT_DATA i s.events
      ∧ count_ev CLIENT_OVERFL i s.events < count_ev CLIENT_OVERFL i s1.events
      ∧ (slot s1 i).overflow = 0 ∧ (slot s1 i).bcnt = 0 := by
  obtain ⟨n, s1, p1, r1, r2, r3, r4, _, r6, r7, r8⟩ :=
    overlong_run h hq i t ht rest (2 * pre.length + 2) s chunks pre
      (by split <;> omega) ha hlen (by rw [hb0]) (by rw [hb0]; simp) hne hj hpre
      (Or.inr (by rw [hb0]; have : BSIZ = 1024 := rfl; omega))
  exact ⟨n, s1, p1, r1, r2, r3, r4, r6 hov, r7, r8⟩

/-- C5 at a line of 1025 letters and a line feed, held by the transport as one
record, for the client in slot 0 of `exSrv`. -/
theorem C5_overlong_message_witness :
    ∃ n s1 p1, feed quiet 0 n exSrv [List.replicate 1025 97 ++ [10]] = some (s1, p1)
      ∧ p1.flatten.length ≤ ([] : List Nat).length
      ∧ (∀ m, m < n → ∀ s2 p2,
          feed quiet 0 m exSrv [List.replicate 1025 97 ++ [10]] = some (s2, p2) →
          ([] : List Nat).length < p2.flatten.length)
      ∧ count_ev CLIENT_DATA 0 s1.events = count_ev CLIENT_DATA 0 exSrv.events
      ∧ count_ev CLIENT_OVERFL 0 exSrv.events < count_ev CLIENT_OVERFL 0 s1.events
      ∧ (slot s1 0).overflow = 0 ∧ (slot s1 0).bcnt = 0 :=
  C5_overlong_message quiet exSrv 0 [List.replicate 1025 97 ++ [10]] (List.replicate 1025 97)
    10 [] (fun _ => rfl) (by decide) (by simp [slot, exSrv]) (by decide) (by decide)
    (fun c hc => by
      rw [List.mem_singleton] at hc
      rw [hc]
      exact List.append_ne_nil_of_right_ne_nil _ (by decide))
    (by rw [List.flatten_cons, List.flatten_nil, List.append_nil])
    (fun b hb => by rw [List.eq_of_mem_replicate hb]; decide) (by decide)
    (by rw [List.length_replicate]; decide)

/-- C6: when a connection request arrives while a slot is unused, memory for a
buffer is available and the handshake succeeds, the accept block takes the
lowest unused slot `i` (every slot below `i` is active and is not changed), and
the handler is called exactly once, with `CLIENT_CONNECT` and that slot, which
then holds the new descriptor, `cid = i + 1`, `bcnt = 0`, `tictoc = 0` and
`overflow = 0`, whatever the slot held before; the descriptor is in the read
set, and the slot is left in that state when the handler does not drop it. -/
theorem C6_accept_lowest_slot (h : Handler) (a : AcceptIn) (s : Srv)
    (hlen : s.IPCL.length = MAXCL) (hex : ∃ j, j < MAXCL ∧ (slot s j).sock = 0)
    (hmem : a.mem ≠ []) (hhs : 0 < a.hs) (hcs : a.csock ≠ 0) :
    ∃ s1 i c, accept_phase h a s = some s1
      ∧ i < MAXCL ∧ (slot s i).sock = 0
      ∧ (∀ j, j < i → (slot s j).sock ≠ 0 ∧ slot s1 j = slot s j)
      ∧ s1.events = s.events ++ [⟨CLIENT_CONNECT, some (i, c)⟩]
      ∧ c.sock = a.csock ∧ c.sock ≠ 0 ∧ c.ssl = some a.ssl
      ∧ c.cid = (i : Int) + 1 ∧ c.bcnt = 0 ∧ c.tictoc = 0 ∧ c.overflow = 0
      ∧ (h CLIENT_CONNECT c = false → slot s1 i = c ∧ a.csock ∈ s1.RDSET) := by
  obtain ⟨hlt, hfree, hact⟩ := find_slot_of_free s hex
  have hi : find_slot s.IPCL < s.IPCL.length := by omega
  have key := accept_ok h a s (find_slot s.IPCL) hlt hlen hact hfree hmem hhs
  refine ⟨_, find_slot s.IPCL, _, key, hlt, hfree, ?_, dispatch_events _ _ _ _, ?_⟩
  · intro j hj
    refine ⟨hact j hj, ?_⟩
    rw [slot_dispatch_ne _ _ _ _ _ (by omega), slot_FD_SET, slot_upd_ne _ _ _ _ (by omega)]
  · rw [slot_FD_SET, slot_upd_self _ _ _ hi]
    refine ⟨rfl, hcs, rfl, rfl, rfl, rfl, rfl, ?_⟩
    intro hq
    have hq2 : h CLIENT_CONNECT (slot (FD_SET (upd s (find_slot s.IPCL) (fun c =>
        { c with
          inbuf := if c.inbuf = [] then a.mem else c.inbuf
          cid := (find_slot s.IPCL : Int) + 1, sock := a.csock, ip := a.ip, bcnt := 0
          tictoc := 0, overflow := 0, ssl := some a.ssl })) a.csock) (find_slot s.IPCL))
        = false := by
      rw [slot_FD_SET, slot_upd_self _ _ _ hi]
      exact hq
    rw [dispatch_quiet _ _ _ _ hq2, slot_emit, slot_FD_SET, slot_upd_self _ _ _ hi]
    exact ⟨rfl, by simp⟩

/-- C6 at the first connection request after initialisation: slot 0 is taken. -/
theorem C6_accept_lowest_slot_witness :
    ∃ s1 i c, accept_phase quiet ⟨4, 2130706433, List.replicate BSIZ 0, 1, 1⟩ (init 3 0) = some s1
      ∧ i < MAXCL ∧ (slot (init 3 0) i).sock = 0
      ∧ (∀ j, j < i → (slot (init 3 0) j).sock ≠ 0 ∧ slot s1 j = slot (init 3 0) j)
      ∧ s1.events = (init 3 0).events ++ [⟨CLIENT_CONNECT, some (i, c)⟩]
      ∧ c.sock = 4 ∧ c.sock ≠ 0 ∧ c.ssl = some 1
      ∧ c.cid = (i : Int) + 1 ∧ c.bcnt = 0 ∧ c.tictoc = 0 ∧ c.overflow = 0
      ∧ (quiet CLIENT_CONNECT c = false → slot s1 i = c ∧ (4 : Int) ∈ s1.RDSET) :=
  C6_accept_lowest_slot quiet ⟨4, 2130706433, List.replicate BSIZ 0, 1, 1⟩ (init 3 0)
    (by simp [init]) ⟨0, by decide, by decide⟩ (by simp) (by decide) (by decide)

/-- C7: when all `MAXCL` slots are active the accept block rejects the
connection: the handler is not called and the table and the read set are as
before.  Hence of `MAXCL + 1` successive connection requests with successful
handshakes, starting from the initialised table and with no drop in between,
exactly the first `MAXCL` lead to a `CLIENT_CONNECT` call; the last one gives
no call and changes no slot. -/
theorem C7_reject_when_full (h : Handler) :
    (∀ (a : AcceptIn) (s : Srv), (∀ j, j < MAXCL → (slot s j).sock ≠ 0) →
      ∃ s1, accept_phase h a s = some s1 ∧ s1.events = s.events ∧ s1.IPCL = s.IPCL
        ∧ s1.RDSET = s.RDSET)
    ∧ (∀ (lsock ctime : Int) (as : List AcceptIn), (∀ c, h CLIENT_CONNECT c = false) →
      as.length = MAXCL + 1 → (∀ a ∈ as, a.csock ≠ 0 ∧ 0 < a.hs ∧ a.mem ≠ []) →
      ∃ s1 s2, accept_all h (as.take MAXCL) (init lsock ctime) = some s1
        ∧ s1.events.length = MAXCL ∧ (∀ e ∈ s1.events, e.code = CLIENT_CONNECT)
        ∧ accept_all h as (init lsock ctime) = some s2
        ∧ s2.events = s1.events ∧ s2.IPCL = s1.IPCL) := by
  constructor
  · intro a s hact
    exact ⟨_, accept_reject h a s hact, rfl, rfl, rfl⟩
  · intro lsock ctime as hq hlen hgood
    have hz : ∀ j, (slot (init lsock ctime) j).sock = 0 := by
      intro j; rw [init_slot]; rfl
    have htl : (as.take MAXCL).length = MAXCL := by simp [hlen]
    obtain ⟨s1, e1, l1, a1, v1, c1⟩ := accept_fill h hq (as.take MAXCL) (init lsock ctime) 0
      (by omega) (fun a ha => hgood a (List.mem_of_mem_take ha)) (by simp [init])
      (fun j hj => by omega) (fun j _ => hz j) rfl (fun e he => by simp [init] at he)
    rw [htl] at a1 v1
    obtain ⟨a, hda⟩ : ∃ a, as.drop MAXCL = [a] := by
      have hdl : (as.drop MAXCL).length = 1 := by simp [hlen]
      match hd : as.drop MAXCL, hdl with
      | [a], _ => exact ⟨a, rfl⟩
    refine ⟨s1, syscall s1 [Sys.shutdown a.csock, Sys.closesocket a.csock], e1, by omega, c1,
      ?_, rfl, rfl⟩
    conv_lhs => rw [← List.take_append_drop MAXCL as]
    rw [accept_all_append, e1, hda]
    simp only [Option.some_bind, accept_all]
    rw [accept_reject h a s1 (fun j hj => a1 j (by omega))]

/-- C7 at the table `exAllActive`, whose slots are all taken, and at the
`MAXCL + 1` connection requests `exAccepts` after initialisation. -/
theorem C7_reject_when_full_witness :
    (∃ s1, accept_phase quiet ⟨40, 2130706433, [], 33, 1⟩ exAllActive = some s1
      ∧ s1.events = exAllActive.events ∧ s1.IPCL = exAllActive.IPCL
      ∧ s1.RDSET = exAllActive.RDSET)
    ∧ ∃ s1 s2, accept_all quiet (exAccepts.take MAXCL) (init 3 0) = some s1
      ∧ s1.events.length = MAXCL ∧ (∀ e ∈ s1.events, e.code = CLIENT_CONNECT)
      ∧ accept_all quiet exAccepts (init 3 0) = some s2
      ∧ s2.events = s1.events ∧ s2.IPCL = s1.IPCL :=
  ⟨(C7_reject_when_full quiet).1 ⟨40, 2130706433, [], 33, 1⟩ exAllActive (by decide),
   (C7_reject_when_full quiet).2 3 0 exAccepts (fun _ => rfl) (by simp [exAccepts])
    (by
      intro a ha
      simp only [exAccepts, List.mem_map, List.mem_range] at ha
      obtain ⟨n, _, rfl⟩ := ha
      refine ⟨by simp; omega, by simp, by simp⟩)⟩

/-- C8: `easyssl_drop` on a slot with `sock = 0` changes nothing; dropping a
slot twice gives the state that dropping it once gives; and in the two calls
together every descriptor is closed at most once and every session is freed at
most once. -/
theorem C8_drop_idempotent (s : Srv) (i : Nat) :
    ((slot s i).sock = 0 → easyssl_drop s i = s)
    ∧ easyssl_drop (easyssl_drop s i) i = easyssl_drop s i
    ∧ ∃ xs, (easyssl_drop (easyssl_drop s i) i).sys = s.sys ++ xs
        ∧ (∀ fd, xs.count (Sys.closesocket fd) ≤ 1)
        ∧ (∀ hd, xs.count (Sys.SSL_free hd) ≤ 1) := by
  refine ⟨drop_inactive s i, drop_drop s i, ?_⟩
  rw [drop_drop]
  by_cases ha : (slot s i).sock = 0
  · exact ⟨[], by rw [drop_inactive s i ha]; simp, by simp, by simp⟩
  · refine ⟨_, drop_sys s i ha, ?_, ?_⟩
    · intro fd
      cases (slot s i).ssl <;> simp [List.count_cons] <;> split <;> omega
    · intro hd
      cases (slot s i).ssl
      · simp [List.count_cons]
      · simp only [Option.toList, List.map_cons, List.map_nil, List.singleton_append,
          List.count_cons, List.count_nil]
        simp only [beq_iff_eq, reduceCtorEq, if_false, Nat.add_zero, Nat.zero_add]
        split <;> omega

/-- C8 at the unused slot 1 of `exSrv` (nothing changes) and at its connected
slot 0 (the second drop changes nothing). -/
theorem C8_drop_idempotent_witness :
    easyssl_drop exSrv 1 = exSrv
    ∧ easyssl_drop (easyssl_drop exSrv 0) 0 = easyssl_drop exSrv 0 :=
  ⟨(C8_drop_idempotent exSrv 1).1 (by decide), (C8_drop_idempotent exSrv 0).2.1⟩

/-- C9, as stated, fails: `easyssl_drop` leaves `bcnt` as it is; here three
bytes are buffered before the drop and `bcnt` is still 3 after it. -/
theorem C9_counterexample :
    (slot exBuffered 0).sock ≠ 0 ∧ (slot (easyssl_drop exBuffered 0) 0).bcnt = 3 := by
  refine ⟨by decide, ?_⟩
  rw [slot_drop_self exBuffered 0 (by decide) (by decide)]
  decide

/-- C9 (amended): after `easyssl_drop` on an active slot the slot is inactive
(`sock = 0`), its transport handle is released (`ssl = NULL`, `SSL_free` called
on the handle it had), and its descriptor is closed and no longer in the read
set; `bcnt` and the buffer are left as they were. -/
theorem C9_drop_active (s : Srv) (i : Nat) (ha : (slot s i).sock ≠ 0) :
    (slot (easyssl_drop s i) i).sock = 0
    ∧ (slot (easyssl_drop s i) i).ssl = none
    ∧ (slot s i).sock ∉ (easyssl_drop s i).RDSET
    ∧ (easyssl_drop s i).sys = s.sys ++ ((slot s i).ssl.toList.map Sys.SSL_free ++
        [Sys.shutdown (slot s i).sock, Sys.closesocket (slot s i).sock])
    ∧ (slot (easyssl_drop s i) i).bcnt = (slot s i).bcnt
    ∧ (slot (easyssl_drop s i) i).inbuf = (slot s i).inbuf := by
  have hi := lt_of_active s i ha
  refine ⟨drop_sock_zero s i, ?_, not_mem_drop_RDSET s i ha, drop_sys s i ha, ?_, ?_⟩ <;>
    rw [slot_drop_self s i hi ha]

/-- C9 (amended) at the client in slot 0 of `exBuffered`. -/
theorem C9_drop_active_witness :
    (slot (easyssl_drop exBuffered 0) 0).sock = 0
    ∧ (slot (easyssl_drop exBuffered 0) 0).ssl = none
    ∧ (slot exBuffered 0).sock ∉ (easyssl_drop exBuffered 0).RDSET
    ∧ (easyssl_drop exBuffered 0).sys = exBuffered.sys ++
        ((slot exBuffered 0).ssl.toList.map Sys.SSL_free ++
        [Sys.shutdown (slot exBuffered 0).sock, Sys.closesocket (slot exBuffered 0).sock])
    ∧ (slot (easyssl_drop exBuffered 0) 0).bcnt = (slot exBuffered 0).bcnt
    ∧ (slot (easyssl_drop exBuffered 0) 0).inbuf = (slot exBuffered 0).inbuf :=
  C9_drop_active exBuffered 0 (by decide)

/-- C10: a slot that is active with `tictoc = 0` and is then left alone by the
rest of the loop is still active, with no `CLIENT_TIMEOUT` call for it, after
each of the first 9 heartbeat ticks; the 10th tick calls the handler exactly
once with `CLIENT_TIMEOUT` for it and leaves it with `sock = 0`, so that the
search for a free slot of the accept block stops at its index or before. -/
theorem C10_idle_timeout (h : Handler) (gs : Nat → Srv → Srv) (s : Srv) (i : Nat)
    (hi : i < MAXCL) (ha : (slot s i).sock ≠ 0) (ht : (slot s i).tictoc = 0)
    (hg : ∀ k t, slot (gs k t) i = slot t i
      ∧ count_ev CLIENT_TIMEOUT i (gs k t).events = count_ev CLIENT_TIMEOUT i t.events) :
    (∀ k, k ≤ 9 →
      (slot (idle_run h gs s k) i).sock = (slot s i).sock
      ∧ count_ev CLIENT_TIMEOUT i (idle_run h gs s k).events
          = count_ev CLIENT_TIMEOUT i s.events)
    ∧ (slot (idle_run h gs s 10) i).sock = 0
    ∧ count_ev CLIENT_TIMEOUT i (idle_run h gs s 10).events
        = count_ev CLIENT_TIMEOUT i s.events + 1
    ∧ find_slot (idle_run h gs s 10).IPCL ≤ i := by
  obtain ⟨t1, t2⟩ := idle_run_tenth h gs s i hi ha ht hg
  refine ⟨?_, t1, t2, find_slot_le _ _ t1⟩
  intro k hk
  obtain ⟨k1, k2⟩ := idle_run_slot h gs s i hi ha ht hg k hk
  exact ⟨by rw [k1], k2⟩

/-- C10 at the client in slot 0 of `exSrv`, with nothing happening between the
ticks. -/
theorem C10_idle_timeout_witness :
    (∀ k, k ≤ 9 →
      (slot (idle_run quiet (fun _ t => t) exSrv k) 0).sock = (slot exSrv 0).sock
      ∧ count_ev CLIENT_TIMEOUT 0 (idle_run quiet (fun _ t => t) exSrv k).events
          = count_ev CLIENT_TIMEOUT 0 exSrv.events)
    ∧ (slot (idle_run quiet (fun _ t => t) exSrv 10) 0).sock = 0
    ∧ count_ev CLIENT_TIMEOUT 0 (idle_run quiet (fun _ t => t) exSrv 10).events
        = count_ev CLIENT_TIMEOUT 0 exSrv.events + 1
    ∧ find_slot (idle_run quiet (fun _ t => t) exSrv 10).IPCL ≤ 0 :=
  C10_idle_timeout quiet (fun _ t => t) exSrv 0 (by decide) (by decide) (by decide)
    (fun _ _ => ⟨rfl, rfl⟩)

/-- C11: in a pass of the loop the handler is called with `TIMER_EXPIRED` and
the `NULL` pointer exactly once when `ctime - ptime >= 60` and not at all
otherwise, whatever the table and the answer of `select`; the call comes after
every `CLIENT_TIMEOUT` call of the pass.  The timeout block itself makes the
`CLIENT_TIMEOUT` calls and then this call; the calls of the rest of the pass
are neither `TIMER_EXPIRED` nor `CLIENT_TIMEOUT`; and from a state of the
server a pass in which `select` succeeds and `malloc` gives memory is
completed. -/
theorem C11_timer_expired (h : Handler) :
    (∀ (c : Int) (s : Srv), ∃ T,
        (timeout_phase h c s).events
          = s.events ++ T ++ (if c - s.ptime ≥ 60 then [⟨TIMER_EXPIRED, none⟩] else [])
        ∧ ∀ e ∈ T, e.code = CLIENT_TIMEOUT)
    ∧ (∀ (i : IterIn) (s t : Srv), easyssl_pass h i s = some t →
        ∃ T rest,
          t.events = s.events ++ T
            ++ (if i.ctime - s.ptime ≥ 60 then [⟨TIMER_EXPIRED, none⟩] else []) ++ rest
          ∧ (∀ e ∈ T, e.code = CLIENT_TIMEOUT)
          ∧ (∀ e ∈ rest, e.code ≠ TIMER_EXPIRED ∧ e.code ≠ CLIENT_TIMEOUT))
    ∧ (∀ (i : IterIn) (s : Srv), Reach h s → 0 ≤ i.selcnt →
        (i.lready = true → i.acc.mem.length = BSIZ) →
        ∃ t, easyssl_pass h i s = some t) := by
  refine ⟨?_, ?_, fun i s hr hsel hmem => pass_total h i s hr hsel hmem⟩
  · intro c s
    obtain ⟨T, X, hTX, hT, _, hX⟩ := timeout_phase_split h c s
    refine ⟨T, ?_, fun e he => (hT e he).1⟩
    rcases hX with ⟨hc, rfl⟩ | ⟨hc, rfl, rfl⟩
    · rw [if_pos hc]; exact hTX
    · rw [if_neg hc]; exact hTX
  · intro i s t hs
    obtain ⟨T, X, C, R, hE, hT, _, hX, hC, hR, _⟩ := pass_events h i s t hs
    refine ⟨T, C ++ R, ?_, fun e he => (hT e he).1, ?_⟩
    · rcases hX with ⟨hc, rfl⟩ | ⟨hc, rfl, rfl⟩
      · rw [if_pos hc, hE]; simp
      · rw [if_neg hc, hE]; simp
    · intro e he
      rcases List.mem_append.mp he with he | he
      · rcases hC with rfl | ⟨k, c, rfl⟩
        · exact absurd he (List.not_mem_nil e)
        · rw [List.mem_singleton.mp he]
          show CLIENT_CONNECT ≠ TIMER_EXPIRED ∧ CLIENT_CONNECT ≠ CLIENT_TIMEOUT
          exact ⟨by decide, by decide⟩
      · rcases (hR e he).1 with r | r | r <;> rw [r] <;> exact ⟨by decide, by decide⟩

/-- C11 at the table with no active slot: 65 seconds after the minute boundary
a pass in which `select` times out is completed and calls the handler with
`TIMER_EXPIRED`. -/
theorem C11_timer_expired_witness :
    ∃ t, easyssl_pass quiet exIdle (init 3 60) = some t
      ∧ ∃ T rest,
          t.events = (init 3 60).events ++ T
            ++ (if exIdle.ctime - (init 3 60).ptime ≥ 60 then [⟨TIMER_EXPIRED, none⟩] else [])
            ++ rest
          ∧ (∀ e ∈ T, e.code = CLIENT_TIMEOUT)
          ∧ (∀ e ∈ rest, e.code ≠ TIMER_EXPIRED ∧ e.code ≠ CLIENT_TIMEOUT) :=
  ((C11_timer_expired quiet).2.2 exIdle (init 3 60) (Reach.start 3 60) (by decide)
    (by decide)).imp
    (fun t ht => ⟨ht, (C11_timer_expired quiet).2.1 exIdle (init 3 60) t ht⟩)

/-- C12: the handler is called while the slot is still active.  At the end of
data the client of slot 0 of `exSrv` is handed over with `CLIENT_ERROR` while
its descriptor is still 5 and its session handle still set, and is dropped
only afterwards; the same holds with `CLIENT_TIMEOUT` at the tenth tick
without activity; and with `CLIENT_OVERFL` the client of slot 0 of `exFull` is
handed over with its descriptor 5 and is not dropped afterwards either.  The
comments of `easyssl.c` and `easyssl.h` say that the client is dropped at
these events. -/
theorem C12_called_before_drop :
    (∃ t cl, client_input quiet [5] Rd.eof exSrv 0 = some t
      ∧ t.events = [⟨CLIENT_ERROR, some (0, cl)⟩] ∧ cl.sock = 5 ∧ cl.ssl = some 1
      ∧ (slot t 0).sock = 0)
    ∧ (∃ cl, (tick_client quiet (upd exSrv 0 (fun c => { c with tictoc := 9 })) 0).events
        = [⟨CLIENT_TIMEOUT, some (0, cl)⟩] ∧ cl.sock = 5 ∧ cl.ssl = some 1
      ∧ (slot (tick_client quiet (upd exSrv 0 (fun c => { c with tictoc := 9 })) 0) 0).sock
          = 0)
    ∧ (∃ t cl, client_input quiet [5] (Rd.data [97]) exFull 0 = some t
      ∧ t.events = [⟨CLIENT_OVERFL, some (0, cl)⟩] ∧ cl.sock = 5 ∧ cl.ssl = some 1
      ∧ (slot t 0).sock = 5) := by
  refine ⟨?_, ?_, ?_⟩
  · have hf : ¬ (BSIZ : Int) - (slot exSrv 0).bcnt < 4 := by decide
    exact ⟨_, _, client_input_fail quiet [5] Rd.eof exSrv 0 (by decide) (by decide)
      (by simp [slot, exSrv]) hf (by decide),
      by rw [drop_events, dispatch_events]; rfl, rfl, rfl, rfl⟩
  · exact ⟨_, rfl, rfl, rfl, rfl⟩
  · have hf : (BSIZ : Int) - (slot exFull 0).bcnt < 4 := by decide
    exact ⟨_, _, client_input_overfl quiet [5] (Rd.data [97]) exFull 0 (by decide) (by decide)
      (by simp [slot, exFull, exSrv, upd]) hf,
      by rw [upd_events, dispatch_events]; rfl, rfl, rfl, rfl⟩

/-- C13: the calls of the handler in one pass come in the order of the phases
and of the slots: first the `CLIENT_TIMEOUT` calls, then the `TIMER_EXPIRED`
call, then the `CLIENT_CONNECT` call (at most one), then the calls with
`CLIENT_DATA`, `CLIENT_ERROR` or `CLIENT_OVERFL`; the slot indices of the
`CLIENT_TIMEOUT` calls are strictly increasing, and so are those of the calls
of the input loop, so that each phase calls at most once for a slot. -/
theorem C13_event_order (h : Handler) (i : IterIn) (s t : Srv)
    (hs : easyssl_pass h i s = some t) :
    ∃ T X C R, t.events = s.events ++ T ++ X ++ C ++ R
      ∧ (∀ e ∈ T, e.code = CLIENT_TIMEOUT ∧ ∃ j c, e.arg = some (j, c))
      ∧ (X = [] ∨ X = [⟨TIMER_EXPIRED, none⟩])
      ∧ (C = [] ∨ ∃ k c, C = [⟨CLIENT_CONNECT, some (k, c)⟩])
      ∧ (∀ e ∈ R, (e.code = CLIENT_DATA ∨ e.code = CLIENT_ERROR ∨ e.code = CLIENT_OVERFL)
          ∧ ∃ j c, e.arg = some (j, c))
      ∧ (slots_of T).Pairwise (· < ·) ∧ (slots_of R).Pairwise (· < ·)
      ∧ (slots_of T).Nodup ∧ (slots_of R).Nodup := by
  obtain ⟨T, X, C, R, hE, hT, hTp, hX, hC, hR, hRp⟩ := pass_events h i s t hs
  refine ⟨T, X, C, R, hE, hT, ?_, hC, hR, hTp, hRp,
    hTp.imp (fun hlt => Nat.ne_of_lt hlt), hRp.imp (fun hlt => Nat.ne_of_lt hlt)⟩
  rcases hX with ⟨_, hX⟩ | ⟨_, hX, _⟩
  · exact Or.inr hX
  · exact Or.inl hX

/-- C13 at a pass over the initialised table, 65 seconds after the minute
boundary, in which a connection request arrives and the new client sends
`"a\n"`: the handler is called with `TIMER_EXPIRED`, `CLIENT_CONNECT` and
`CLIENT_DATA`, in this order. -/
theorem C13_event_order_witness :
    ∃ t, easyssl_pass quiet exBusy (init 3 60) = some t
      ∧ t.events.map Event.code = [TIMER_EXPIRED, CLIENT_CONNECT, CLIENT_DATA]
      ∧ ∃ T X C R, t.events = (init 3 60).events ++ T ++ X ++ C ++ R
        ∧ (∀ e ∈ T, e.code = CLIENT_TIMEOUT ∧ ∃ j c, e.arg = some (j, c))
        ∧ (X = [] ∨ X = [⟨TIMER_EXPIRED, none⟩])
        ∧ (C = [] ∨ ∃ k c, C = [⟨CLIENT_CONNECT, some (k, c)⟩])
        ∧ (∀ e ∈ R, (e.code = CLIENT_DATA ∨ e.code = CLIENT_ERROR ∨ e.code = CLIENT_OVERFL)
            ∧ ∃ j c, e.arg = some (j, c))
        ∧ (slots_of T).Pairwise (· < ·) ∧ (slots_of R).Pairwise (· < ·)
        ∧ (slots_of T).Nodup ∧ (slots_of R).Nodup :=
  busy_pass.imp (fun t ht =>
    ⟨ht.1, ht.2, C13_event_order quiet exBusy (init 3 60) t ht.1⟩)

/-- C14, as stated, fails: one read of `"a\nb\n"` into the empty buffer of the
client in slot 0 of `exSrv` gives one `CLIENT_DATA` call with the string
`"a\n"`; the NUL is stored over the `b`, `bcnt` is set back to 0, the transport
holds nothing more, and however many passes follow, the record of calls stays
at that one call: the second message is never handed over. -/
theorem C14_counterexample :
    ∃ s1 c, client_input quiet [5] (Rd.data [97, 10, 98, 10]) exSrv 0 = some s1
      ∧ s1.events = [⟨CLIENT_DATA, some (0, c)⟩]
      ∧ cstr c.inbuf = [97, 10]
      ∧ c.inbuf.getD 2 0 = 0
      ∧ (slot s1 0).bcnt = 0
      ∧ SSL_rest (Rd.data [97, 10, 98, 10]) ((BSIZ : Int) - (slot exSrv 0).bcnt) = []
      ∧ ∀ n, feed quiet 0 (n + 1) exSrv [[97, 10, 98, 10]] = some (s1, []) :=
  first_only quiet [5] exSrv 0 [97] [98, 10] 10 (by decide) (by decide)
    (by simp [slot, exSrv]) (by decide) (by decide) (by decide) (by decide) (by decide)

/-- C14 (amended): when one read stores a message `M` without terminator, a
terminator `t` (CR, LF or ^D) and further bytes `rest`, fewer than `BSIZ` bytes
in all, into the empty buffer of an active slot that is not in overflow, the
step calls the handler once, with `CLIENT_DATA` and the string `M` followed by
`t`.  The scan stops at this first terminator and is not taken up again: the
NUL is stored over the byte after the terminator, `bcnt` is set back to 0, the
transport holds nothing more of the read, and however many passes follow,
nothing more is handed over; the bytes behind the first terminator are
discarded. -/
theorem C14_first_message_only (h : Handler) (fds : List Int) (s : Srv) (i : Nat)
    (M rest : List Nat) (t : Nat)
    (ha : (slot s i).sock ≠ 0) (hr : (slot s i).sock ∈ fds)
    (hlen : (slot s i).inbuf.length = BSIZ) (hb0 : (slot s i).bcnt = 0)
    (hov : (slot s i).overflow = 0)
    (hM : ∀ b ∈ M, ¬ is_term b) (ht : t = 10 ∨ t = 13 ∨ t = 4)
    (hfit : M.length + 1 + rest.length < BSIZ) :
    ∃ s1 c, client_input h fds (Rd.data (M ++ t :: rest)) s i = some s1
      ∧ s1.events = s.events ++ [⟨CLIENT_DATA, some (i, c)⟩]
      ∧ cstr c.inbuf = M ++ [t]
      ∧ c.inbuf.getD (M.length + 1) 0 = 0
      ∧ (slot s1 i).bcnt = 0
      ∧ SSL_rest (Rd.data (M ++ t :: rest)) ((BSIZ : Int) - (slot s i).bcnt) = []
      ∧ ∀ n, feed h i (n + 1) s [M ++ t :: rest] = some (s1, []) :=
  first_only h fds s i M rest t ha hr hlen hb0 hov hM ht hfit

/-- C14 (amended) at the client in slot 0 of `exSrv` and one read of
`"hi\r\nyo\n"`. -/
theorem C14_first_message_only_witness :
    ∃ s1 c, client_input quiet [5] (Rd.data ([104, 105] ++ 13 :: [10, 121, 111, 10])) exSrv 0
        = some s1
      ∧ s1.events = exSrv.events ++ [⟨CLIENT_DATA, some (0, c)⟩]
      ∧ cstr c.inbuf = [104, 105] ++ [13]
      ∧ c.inbuf.getD (([104, 105] : List Nat).length + 1) 0 = 0
      ∧ (slot s1 0).bcnt = 0
      ∧ SSL_rest (Rd.data ([104, 105] ++ 13 :: [10, 121, 111, 10]))
          ((BSIZ : Int) - (slot exSrv 0).bcnt) = []
      ∧ ∀ n, feed quiet 0 (n + 1) exSrv [[104, 105] ++ 13 :: [10, 121, 111, 10]]
          = some (s1, []) :=
  C14_first_message_only quiet [5] exSrv 0 [104, 105] [10, 121, 111, 10] 13
    (by decide) (by decide) (by simp [slot, exSrv]) (by decide) (by decide) (by decide)
    (by decide) (by decide)

/-- C15: at an active, ready slot with at least 4 bytes free, a read that
returns `n > 0` bytes none of which is NUL, CR, LF or ^D makes no call of the
handler, leaves `sock` and `overflow` as they were, raises `bcnt` by `n`, keeps
the bytes buffered before and stores the new bytes behind them, and sets
`tictoc` to 0. -/
theorem C15_read_without_terminator (h : Handler) (fds : List Int) (s : Srv) (i : Nat)
    (bytes : List Nat)
    (ha : (slot s i).sock ≠ 0) (hr : (slot s i).sock ∈ fds)
    (hlen : (slot s i).inbuf.length = BSIZ) (hb0 : 0 ≤ (slot s i).bcnt)
    (hf : 4 ≤ (BSIZ : Int) - (slot s i).bcnt) (hn : bytes ≠ [])
    (hfit : (bytes.length : Int) ≤ (BSIZ : Int) - (slot s i).bcnt)
    (hfree : ∀ b ∈ bytes, ¬ is_term b) :
    ∃ s1, client_input h fds (Rd.data bytes) s i = some s1
      ∧ s1.events = s.events
      ∧ (slot s1 i).sock = (slot s i).sock
      ∧ (slot s1 i).overflow = (slot s i).overflow
      ∧ (slot s1 i).bcnt = (slot s i).bcnt + (bytes.length : Int)
      ∧ (slot s1 i).tictoc = 0
      ∧ (slot s1 i).inbuf.length = BSIZ
      ∧ (slot s1 i).inbuf.take (slot s i).bcnt.toNat = (slot s i).inbuf.take (slot s i).bcnt.toNat
      ∧ ((slot s1 i).inbuf.drop (slot s i).bcnt.toNat).take bytes.length = bytes := by
  have hBn : BSIZ = 1024 := rfl
  have hi := lt_of_active s i ha
  have key := read_plain h fds s i bytes ha hr hlen hb0 hf hn hfit hfree
  refine ⟨upd (syscall s [Sys.SSL_read (slot s i).ssl ((BSIZ : Int) - (slot s i).bcnt)]) i
        (fun _ => after_read (slot s i) (((bytes.length : Nat) : Int), bytes)), key, rfl, ?_⟩
  rw [slot_upd_self _ _ _ (by simpa using hi)]
  refine ⟨rfl, rfl, rfl, rfl, ?_, ?_, ?_⟩
  · rw [after_read_length _ _ (by omega)]; exact hlen
  · exact poke_take _ _ _ (by omega)
  · exact poke_drop_take _ _ _ (by omega)

/-- C15 at the client in slot 0 of `exBuffered`, which has 3 bytes buffered and
reads the 2 bytes `"yo"`. -/
theorem C15_read_without_terminator_witness :
    ∃ s1, client_input quiet [5] (Rd.data [121, 111]) exBuffered 0 = some s1
      ∧ s1.events = exBuffered.events
      ∧ (slot s1 0).sock = (slot exBuffered 0).sock
      ∧ (slot s1 0).overflow = (slot exBuffered 0).overflow
      ∧ (slot s1 0).bcnt = (slot exBuffered 0).bcnt + (([121, 111] : List Nat).length : Int)
      ∧ (slot s1 0).tictoc = 0
      ∧ (slot s1 0).inbuf.length = BSIZ
      ∧ (slot s1 0).inbuf.take (slot exBuffered 0).bcnt.toNat
          = (slot exBuffered 0).inbuf.take (slot exBuffered 0).bcnt.toNat
      ∧ ((slot s1 0).inbuf.drop (slot exBuffered 0).bcnt.toNat).take
          ([121, 111] : List Nat).length = [121, 111] :=
  C15_read_without_terminator quiet [5] exBuffered 0 [121, 111] (by decide) (by decide)
    (by simp [slot, exBuffered, exSrv, upd, poke]; rfl) (by decide) (by decide) (by decide)
    (by decide) (by decide)

/-- C16: at a clock reading `c >= 0` with `c - ptime >= 60` the timeout block
sets `ptime` to `c - (c mod 60)`, a multiple of 60 with `ptime <= c < ptime + 60`
that is greater than the old boundary when that was a multiple of 60; with
this boundary no later reading in the same minute (in particular the same
reading again) starts another tick, whatever else has happened to the state;
and `ptime` is a multiple of 60 in every state of the server. -/
theorem C16_minute_alignment (h : Handler) :
    (∀ (c : Int) (s : Srv), 0 ≤ c → c - s.ptime ≥ 60 →
      (timeout_phase h c s).ptime = c - c % 60
      ∧ (60 : Int) ∣ (timeout_phase h c s).ptime
      ∧ (timeout_phase h c s).ptime ≤ c ∧ c < (timeout_phase h c s).ptime + 60
      ∧ ((60 : Int) ∣ s.ptime → s.ptime < (timeout_phase h c s).ptime)
      ∧ ∀ (c2 : Int) (s2 : Srv), s2.ptime = (timeout_phase h c s).ptime → c ≤ c2 →
          c2 - c2 % 60 = c - c % 60 → timeout_phase h c2 s2 = s2)
    ∧ (∀ s, Reach h s → (60 : Int) ∣ s.ptime) := by
  refine ⟨?_, reach_ptime h⟩
  intro c s hc hge
  have hp : (timeout_phase h c s).ptime = c - c % 60 := by
    rw [timeout_phase_ptime, if_pos hge, Int.tmod_eq_emod hc (by decide)]
  rw [hp]
  refine ⟨rfl, by omega, by omega, by omega, fun hd => by omega, ?_⟩
  intro c2 s2 hs2 hle hmin
  unfold timeout_phase
  rw [if_neg]
  rw [hs2]
  omega

/-- C16 at the reading 130 with the boundary 60: the new boundary is 120, and
the reading 150 in the same minute starts no tick. -/
theorem C16_minute_alignment_witness :
    (timeout_phase quiet 130 (set_ptime exSrv 60)).ptime = 130 - 130 % 60
    ∧ (60 : Int) ∣ (timeout_phase quiet 130 (set_ptime exSrv 60)).ptime
    ∧ (timeout_phase quiet 130 (set_ptime exSrv 60)).ptime ≤ 130
    ∧ (130 : Int) < (timeout_phase quiet 130 (set_ptime exSrv 60)).ptime + 60
    ∧ (set_ptime exSrv 60).ptime < (timeout_phase quiet 130 (set_ptime exSrv 60)).ptime
    ∧ timeout_phase quiet 150 (timeout_phase quiet 130 (set_ptime exSrv 60))
        = timeout_phase quiet 130 (set_ptime exSrv 60) :=
  have w := (C16_minute_alignment quiet).1 130 (set_ptime exSrv 60) (by decide) (by decide)
  ⟨w.1, w.2.1, w.2.2.1, w.2.2.2.1, w.2.2.2.2.1 (by decide),
    w.2.2.2.2.2 150 _ rfl (by decide) (by decide)⟩

/-- C17: in every state of the server (reached from the initialised table by
the timeout block, the accept block, input steps and calls of `easyssl_drop`,
a read returning no more than the free space asked for) every slot has
`0 <= bcnt <= BSIZ`, and so has the structure given to the handler with every
`CLIENT_DATA` call, where `my_findterm` has counted the terminator it kept. -/
theorem C17_bcnt_bounds (h : Handler) (s : Srv) (hr : Reach h s) :
    (∀ j, 0 ≤ (slot s j).bcnt ∧ (slot s j).bcnt ≤ BSIZ)
    ∧ ∀ e ∈ s.events, e.code = CLIENT_DATA →
        ∃ j c, e.arg = some (j, c) ∧ 0 ≤ c.bcnt ∧ c.bcnt ≤ BSIZ := by
  obtain ⟨_, hok, hev⟩ := reach_ok h s hr
  refine ⟨fun j => ⟨(hok j).2.2.2.1, (hok j).2.2.2.2.1⟩, ?_⟩
  intro e he hd
  obtain ⟨j, c, hj, hc⟩ := hev e he hd
  exact ⟨j, c, hj, hc.1, hc.2.1⟩

/-- C17 at the state reached from the initialised table by one connection
request and one read of `"a\n"` for the new client. -/
theorem C17_bcnt_bounds_witness :
    ∃ t u, accept_phase quiet exAcc (init 3 0) = some t
      ∧ client_input quiet [4] (Rd.data [97, 10]) t 0 = some u
      ∧ (∀ j, 0 ≤ (slot u j).bcnt ∧ (slot u j).bcnt ≤ BSIZ)
      ∧ ∀ e ∈ u.events, e.code = CLIENT_DATA →
          ∃ j c, e.arg = some (j, c) ∧ 0 ≤ c.bcnt ∧ c.bcnt ≤ BSIZ := by
  obtain ⟨t, ht⟩ := accept_total quiet exAcc (init 3 0) (by simp [exAcc])
  have hrt : Reach quiet t :=
    Reach.accept exAcc _ t (Reach.start 3 0) (Or.inr (by simp [exAcc])) ht
  obtain ⟨u, hu⟩ := client_input_total quiet [4] (Rd.data [97, 10]) t 0
    ((reach_ok quiet t hrt).2.1 0)
  exact ⟨t, u, ht, hu, C17_bcnt_bounds quiet u (Reach.input _ _ _ t u hrt hu)⟩

/-- C18: for a structure with a buffer of `BSIZ` bytes and `bcnt <= BSIZ`
after a read of `rdcnt >= 1` bytes stored from the offset `bcnt - rdcnt` on,
the offset `my_findterm` returns is below `BSIZ`, the NUL stands there
afterwards and nothing else in the buffer is changed; and in every state of
the server the structure given with each `CLIENT_DATA` call has a NUL at an
index below both `bcnt` and `BSIZ`, so that the string at `inbuf` ends inside
the first `bcnt` bytes of the buffer. -/
theorem C18_nul_terminated (h : Handler) :
    (∀ (cl cl1 : ipclient) (p : Nat), cl.inbuf.length = BSIZ → cl.bcnt ≤ BSIZ →
        1 ≤ cl.rdcnt → cl.bptr = cl.bcnt - cl.rdcnt → 0 ≤ cl.bptr →
        my_findterm cl = (some p, cl1) →
        p < BSIZ ∧ cl1.inbuf = cl.inbuf.set p 0 ∧ cl1.inbuf.getD p 0 = 0
          ∧ (p : Int) < cl1.bcnt ∧ cl1.bcnt ≤ BSIZ)
    ∧ (∀ s, Reach h s → ∀ e ∈ s.events, e.code = CLIENT_DATA →
        ∃ j c, e.arg = some (j, c) ∧ c.inbuf.length = BSIZ
          ∧ (∃ p : Nat, p < BSIZ ∧ (p : Int) < c.bcnt ∧ c.inbuf.getD p 0 = 0)
          ∧ (cstr c.inbuf).length < BSIZ ∧ ((cstr c.inbuf).length : Int) < c.bcnt) := by
  constructor
  · intro cl cl1 p hlen hb hrd hptr hp0 hft
    obtain ⟨k1, k2, k3, _, k5, k6, _⟩ := findterm_some_facts cl p cl1 hlen hb hrd hptr hp0 hft
    exact ⟨k1, k5, k6, k2, k3⟩
  · intro s hr e he hd
    obtain ⟨j, c, hj, hc⟩ := (reach_ok h s hr).2.2 e he hd
    exact ⟨j, c, hj, hc.2.2.1, hc.2.2.2, data_ok_cstr c hc⟩

/-- C18 at the structure of slot 0 of `exBuffered` after a read of `"yo\n"`,
and at the state reached from the initialised table by one connection request
and one read of `"a\n"`. -/
theorem C18_nul_terminated_witness :
    (∃ (p : Nat) (cl1 : ipclient),
        my_findterm (after_read (slot exBuffered 0)
          (((([121, 111, 10] : List Nat).length : Nat) : Int), [121, 111, 10])) = (some p, cl1)
        ∧ p < BSIZ
        ∧ cl1.inbuf = (after_read (slot exBuffered 0)
            (((([121, 111, 10] : List Nat).length : Nat) : Int), [121, 111, 10])).inbuf.set p 0
        ∧ cl1.inbuf.getD p 0 = 0 ∧ (p : Int) < cl1.bcnt ∧ cl1.bcnt ≤ BSIZ)
    ∧ ∃ t u, accept_phase quiet exAcc (init 3 0) = some t
      ∧ client_input quiet [4] (Rd.data [97, 10]) t 0 = some u
      ∧ ∀ e ∈ u.events, e.code = CLIENT_DATA →
        ∃ j c, e.arg = some (j, c) ∧ c.inbuf.length = BSIZ
          ∧ (∃ p : Nat, p < BSIZ ∧ (p : Int) < c.bcnt ∧ c.inbuf.getD p 0 = 0)
          ∧ (cstr c.inbuf).length < BSIZ ∧ ((cstr c.inbuf).length : Int) < c.bcnt := by
  constructor
  · have hlen : (slot exBuffered 0).inbuf.length = BSIZ := by
      simp [slot, exBuffered, exSrv, upd, poke]; rfl
    obtain ⟨p, hp⟩ := findterm_after_read_some (slot exBuffered 0) [121, 111, 10]
      (by rw [hlen]; decide) ⟨10, by simp, by decide⟩
    have hpair : my_findterm (after_read (slot exBuffered 0)
        (((([121, 111, 10] : List Nat).length : Nat) : Int), [121, 111, 10]))
        = (some p, (my_findterm (after_read (slot exBuffered 0)
          (((([121, 111, 10] : List Nat).length : Nat) : Int), [121, 111, 10]))).2) := by
      rw [← hp]
    exact ⟨p, _, hpair, (C18_nul_terminated quiet).1 _ _ p
      (by rw [after_read_length _ _ (by rw [hlen]; decide)]; exact hlen)
      (by decide) (by decide) (by decide) (by decide) hpair⟩
  · obtain ⟨t, ht⟩ := accept_total quiet exAcc (init 3 0) (by simp [exAcc])
    have hrt : Reach quiet t :=
      Reach.accept exAcc _ t (Reach.start 3 0) (Or.inr (by simp [exAcc])) ht
    obtain ⟨u, hu⟩ := client_input_total quiet [4] (Rd.data [97, 10]) t 0
      ((reach_ok quiet t hrt).2.1 0)
    exact ⟨t, u, ht, hu, (C18_nul_terminated quiet).2 u (Reach.input _ _ _ t u hrt hu)⟩

/-- C19: the input step for the slot `i` and the timeout step for the slot `i`
leave every field of every other slot `j` as it was (the handler can act on
the slot it is given only). -/
theorem C19_isolation (h : Handler) (fds : List Int) (rd : Rd) (s : Srv) (i j : Nat)
    (hij : j ≠ i) :
    (∀ t, client_input h fds rd s i = some t → slot t j = slot s j)
    ∧ slot (tick_client h s i) j = slot s j :=
  ⟨fun t ht => (local_client_input h fds rd s t i ht).2.2 j hij,
    (local_tick_client h i s).2.2 j hij⟩

/-- C19 at the table `exAllActive`: the client in slot 0 meets an end of data
and is dropped, or is looked at by the timeout loop; slot 1 is as before. -/
theorem C19_isolation_witness :
    ∃ t, client_input quiet [4] Rd.eof exAllActive 0 = some t
      ∧ slot t 1 = slot exAllActive 1
      ∧ slot (tick_client quiet exAllActive 0) 1 = slot exAllActive 1 :=
  ⟨_, client_input_fail quiet [4] Rd.eof exAllActive 0 (by decide) (by decide)
      (by simp [slot, exAllActive]) (by decide) (by decide),
    (C19_isolation quiet [4] Rd.eof exAllActive 0 1 (by decide)).1 _
      (client_input_fail quiet [4] Rd.eof exAllActive 0 (by decide) (by decide)
        (by simp [slot, exAllActive]) (by decide) (by decide)),
    (C19_isolation quiet [4] Rd.eof exAllActive 0 1 (by decide)).2⟩

/-- C20: in every state of the server none of the first `bcnt` bytes of the
buffer of a slot is a terminator (NUL, CR, LF, ^D); hence, after a read into
the buffer of a slot, the scan of `my_findterm` over the bytes just read finds
a terminator exactly when one of the first `bcnt` bytes of the buffer is a
terminator.  A pass of the loop leads from a state of the server to a state
of the server, so this holds between any two passes. -/
theorem C20_prefix_terminator_free (h : Handler) (s : Srv) (hr : Reach h s) :
    (∀ (j k : Nat), (k : Int) < (slot s j).bcnt → ¬ is_term ((slot s j).inbuf.getD k 0))
    ∧ (∀ (j : Nat) (taken : List Nat), (slot s j).inbuf ≠ [] → taken ≠ [] →
        (taken.length : Int) ≤ (BSIZ : Int) - (slot s j).bcnt →
        ((my_findterm (after_read (slot s j) (((taken.length : Nat) : Int), taken))).1 ≠ none
          ↔ ∃ k : Nat,
              (k : Int) < (after_read (slot s j) (((taken.length : Nat) : Int), taken)).bcnt
              ∧ is_term ((after_read (slot s j)
                  (((taken.length : Nat) : Int), taken)).inbuf.getD k 0)))
    ∧ ∀ (i : IterIn) (t : Srv),
        (i.lready = true → i.acc.mem = [] ∨ i.acc.mem.length = BSIZ) →
        easyssl_pass h i s = some t → Reach h t := by
  obtain ⟨_, hok, _⟩ := reach_ok h s hr
  exact ⟨fun j k hk => (hok j).2.2.2.2.2 k hk,
    fun j taken hbuf hne hfit => scan_iff (slot s j) taken (hok j) hbuf hne hfit,
    fun i t hmem hs => reach_pass h i s t hr hmem hs⟩

/-- C20 at the state reached from the initialised table by one connection
request and one read of `"ab"` for the new client, a state that a pass in
which the descriptor is ready again and `"a\n"` is read leads on to a state
of the server. -/
theorem C20_prefix_terminator_free_witness :
    ∃ t u, accept_phase quiet exAcc (init 3 0) = some t
      ∧ client_input quiet [4] (Rd.data [97, 98]) t 0 = some u
      ∧ (∀ (j k : Nat), (k : Int) < (slot u j).bcnt → ¬ is_term ((slot u j).inbuf.getD k 0))
      ∧ (∀ (j : Nat) (taken : List Nat), (slot u j).inbuf ≠ [] → taken ≠ [] →
        (taken.length : Int) ≤ (BSIZ : Int) - (slot u j).bcnt →
        ((my_findterm (after_read (slot u j) (((taken.length : Nat) : Int), taken))).1 ≠ none
          ↔ ∃ k : Nat,
              (k : Int) < (after_read (slot u j) (((taken.length : Nat) : Int), taken)).bcnt
              ∧ is_term ((after_read (slot u j)
                  (((taken.length : Nat) : Int), taken)).inbuf.getD k 0)))
      ∧ ∃ v, easyssl_pass quiet exBusy u = some v ∧ Reach quiet v := by
  obtain ⟨t, ht⟩ := accept_total quiet exAcc (init 3 0) (by simp [exAcc])
  have hrt : Reach quiet t :=
    Reach.accept exAcc _ t (Reach.start 3 0) (Or.inr (by simp [exAcc])) ht
  obtain ⟨u, hu⟩ := client_input_total quiet [4] (Rd.data [97, 98]) t 0
    ((reach_ok quiet t hrt).2.1 0)
  have hru : Reach quiet u := Reach.input _ _ _ t u hrt hu
  obtain ⟨v, hv⟩ := pass_total quiet exBusy u hru (by decide)
    (fun _ => by simp [exBusy, exAcc])
  exact ⟨t, u, ht, hu, (C20_prefix_terminator_free quiet u hru).1,
    (C20_prefix_terminator_free quiet u hru).2.1,
    v, hv, (C20_prefix_terminator_free quiet u hru).2.2 exBusy v
      (fun _ => Or.inr (by simp [exBusy, exAcc])) hv⟩

/-- C21: when the handler calls `easyssl_drop` on the structure it is given
with `CLIENT_CONNECT` or `CLIENT_DATA`, the slot is not taken into use again
in that pass of the loop: at the end of the pass `sock = 0`, `bcnt = 0` and
`overflow = 0` (and the session handle is `NULL` when the descriptor handed
over was not 0), no later call of the pass is for this slot, and the slot is
free for the next connection request: the loop "Find slot for the socket"
stops at it or before it, and at it when every lower slot is in use. -/
theorem C21_dropped_by_handler (h : Handler) (i : IterIn) (s t : Srv)
    (hlen : s.IPCL.length = MAXCL) (hs : easyssl_pass h i s = some t)
    (pre post : List Event) (code : Int) (j : Nat) (c : ipclient)
    (hev : t.events = s.events ++ pre ++ ⟨code, some (j, c)⟩ :: post)
    (hcode : code = CLIENT_CONNECT ∨ code = CLIENT_DATA)
    (hd : h code c = true) :
    (slot t j).sock = 0 ∧ (slot t j).bcnt = 0 ∧ (slot t j).overflow = 0
    ∧ (c.sock ≠ 0 → (slot t j).ssl = none)
    ∧ (∀ e ∈ post, ev_slot e ≠ some j)
    ∧ j < MAXCL ∧ find_slot t.IPCL ≤ j
    ∧ ((∀ k, k < j → (slot t k).sock ≠ 0) → find_slot t.IPCL = j) := by
  rw [List.append_assoc] at hev
  obtain ⟨q1, q2, q3, q4, q5, q6⟩ := pass_drop h i s t hlen hs pre post code j c hev hcode hd
  exact ⟨q2, q3, q4, q5, q6, q1, free_eligible t j q2 q1⟩

/-- C21 with the handler of `simple.c`: a client is accepted into slot 0 of the
initialised table, and in the next pass its message `"goodby\n"` is handed
over with `CLIENT_DATA`, at which the handler drops it. -/
theorem C21_dropped_by_handler_witness :
    ∃ t1 t c, easyssl_pass client_handler exConn (init 3 60) = some t1
      ∧ (slot t1 0).sock = 4
      ∧ easyssl_pass client_handler exBye t1 = some t
      ∧ t.events = t1.events ++ [] ++ ⟨CLIENT_DATA, some (0, c)⟩ :: []
      ∧ cstr c.inbuf = [103, 111, 111, 100, 98, 121, 10]
      ∧ (slot t 0).sock = 0 ∧ (slot t 0).bcnt = 0 ∧ (slot t 0).overflow = 0
      ∧ (c.sock ≠ 0 → (slot t 0).ssl = none)
      ∧ (∀ e ∈ ([] : List Event), ev_slot e ≠ some 0)
      ∧ 0 < MAXCL ∧ find_slot t.IPCL ≤ 0 ∧ find_slot t.IPCL = 0 := by
  obtain ⟨t1, t, c, h1, hlen, hsock, h2, hev, hstr, hd⟩ := bye_pass
  obtain ⟨w1, w2, w3, w4, w5, w6, w7, w8⟩ :=
    C21_dropped_by_handler client_handler exBye t1 t hlen h2 [] [] CLIENT_DATA 0 c hev
      (Or.inr rfl) hd
  exact ⟨t1, t, c, h1, hsock, h2, hev, hstr, w1, w2, w3, w4, w5, w6, w7,
    w8 (fun k hk => absurd hk (Nat.not_lt_zero k))⟩

end EasySSL
